import Mathlib

/-!
# DSAProg: influence-maximisation heuristics

A shallow embedding of the four programs of the repository
(`CELF.cpp`, `degree_centrality.cpp`, `betweenness_centrality.cpp`,
`proposed_algo.cpp`) and theorems about them.

Conventions of the embedding:

* `std::set<int>` is a strictly ascending list; iteration over the set is
  iteration over the list.
* `std::vector` is a list; an index outside the vector is undefined behaviour
  in the source and `none` here.
* a `double` is the rational number it stands for, and the result of an operation
  on doubles is rounded by `toDouble` (IEEE 754 round to nearest, ties to even);
  infinities and NaN are not modelled. Probabilities read from a file are the
  values of the doubles read.
* `int` counters are `Nat` or `Int` without overflow (signed overflow is undefined
  behaviour in the source).
* `rand()` and `time(0)` come from the C library; the generator is a parameter
  (`Stdlib.gen seed i` is the `i`-th value `rand()` returns after
  `srand(seed)`), the generator state is passed explicitly, and the value read
  from the clock is an argument.
* `while` loops take a fuel argument and return `none` when it runs out.
-/

namespace DSAProg

/-! ## `std::set<int>` -/

/-- The `insert` of `std::set<int>`: ordered insertion, an element already present is not
inserted again. The element type is `Nat` for the node ids of `class Graph` and `Int` for the
keys of the adjacency map of proposed_algo.cpp. -/
def setInsert {α : Type} [LinearOrder α] (x : α) : List α → List α
  | [] => [x]
  | y :: ys =>
    if x < y then x :: y :: ys
    else if x = y then y :: ys
    else y :: setInsert x ys

/-- The range form `s.insert(first, last)`: every element of `xs` is inserted into `s`. -/
def setInsertRange {α : Type} [LinearOrder α] (xs : List α) (s : List α) : List α :=
  xs.foldl (fun acc x => setInsert x acc) s

/-- The range constructor `set<int>(first, last)`. -/
def setOfList {α : Type} [LinearOrder α] (xs : List α) : List α :=
  setInsertRange xs []

/-! ## The C library random source -/

/-- The part of the C library the programs use: the constant `RAND_MAX` and the generator,
`gen seed i` being the `i`-th value returned by `rand()` after `srand(seed)`. -/
structure Stdlib where
  /-- The largest value `rand()` returns. -/
  RAND_MAX : Nat
  /-- The sequence of values of `rand()` for each seed. -/
  gen : Nat → Nat → Nat

/-- The generator produces values in `0..RAND_MAX` and `RAND_MAX` is positive. -/
def Stdlib.Valid (lib : Stdlib) : Prop :=
  0 < lib.RAND_MAX ∧ ∀ s i, lib.gen s i ≤ lib.RAND_MAX

/-- The state of the process-wide generator: the seed last given to `srand` and the number
of values drawn since. -/
structure RandState where
  /-- The seed of the last `srand`. -/
  seed : Nat
  /-- The number of calls of `rand()` since the last `srand`. -/
  pos : Nat
deriving DecidableEq, Repr

/-- The call `srand(s)`. -/
def srand (s : Nat) : RandState :=
  ⟨s, 0⟩

/-- The call `rand()`: the value and the new state. -/
def rand (lib : Stdlib) (st : RandState) : Nat × RandState :=
  (lib.gen st.seed st.pos, ⟨st.seed, st.pos + 1⟩)

/-! ## `double` arithmetic -/

/-- The power `2 ^ e` for an integer exponent. -/
def twoPow (e : Int) : ℚ :=
  if 0 ≤ e then ((2 ^ e.toNat : Nat) : ℚ) else 1 / ((2 ^ (-e).toNat : Nat) : ℚ)

/-- The integer nearest to `y`, the even one of the two when `y` lies half-way. -/
def roundHalfEven (y : ℚ) : Int :=
  if y - ⌊y⌋ < 1 / 2 then ⌊y⌋
  else if 1 / 2 < y - ⌊y⌋ then ⌊y⌋ + 1
  else if ⌊y⌋ % 2 = 0 then ⌊y⌋
  else ⌊y⌋ + 1

/-- The number of binary digits of `n`, by halving at most `fuel` times. -/
def bitLengthAux : Nat → Nat → Nat
  | 0, _ => 0
  | fuel + 1, n => if n = 0 then 0 else bitLengthAux fuel (n / 2) + 1

/-- The number of binary digits of `n`: the least `k` with `n < 2 ^ k`. -/
def bitLength (n : Nat) : Nat :=
  bitLengthAux n n

/-- The binary exponent of a non-zero `q`: the `e` with `2 ^ e ≤ |q| < 2 ^ (e + 1)`. -/
def binaryExponent (q : ℚ) : Int :=
  if |q| < twoPow ((bitLength q.num.natAbs : Int) - (bitLength q.den : Int)) then
    (bitLength q.num.natAbs : Int) - (bitLength q.den : Int) - 1
  else (bitLength q.num.natAbs : Int) - (bitLength q.den : Int)

/-- The value of the `double` nearest to `q` (IEEE 754 binary64, round to nearest, ties to
even): 53 significant bits, least exponent -1022 with subnormals below. The result of an
arithmetic operation on doubles is `toDouble` of the exact result. Overflow to infinity and
NaN are not modelled. -/
def toDouble (q : ℚ) : ℚ :=
  if q = 0 then 0
  else
    (roundHalfEven (q / twoPow (max (binaryExponent q) (-1022) - 52)) : ℚ)
      * twoPow (max (binaryExponent q) (-1022) - 52)

/-- The expression `rand() / (double)RAND_MAX` for a value `r` of `rand()`, which
proposed_algo.cpp writes `static_cast<double>(rand()) / RAND_MAX`: the quotient rounded to a
`double`. The two operands are `int`s of at most 53 bits, which convert to `double` without
rounding. -/
def sample (lib : Stdlib) (r : Nat) : ℚ :=
  toDouble ((r : ℚ) / (lib.RAND_MAX : ℚ))

/-! ## `class Graph` (CELF.cpp, degree_centrality.cpp, betweenness_centrality.cpp) -/

/-- The class `Graph`: the node count and the adjacency list with influence probabilities. -/
structure Graph where
  /-- The field `nodes`. -/
  nodes : Nat
  /-- The field `adjList`. -/
  adjList : List (List (Nat × ℚ))

/-- The constructor `Graph(n)`. -/
def Graph.create (n : Nat) : Graph :=
  ⟨n, List.replicate n []⟩

/-- The method `addEdge(u, v, prob)`; `none` when `u` or `v` is not an index of `adjList`. -/
def Graph.addEdge (g : Graph) (u v : Nat) (prob : ℚ) : Option Graph :=
  match g.adjList[u]? with
  | none => none
  | some ru =>
    let adj1 := g.adjList.set u (ru ++ [(v, prob)])
    match adj1[v]? with
    | none => none
    | some rv => some ⟨g.nodes, adj1.set v (rv ++ [(u, prob)])⟩

/-- A sequence of `addEdge` calls, as in the loop of `loadGraphFromFile`. -/
def Graph.addEdges (g : Graph) : List (Nat × Nat × ℚ) → Option Graph
  | [] => some g
  | (u, v, prob) :: rest =>
    match g.addEdge u v prob with
    | none => none
    | some g1 => Graph.addEdges g1 rest

/-- The adjacency list has one row per node and every neighbour id is a node id. -/
def Graph.WellFormed (g : Graph) : Prop :=
  g.adjList.length = g.nodes ∧ ∀ row ∈ g.adjList, ∀ e ∈ row, e.1 < g.nodes

/-! ## `independentCascade` -/

/-- The inner loop of `independentCascade` over the neighbours of one frontier node. A
neighbour already in `activated` draws no sample (`&&` short-circuits); otherwise one sample
is drawn and the neighbour is inserted into `nextActivated` when the `double`
`rand() / (double)RAND_MAX` (`sample`) is `<= prob`. -/
def attemptNeighbors (lib : Stdlib) (activated : List Nat) :
    List (Nat × ℚ) → List Nat → RandState → List Nat × RandState
  | [], nextActivated, rs => (nextActivated, rs)
  | (neighborNode, prob) :: rest, nextActivated, rs =>
    if neighborNode ∈ activated then
      attemptNeighbors lib activated rest nextActivated rs
    else
      if sample lib (rand lib rs).1 ≤ prob then
        attemptNeighbors lib activated rest (setInsert neighborNode nextActivated) (rand lib rs).2
      else
        attemptNeighbors lib activated rest nextActivated (rand lib rs).2

/-- The loop `for (int node : newActivated)` of one wave; `none` when a frontier node is not
an index of `adjList`. -/
def spreadWave (lib : Stdlib) (g : Graph) (activated : List Nat) :
    List Nat → List Nat → RandState → Option (List Nat × RandState)
  | [], nextActivated, rs => some (nextActivated, rs)
  | node :: rest, nextActivated, rs =>
    match g.adjList[node]? with
    | none => none
    | some nbrs =>
      spreadWave lib g activated rest
        (attemptNeighbors lib activated nbrs nextActivated rs).1
        (attemptNeighbors lib activated nbrs nextActivated rs).2

/-- The loop `while (!newActivated.empty())`. -/
def cascadeLoop (lib : Stdlib) (g : Graph) :
    Nat → List Nat → List Nat → RandState → Option (List Nat × RandState)
  | 0, _, _, _ => none
  | fuel + 1, activated, newActivated, rs =>
    match newActivated with
    | [] => some (activated, rs)
    | _ :: _ =>
      match spreadWave lib g activated newActivated [] rs with
      | none => none
      | some (nextActivated, rs1) =>
        cascadeLoop lib g fuel (setInsertRange nextActivated activated) nextActivated rs1

/-- The function `independentCascade(graph, seedNodes)`. `now` is the value of `time(0)`
and `rs` the state of the generator at the call, which `srand(time(0))` replaces. The result
is the activated set and the state of the generator at the return. -/
def independentCascade (lib : Stdlib) (fuel : Nat) (g : Graph) (seedNodes : List Nat)
    (now : Nat) (_rs : RandState) : Option (List Nat × RandState) :=
  cascadeLoop lib g fuel (setOfList seedNodes) (setOfList seedNodes) (srand now)

/-- A node reachable from a seed along edges whose probability satisfies `ok`. -/
inductive ReachableVia (g : Graph) (ok : ℚ → Prop) (seeds : List Nat) : Nat → Prop
  | seed {v : Nat} : v ∈ seeds → ReachableVia g ok seeds v
  | step {u v : Nat} {p : ℚ} : ReachableVia g ok seeds u →
      (v, p) ∈ g.adjList.getD u [] → ok p → ReachableVia g ok seeds v

/-- A node reachable from a seed along graph edges. -/
def Reachable (g : Graph) (seeds : List Nat) (v : Nat) : Prop :=
  ReachableVia g (fun _ => True) seeds v

/-- The path graph 0-1-2-3 with the probabilities `p1`, `p2`, `p3`, as `Graph(4)` followed
by `addEdge(0,1,p1)`, `addEdge(1,2,p2)`, `addEdge(2,3,p3)` leaves it. -/
def pathGraph4 (p1 p2 p3 : ℚ) : Graph :=
  ⟨4, [[(1, p1)], [(0, p1), (2, p2)], [(1, p2), (3, p3)], [(2, p3)]]⟩


/-! ## Auxiliary definitions for the cascade -/

/-- In the stream of seed `s`, a test `sample <= prob` on an edge of `g` succeeds only when
the probability satisfies `ok`. -/
def FiresOnly (lib : Stdlib) (g : Graph) (s : Nat) (ok : ℚ → Prop) : Prop :=
  ∀ i, ∀ row ∈ g.adjList, ∀ e ∈ row, sample lib (lib.gen s i) ≤ e.2 → ok e.2

/-- In the stream of seed `s`, a test `sample <= prob` on an edge of `g` succeeds whenever
the probability satisfies `ok`. -/
def AlwaysFires (lib : Stdlib) (g : Graph) (s : Nat) (ok : ℚ → Prop) : Prop :=
  ∀ i, ∀ row ∈ g.adjList, ∀ e ∈ row, ok e.2 → sample lib (lib.gen s i) ≤ e.2

/-- The number of node ids below `n` that are not in `A`. -/
def inactiveCount (n : Nat) (A : List Nat) : Nat :=
  ((List.range n).filter (fun v => decide (v ∉ A))).length

/-- A generator whose `rand()` always returns 0, with `RAND_MAX = 32767`. -/
def zeroLib : Stdlib :=
  ⟨32767, fun _ _ => 0⟩

/-- The graph `Graph(2)` after `addEdge(0, 1, p)`. -/
def edgeGraph (p : ℚ) : Graph :=
  ⟨2, [[(1, p)], [(0, p)]]⟩

/-- A generator with `RAND_MAX = 32767` whose `rand()` returns 0 on the first call after
`srand` and `RAND_MAX` on every later call. -/
def flipLib : Stdlib :=
  ⟨32767, fun _ i => if i = 0 then 0 else 32767⟩

/-- The graph `Graph(6)` after `addEdge(0,1,0.5)`, `addEdge(2,3,0.5)`, `addEdge(3,4,1)`,
`addEdge(3,5,1)`. -/
def forkGraph : Graph :=
  ⟨6, [[(1, 1/2)], [(0, 1/2)], [(3, 1/2)], [(2, 1/2), (4, 1), (5, 1)], [(3, 1)], [(3, 1)]]⟩

/-- A generator with `RAND_MAX = 4` whose `rand()` always returns 2, so that every sample
is 1/2. -/
def halfLib : Stdlib :=
  ⟨4, fun _ _ => 2⟩

/-! ## Sorting and selection shared by the heuristics -/

/-- The order `a >= b` of `std::pair`: lexicographic on the two components. -/
def pairGe {α : Type} [LinearOrder α] (a b : α × Nat) : Prop :=
  b.1 < a.1 ∨ (b.1 = a.1 ∧ b.2 ≤ a.2)

instance pairGeDecidable {α : Type} [LinearOrder α] : DecidableRel (pairGe (α := α)) :=
  fun a b => inferInstanceAs (Decidable (b.1 < a.1 ∨ (b.1 = a.1 ∧ b.2 ≤ a.2)))

/-- The call `sort(v.rbegin(), v.rend())` on a vector of pairs: the reversed range is sorted
ascending by `operator<` of `std::pair`, which leaves the vector descending. `std::sort`
returns the sorted permutation of its input; pairs that compare equal are identical, so the
result does not depend on the algorithm, and insertion sort stands for it. -/
def sortDescending {α : Type} [LinearOrder α] (v : List (α × Nat)) : List (α × Nat) :=
  v.insertionSort pairGe

/-- The loop `for (int i = 0; i < k; i++) seedNodes.push_back(v[i].second)`; `none` when an
index `i` is outside `v`. -/
def topSeeds {α : Type} (v : List (α × Nat)) : Nat → Option (List Nat)
  | 0 => some []
  | k + 1 =>
    match topSeeds v k, v[k]? with
    | some seedNodes, some e => some (seedNodes ++ [e.2])
    | _, _ => none

/-! ## `degreeCentrality` (degree_centrality.cpp) -/

/-- The loop `for (int i = 0; i < graph.nodes; i++) degrees.push_back({adjList[i].size(), i})`
over the indices `is`; `none` when an index is outside `adjList`. -/
def collectDegrees (g : Graph) : List Nat → Option (List (Nat × Nat))
  | [] => some []
  | i :: rest =>
    match g.adjList[i]?, collectDegrees g rest with
    | some row, some degrees => some ((row.length, i) :: degrees)
    | _, _ => none

/-- The function `degreeCentrality(graph, k)`. -/
def degreeCentrality (g : Graph) (k : Nat) : Option (List Nat) :=
  match collectDegrees g (List.range g.nodes) with
  | none => none
  | some degrees => topSeeds (sortDescending degrees) k

/-- The degree of a node: the number of its adjacency entries. -/
def degree (g : Graph) (v : Nat) : Nat :=
  (g.adjList.getD v []).length

/-! ## `betweennessCentrality` (betweenness_centrality.cpp) -/

/-- The vectors and the queue of the breadth-first search for one source. -/
structure BfsState where
  /-- The vector `shortestPaths`. -/
  shortestPaths : List Nat
  /-- The vector `predecessors`. -/
  predecessors : List (List Nat)
  /-- The queue `q`, front first. -/
  q : List Nat
  /-- The vector `distance`, -1 for a node not reached. -/
  distance : List Int

/-- The statement `if (distance[nextNode] == -1) { distance[nextNode] = distance[curr] + 1;
q.push(nextNode); }`; `none` when an index is outside `distance`. -/
def bfsDiscover (curr nextNode : Nat) (st : BfsState) : Option BfsState :=
  match st.distance[nextNode]?, st.distance[curr]? with
  | some dn, some dc =>
    if dn = -1 then
      some { st with distance := st.distance.set nextNode (dc + 1), q := st.q ++ [nextNode] }
    else some st
  | _, _ => none

/-- The statement `if (distance[nextNode] == distance[curr] + 1) { shortestPaths[nextNode] +=
shortestPaths[curr]; predecessors[nextNode].push_back(curr); }`; `none` when an index is
outside its vector. The counts are the mathematical sums: the model describes the runs in
which no count leaves the range of `int` (an overflowing `+=` on `int` is undefined in the
source). -/
def bfsRelax (curr nextNode : Nat) (st : BfsState) : Option BfsState :=
  match st.distance[nextNode]?, st.distance[curr]? with
  | some dn, some dc =>
    if dn = dc + 1 then
      match st.shortestPaths[nextNode]?, st.shortestPaths[curr]?,
          st.predecessors[nextNode]? with
      | some spn, some spc, some pn =>
        some { st with
          shortestPaths := st.shortestPaths.set nextNode (spn + spc),
          predecessors := st.predecessors.set nextNode (pn ++ [curr]) }
      | _, _, _ => none
    else some st
  | _, _ => none

/-- The loop `for (const auto& neighbor : graph.adjList[curr])` of the search, over the
values `nextNode = neighbor.first` (the loop reads nothing else of a neighbour). -/
def bfsNeighbors (curr : Nat) : List Nat → BfsState → Option BfsState
  | [], st => some st
  | nextNode :: rest, st =>
    match bfsDiscover curr nextNode st with
    | none => none
    | some st1 =>
      match bfsRelax curr nextNode st1 with
      | none => none
      | some st2 => bfsNeighbors curr rest st2

/-- The loop `while (!q.empty())` of the search. -/
def bfsLoop (g : Graph) : Nat → BfsState → Option BfsState
  | 0, _ => none
  | fuel + 1, st =>
    match st.q with
    | [] => some st
    | curr :: q1 =>
      match g.adjList[curr]? with
      | none => none
      | some nbrs =>
        match bfsNeighbors curr (nbrs.map Prod.fst) { st with q := q1 } with
        | none => none
        | some st1 => bfsLoop g fuel st1

/-- The declarations and the initialisation at the head of the loop over `src`. -/
def bfsInit (g : Graph) (src : Nat) : BfsState :=
  { shortestPaths := (List.replicate g.nodes 0).set src 1
    predecessors := List.replicate g.nodes []
    q := [src]
    distance := (List.replicate g.nodes (-1)).set src 0 }

/-- The stack of the dependency phase: the nodes `i` with `distance[i] != -1` in index
order, then reversed. -/
def buildStack (g : Graph) (distance : List Int) : List Nat :=
  ((List.range g.nodes).filter (fun i => distance.getD i (-1) ≠ -1)).reverse

/-- The loop `for (int pred : predecessors[node])` of the dependency phase. Each of the four
`double` operations of `dependency[pred] += (double(shortestPaths[pred]) /
shortestPaths[node]) * (1 + dependency[node])` rounds its result; the counts convert to
`double` exactly. A count of zero at `node`, which the search never leaves at a node with a
predecessor, would make the quotient infinite or NaN, which is not modelled. -/
def accumulatePreds (shortestPaths : List Nat) (node : Nat) :
    List Nat → List ℚ → Option (List ℚ)
  | [], dependency => some dependency
  | pred :: rest, dependency =>
    match shortestPaths[pred]?, shortestPaths[node]?, dependency[pred]?, dependency[node]? with
    | some spp, some spn, some dp, some dn =>
      accumulatePreds shortestPaths node rest
        (dependency.set pred
          (toDouble (dp + toDouble (toDouble ((spp : ℚ) / (spn : ℚ)) * toDouble (1 + dn)))))
    | _, _, _, _ => none

/-- The loop `for (int node : stack)` of the dependency phase: the new `dependency` and
`centrality`; `centrality[node] += dependency[node]` rounds the sum. -/
def accumulateStack (src : Nat) (shortestPaths : List Nat) (predecessors : List (List Nat)) :
    List Nat → List ℚ → List ℚ → Option (List ℚ × List ℚ)
  | [], dependency, centrality => some (dependency, centrality)
  | node :: rest, dependency, centrality =>
    match predecessors[node]? with
    | none => none
    | some preds =>
      match accumulatePreds shortestPaths node preds dependency with
      | none => none
      | some dep1 =>
        if node ≠ src then
          match centrality[node]?, dep1[node]? with
          | some cn, some dn =>
            accumulateStack src shortestPaths predecessors rest dep1
              (centrality.set node (toDouble (cn + dn)))
          | _, _ => none
        else accumulateStack src shortestPaths predecessors rest dep1 centrality

/-- The body of the loop over `src`: the search, then the dependency phase; the result is the
new `centrality`. -/
def sourcePass (g : Graph) (fuel : Nat) (src : Nat) (centrality : List ℚ) : Option (List ℚ) :=
  match bfsLoop g fuel (bfsInit g src) with
  | none => none
  | some st =>
    match accumulateStack src st.shortestPaths st.predecessors (buildStack g st.distance)
        (List.replicate g.nodes 0) centrality with
    | none => none
    | some (_, centrality1) => some centrality1

/-- The loop `for (int src = 0; src < graph.nodes; src++)` over the sources `srcs`. -/
def sourceLoop (g : Graph) (fuel : Nat) : List Nat → List ℚ → Option (List ℚ)
  | [], centrality => some centrality
  | src :: rest, centrality =>
    match sourcePass g fuel src centrality with
    | none => none
    | some centrality1 => sourceLoop g fuel rest centrality1

/-- The vector `centrality` after the loop over the sources. -/
def centralityScores (g : Graph) (fuel : Nat) : Option (List ℚ) :=
  sourceLoop g fuel (List.range g.nodes) (List.replicate g.nodes 0)

/-- The graph `Graph(3)` after `addEdge(0, 2, p)` and `addEdge(1, 2, q)`: the path 0-2-1. -/
def hubGraph (p q : ℚ) : Graph :=
  ⟨3, [[(2, p)], [(2, q)], [(0, p), (1, q)]]⟩

/-- The invariant of the search on a graph of `n` nodes: the vectors have length `n`, the
queue and the predecessor lists hold node ids, and no distance is below -1. -/
structure BfsInv (n : Nat) (st : BfsState) : Prop where
  /-- The length of `shortestPaths`. -/
  hsp : st.shortestPaths.length = n
  /-- The length of `predecessors`. -/
  hpred : st.predecessors.length = n
  /-- The length of `distance`. -/
  hdist : st.distance.length = n
  /-- The queue holds node ids. -/
  hq : ∀ x ∈ st.q, x < n
  /-- No distance is below -1. -/
  hge : ∀ d ∈ st.distance, -1 ≤ d
  /-- The predecessor lists hold node ids. -/
  hpredlt : ∀ row ∈ st.predecessors, ∀ p ∈ row, p < n

/-- The number of nodes not reached yet plus the length of the queue. -/
def bfsMeasure (st : BfsState) : Nat :=
  st.distance.count (-1) + st.q.length

/-! ### Betweenness as the specification words it -/

/-- The number of walks of length `d` from `s` to `t`. -/
def walkCount (g : Graph) : Nat → Nat → Nat → Nat
  | 0, s, t => if s = t then 1 else 0
  | d + 1, s, t => ((g.adjList.getD s []).map (fun e => walkCount g d e.1 t)).sum

/-- The unweighted shortest-path distance from `s` to `t`, `none` when `t` is not reachable
from `s`. -/
def specDistance (g : Graph) (s t : Nat) : Option Nat :=
  (List.range g.nodes).find? (fun d => walkCount g d s t ≠ 0)

/-- The number of shortest paths from `s` to `t`. -/
def specPathCount (g : Graph) (s t : Nat) : Nat :=
  match specDistance g s t with
  | none => 0
  | some d => walkCount g d s t

/-- The fraction of the shortest paths from `s` to `t` that pass through `v`. -/
def specFraction (g : Graph) (s t v : Nat) : ℚ :=
  match specDistance g s v, specDistance g v t, specDistance g s t with
  | some a, some b, some d =>
    if a + b = d then
      ((specPathCount g s v * specPathCount g v t : Nat) : ℚ) / (specPathCount g s t : ℚ)
    else 0
  | _, _, _ => 0

/-- Betweenness as the specification defines it: the sum, over the source-target pairs
`(s, t)` with `s ≠ v ≠ t` and `t` reachable from `s`, of the fraction of the shortest paths
from `s` to `t` that pass through `v`. -/
def specBetweenness (g : Graph) (v : Nat) : ℚ :=
  ((List.range g.nodes).map (fun s =>
    ((List.range g.nodes).map (fun t =>
      if s ≠ v ∧ t ≠ v ∧ (specDistance g s t).isSome then specFraction g s t v else 0)).sum)).sum

/-! ## `calculateMarginalGain` and `celf` (CELF.cpp) -/

/-- The part of the process state the program reads and writes: the number of calls of
`time(0)` made so far and the state of the generator. -/
structure SysState where
  /-- The number of calls of `time(0)` so far. -/
  ticks : Nat
  /-- The state of the generator. -/
  rs : RandState
deriving DecidableEq, Repr

/-- The function `calculateMarginalGain(graph, currentSet, node)`: the size of the set
`independentCascade` returns for `currentSet ∪ {node}`. `clock i` is the value the `i`-th
call of `time(0)` returns. -/
def calculateMarginalGain (lib : Stdlib) (clock : Nat → Nat) (fuel : Nat) (g : Graph)
    (currentSet : List Nat) (node : Nat) (sys : SysState) : Option (Nat × SysState) :=
  match independentCascade lib fuel g (setInsert node currentSet) (clock sys.ticks) sys.rs with
  | none => none
  | some (influencedNodes, rs1) => some (influencedNodes.length, ⟨sys.ticks + 1, rs1⟩)

/-- Step 1 of `celf`: the loop `for (int i = 0; i < graph.nodes; i++)` over the indices
`is`, pushing `{gain, i}` with the gain computed for the empty `currentSet`. -/
def initialGains (lib : Stdlib) (clock : Nat → Nat) (fuel : Nat) (g : Graph) :
    List Nat → List (Nat × Nat) → SysState → Option (List (Nat × Nat) × SysState)
  | [], gains, sys => some (gains, sys)
  | i :: rest, gains, sys =>
    match calculateMarginalGain lib clock fuel g [] i sys with
    | none => none
    | some (gain, sys1) => initialGains lib clock fuel g rest (gains ++ [(gain, i)]) sys1

/-- The loop `for (auto& gain : gains) gain.first = calculateMarginalGain(graph, currentSet,
gain.second)`. -/
def recalcGains (lib : Stdlib) (clock : Nat → Nat) (fuel : Nat) (g : Graph)
    (currentSet : List Nat) :
    List (Nat × Nat) → SysState → Option (List (Nat × Nat) × SysState)
  | [], sys => some ([], sys)
  | (_, node) :: rest, sys =>
    match calculateMarginalGain lib clock fuel g currentSet node sys with
    | none => none
    | some (gain, sys1) =>
      match recalcGains lib clock fuel g currentSet rest sys1 with
      | none => none
      | some (gains1, sys2) => some ((gain, node) :: gains1, sys2)

/-- Step 3 of `celf`: `k` rounds, each taking `gains[0].second`, erasing `gains[0]`,
recomputing the gains that remain and sorting them again; `none` when `gains` is empty at the
read of `gains[0]`. -/
def selectLoop (lib : Stdlib) (clock : Nat → Nat) (fuel : Nat) (g : Graph) :
    Nat → List Nat → List Nat → List (Nat × Nat) → SysState → Option (List Nat × SysState)
  | 0, seedNodes, _, _, sys => some (seedNodes, sys)
  | k + 1, seedNodes, currentSet, gains, sys =>
    match gains with
    | [] => none
    | (_, node) :: rest =>
      match recalcGains lib clock fuel g (setInsert node currentSet) rest sys with
      | none => none
      | some (gains1, sys1) =>
        selectLoop lib clock fuel g k (seedNodes ++ [node]) (setInsert node currentSet)
          (sortDescending gains1) sys1

/-- The function `celf(graph, k)`. -/
def celf (lib : Stdlib) (clock : Nat → Nat) (fuel : Nat) (g : Graph) (k : Nat)
    (sys : SysState) : Option (List Nat × SysState) :=
  match initialGains lib clock fuel g (List.range g.nodes) [] sys with
  | none => none
  | some (gains, sys1) => selectLoop lib clock fuel g k [] [] (sortDescending gains) sys1

/-- One pass of gain computations, as the specification words it: `GainPass lib clock fuel g
currentSet order sys gains sys1` says that, from the process state `sys`, the nodes `v` of
`order` are taken one after the other, the gain of `v` is the size of the set
`independentCascade` returns for the seeds `currentSet ∪ {v}` in the state reached so far
(the clock read `clock ticks`, the generator state left by the run before), `gains` lists
the pairs `(gain, v)` in this order, and `sys1` is the state after the last run. -/
inductive GainPass (lib : Stdlib) (clock : Nat → Nat) (fuel : Nat) (g : Graph)
    (currentSet : List Nat) : List Nat → SysState → List (Nat × Nat) → SysState → Prop
  | nil (sys : SysState) : GainPass lib clock fuel g currentSet [] sys [] sys
  | cons (v : Nat) (rest : List Nat) (sys : SysState) (res : List Nat) (rs1 : RandState)
      (gains : List (Nat × Nat)) (sys2 : SysState) :
      independentCascade lib fuel g (setInsert v currentSet) (clock sys.ticks) sys.rs
        = some (res, rs1) →
      GainPass lib clock fuel g currentSet rest ⟨sys.ticks + 1, rs1⟩ gains sys2 →
      GainPass lib clock fuel g currentSet (v :: rest) sys ((res.length, v) :: gains) sys2

/-- The node `node` has the largest gain recorded in `gains`, and the highest id among the
nodes recorded with this gain. -/
def IsBest (gains : List (Nat × Nat)) (node : Nat) : Prop :=
  ∃ gn, (gn, node) ∈ gains ∧ ∀ e ∈ gains, e.1 < gn ∨ (e.1 = gn ∧ e.2 ≤ node)

/-- The list `ranked` holds the pairs `(gain, node)` of `gains` by descending gain, the
pairs of equal gain by descending node id. -/
def RankedGains (gains ranked : List (Nat × Nat)) : Prop :=
  ranked.Perm gains ∧ ranked.Pairwise (fun a b => b.1 < a.1 ∨ (b.1 = a.1 ∧ b.2 ≤ a.2))

/-- The greedy rounds, as the specification words them: `GreedyPicks lib clock fuel g seeds
gains sys picks sys1` says that, with `seeds` selected so far, `gains` the gains computed
for the current seeds and `sys` the process state, the rounds append the nodes `picks` and
leave the state `sys1`. In a round `gains` records exactly the nodes not selected yet, the
round appends the node `node` with the largest gain, the highest id among the nodes that tie
(`IsBest`), and the gains of the next round are computed for the seeds with `node` added,
for the other nodes in the order of their rank in `gains` (`GainPass`). -/
inductive GreedyPicks (lib : Stdlib) (clock : Nat → Nat) (fuel : Nat) (g : Graph) :
    List Nat → List (Nat × Nat) → SysState → List Nat → SysState → Prop
  | done (seeds : List Nat) (gains : List (Nat × Nat)) (sys : SysState) :
      GreedyPicks lib clock fuel g seeds gains sys [] sys
  | round (seeds : List Nat) (gains : List (Nat × Nat)) (sys : SysState) (gn node : Nat)
      (ranked gains1 : List (Nat × Nat)) (sys1 : SysState) (rest : List Nat)
      (sys2 : SysState) :
      (∀ v, v ∈ gains.map Prod.snd ↔ (v < g.nodes ∧ v ∉ seeds)) →
      IsBest gains node →
      RankedGains gains ((gn, node) :: ranked) →
      GainPass lib clock fuel g (setOfList (seeds ++ [node])) (ranked.map Prod.snd) sys
        gains1 sys1 →
      GreedyPicks lib clock fuel g (seeds ++ [node]) gains1 sys1 rest sys2 →
      GreedyPicks lib clock fuel g seeds gains sys (node :: rest) sys2
/-! ## proposed_algo.cpp -/

/-- The struct `Edge`. -/
structure Edge where
  /-- The field `target`. -/
  target : Int
  /-- The field `influenceProbability`. -/
  influenceProbability : ℚ

/-- The global `map<int, vector<Edge>> graph`: the entries in ascending order of the key. -/
abbrev AdjMap := List (Int × List Edge)

/-- The effect of `graph[key]` on the map: a key that is absent is inserted with an empty
vector. -/
def mapInsertKey (key : Int) : AdjMap → AdjMap
  | [] => [(key, [])]
  | (k, es) :: rest =>
    if key < k then (key, []) :: (k, es) :: rest
    else if key = k then (k, es) :: rest
    else (k, es) :: mapInsertKey key rest

/-- The value of `graph[key]`: the vector stored for the key, empty when the key is absent. -/
def mapLookup (key : Int) (m : AdjMap) : List Edge :=
  match m.find? (fun e => e.1 = key) with
  | none => []
  | some e => e.2

/-- The statement `graph[u].push_back(edge)`. -/
def mapPushBack (u : Int) (edge : Edge) : AdjMap → AdjMap
  | [] => [(u, [edge])]
  | (k, es) :: rest =>
    if u < k then (u, [edge]) :: (k, es) :: rest
    else if u = k then (k, es ++ [edge]) :: rest
    else (k, es) :: mapPushBack u edge rest

/-- The function `buildGraph`, on the triples `u v p` read from the file, starting from the
map `m`. -/
def buildGraph (triples : List (Int × Int × ℚ)) (m : AdjMap) : AdjMap :=
  triples.foldl (fun acc t => mapPushBack t.1 ⟨t.2.1, t.2.2⟩ acc) m

/-- The loop `for (size_t i = 0; i < graph[current].size(); ++i)` of `simulateInfluence` over
the edges of `graph[current]`: the new `newlyInfluenced`, queue and generator state. A
neighbour in `alreadyInfluenced` or `newlyInfluenced` draws no sample; otherwise one sample is
drawn and the neighbour is inserted and pushed when `randValue < prob`, `randValue` being
the `double` `static_cast<double>(rand()) / RAND_MAX` (`sample`). -/
def tryEdges (lib : Stdlib) (alreadyInfluenced : List Int) :
    List Edge → List Int → List Int → RandState → List Int × List Int × RandState
  | [], newlyInfluenced, q, rs => (newlyInfluenced, q, rs)
  | e :: rest, newlyInfluenced, q, rs =>
    if e.target ∉ alreadyInfluenced ∧ e.target ∉ newlyInfluenced then
      if sample lib (rand lib rs).1 < e.influenceProbability then
        tryEdges lib alreadyInfluenced rest (setInsert e.target newlyInfluenced)
          (q ++ [e.target]) (rand lib rs).2
      else tryEdges lib alreadyInfluenced rest newlyInfluenced q (rand lib rs).2
    else tryEdges lib alreadyInfluenced rest newlyInfluenced q rs

/-- The loop `while (!q.empty())` of `simulateInfluence`: the map, `newlyInfluenced` and the
generator state at its end. -/
def simulateQueue (lib : Stdlib) (alreadyInfluenced : List Int) :
    Nat → AdjMap → List Int → List Int → RandState → Option (AdjMap × List Int × RandState)
  | 0, _, _, _, _ => none
  | fuel + 1, m, newlyInfluenced, q, rs =>
    match q with
    | [] => some (m, newlyInfluenced, rs)
    | current :: q1 =>
      simulateQueue lib alreadyInfluenced fuel (mapInsertKey current m)
        (tryEdges lib alreadyInfluenced (mapLookup current m) newlyInfluenced q1 rs).1
        (tryEdges lib alreadyInfluenced (mapLookup current m) newlyInfluenced q1 rs).2.1
        (tryEdges lib alreadyInfluenced (mapLookup current m) newlyInfluenced q1 rs).2.2

/-- The loop `for (int sim = 0; sim < numSimulations; ++sim)` of `simulateInfluence`. -/
def simulateRuns (lib : Stdlib) (fuel : Nat) (node : Int) (alreadyInfluenced : List Int) :
    Nat → AdjMap → List Int → RandState → Option (AdjMap × List Int × RandState)
  | 0, m, newlyInfluenced, rs => some (m, newlyInfluenced, rs)
  | n + 1, m, newlyInfluenced, rs =>
    match simulateQueue lib alreadyInfluenced fuel m newlyInfluenced [node] rs with
    | none => none
    | some (m1, newly1, rs1) => simulateRuns lib fuel node alreadyInfluenced n m1 newly1 rs1

/-- The function `simulateInfluence(node, alreadyInfluenced, numSimulations)` on the global
map `m`: the map after the call, the returned set and the generator state. -/
def simulateInfluence (lib : Stdlib) (fuel : Nat) (node : Int) (alreadyInfluenced : List Int)
    (numSimulations : Nat) (m : AdjMap) (rs : RandState) :
    Option (AdjMap × List Int × RandState) :=
  simulateRuns lib fuel node alreadyInfluenced numSimulations m [] rs

/-- The variables `bestNode`, `maxGain` and `bestNewlyInfluenced` of a round. -/
structure BestState where
  /-- The variable `bestNode`. -/
  bestNode : Int
  /-- The variable `maxGain`. -/
  maxGain : Int
  /-- The variable `bestNewlyInfluenced`. -/
  bestNewlyInfluenced : List Int

/-- The key `x` lies after the position `last` of the map iterator: every key does when the
iterator has not left a key yet. -/
def aboveLast (last : Option Int) (x : Int) : Bool :=
  match last with
  | none => true
  | some l => decide (l < x)

/-- The key the map iterator points at after `graph.begin()` (`last = none`) or after `++it`
from the key `last`: the first key of the map above `last`, `none` for `graph.end()`. -/
def nextKey (m : AdjMap) (last : Option Int) : Option Int :=
  match m.find? (fun e => aboveLast last e.1) with
  | none => none
  | some e => some e.1

/-- The loop `for (it = graph.begin(); it != graph.end(); ++it)` of a round of
`marginalGainMaximization`, the iterator having left the key `last`. The vectors inserted
into the map by `simulateInfluence` during the loop are seen by the iterator. `steps` bounds
the number of iterations. -/
def candidateLoop (lib : Stdlib) (fuel : Nat) (seedSet alreadyInfluenced : List Int) :
    Nat → Option Int → AdjMap → BestState → RandState →
      Option (AdjMap × BestState × RandState)
  | 0, _, _, _, _ => none
  | steps + 1, last, m, best, rs =>
    match nextKey m last with
    | none => some (m, best, rs)
    | some node =>
      if node ∈ seedSet then
        candidateLoop lib fuel seedSet alreadyInfluenced steps (some node) m best rs
      else
        match simulateInfluence lib fuel node alreadyInfluenced 100 m rs with
        | none => none
        | some (m1, influencedByNode, rs1) =>
          if (influencedByNode.length : Int) > best.maxGain then
            candidateLoop lib fuel seedSet alreadyInfluenced steps (some node) m1
              ⟨node, influencedByNode.length, influencedByNode⟩ rs1
          else
            candidateLoop lib fuel seedSet alreadyInfluenced steps (some node) m1 best rs1

/-- The loop `for (int i = 0; i < k; ++i)` of `marginalGainMaximization`. -/
def roundLoop (lib : Stdlib) (fuel : Nat) :
    Nat → List Int → List Int → AdjMap → RandState →
      Option (List Int × List Int × AdjMap × RandState)
  | 0, seedSet, alreadyInfluenced, m, rs => some (seedSet, alreadyInfluenced, m, rs)
  | k + 1, seedSet, alreadyInfluenced, m, rs =>
    match candidateLoop lib fuel seedSet alreadyInfluenced fuel none m ⟨-1, -1, []⟩ rs with
    | none => none
    | some (m1, best, rs1) =>
      if best.bestNode ≠ -1 then
        roundLoop lib fuel k (seedSet ++ [best.bestNode])
          (setInsertRange best.bestNewlyInfluenced alreadyInfluenced) m1 rs1
      else roundLoop lib fuel k seedSet alreadyInfluenced m1 rs1

/-- The function `marginalGainMaximization(k)` on the global map `m`: the pair it returns
(`seedSet`, `alreadyInfluenced`), the map and the generator state at the return. -/
def marginalGainMaximization (lib : Stdlib) (fuel : Nat) (k : Nat) (m : AdjMap)
    (rs : RandState) : Option (List Int × List Int × AdjMap × RandState) :=
  roundLoop lib fuel k [] [] m rs

/-- The targets of all the edges of the map, with repetitions. -/
def allTargets (m : AdjMap) : List Int :=
  m.flatMap (fun e => e.2.map (fun ed => ed.target))

/-- The number of targets in `targets` that are not in `newlyInfluenced`. -/
def remainingTargets (targets newlyInfluenced : List Int) : Nat :=
  (targets.filter (fun t => decide (t ∉ newlyInfluenced))).length

/-- The fuel that lets every loop of `marginalGainMaximization` on the map `m` finish: the
number of keys plus the number of edges plus 2. -/
def enoughFuel (m : AdjMap) : Nat :=
  m.length + (allTargets m).length + 2

/-- The map `buildGraph` leaves after reading the triples `0 1 1`, `1 2 0.5`, `5 0 1`. -/
def chainMap : AdjMap :=
  buildGraph [(0, 1, 1), (1, 2, 1/2), (5, 0, 1)] []

/-! ## Auxiliary definitions for the later claims -/

/-- The generators `lib` and `lib2` have the same `RAND_MAX` and, after `srand(s)`, return
the same values at the positions `lo ≤ i < hi`. -/
def AgreeOn (lib lib2 : Stdlib) (s lo hi : Nat) : Prop :=
  lib2.RAND_MAX = lib.RAND_MAX ∧ ∀ i, lo ≤ i → i < hi → lib2.gen s i = lib.gen s i

/-- The invariant of `std::map`: the keys are strictly ascending. -/
def MapSorted (m : AdjMap) : Prop :=
  (m.map Prod.fst).Sorted (· < ·)

/-- The edges `buildGraph` stores for the key `k`: one edge for each triple `k v p`, in the
order of the triples. -/
def edgesFrom (triples : List (Int × Int × ℚ)) (k : Int) : List Edge :=
  (triples.filter (fun t => t.1 = k)).map (fun t => ⟨t.2.1, t.2.2⟩)

/-- A node reachable from `src` along the directed edges of the map. -/
inductive MapReachable (m : AdjMap) (src : Int) : Int → Prop
  | refl : MapReachable m src src
  | step {u : Int} {e : Edge} : MapReachable m src u → e ∈ mapLookup u m →
      MapReachable m src e.target

/-- The invariant of the search about path counts and predecessors: the nodes in the queue
are reached, a reached node has at least one shortest path counted, and a recorded
predecessor is reached and is one step nearer the source than the node. -/
structure BfsPathInv (st : BfsState) : Prop where
  /-- The nodes in the queue are reached. -/
  hqd : ∀ x ∈ st.q, st.distance.getD x (-1) ≠ -1
  /-- A reached node has a positive path count. -/
  hsp : ∀ i, st.distance.getD i (-1) ≠ -1 → 1 ≤ st.shortestPaths.getD i 0
  /-- A recorded predecessor is reached and one step nearer the source. -/
  hpd : ∀ i, ∀ p ∈ st.predecessors.getD i [],
    st.distance.getD p (-1) ≠ -1 ∧ st.distance.getD i (-1) = st.distance.getD p (-1) + 1


/-! ## Facts about `double` rounding -/

theorem bitLengthAux_le_iff (fuel n k : Nat) (h : n ≤ fuel) :
    bitLengthAux fuel n ≤ k ↔ n < 2 ^ k := by
  induction fuel generalizing n k with
  | zero =>
    have : n = 0 := by omega
    subst this
    simp [bitLengthAux]
  | succ fuel ih =>
    unfold bitLengthAux
    by_cases hn : n = 0
    · subst hn; simp
    · rw [if_neg hn]
      cases k with
      | zero => simp; omega
      | succ k =>
        have hdiv : n / 2 ≤ fuel := by omega
        rw [Nat.add_le_add_iff_right, ih (n / 2) k hdiv, pow_succ]
        omega

theorem bitLength_mono {a b : Nat} (h : a ≤ b) : bitLength a ≤ bitLength b := by
  unfold bitLength
  rw [bitLengthAux_le_iff a a _ (le_refl a)]
  have hb : b < 2 ^ bitLengthAux b b :=
    (bitLengthAux_le_iff b b _ (le_refl b)).1 (le_refl _)
  omega

theorem roundHalfEven_le (y : ℚ) (m : Int) (h : y ≤ (m : ℚ)) : roundHalfEven y ≤ m := by
  have hfl : (⌊y⌋ : ℚ) ≤ y := Int.floor_le y
  have h0 : ⌊y⌋ ≤ m := by
    have : (⌊y⌋ : ℚ) ≤ (m : ℚ) := le_trans hfl h
    exact_mod_cast this
  have h1 : ¬ (y - ⌊y⌋ < 1 / 2) → ⌊y⌋ + 1 ≤ m := by
    intro hfrac
    have hlt : (⌊y⌋ : ℚ) < (m : ℚ) := by
      have : (1 : ℚ) / 2 ≤ y - ⌊y⌋ := not_lt.1 hfrac
      linarith
    have : ⌊y⌋ < m := by exact_mod_cast hlt
    omega
  unfold roundHalfEven
  split_ifs with c1 c2 c3
  · exact h0
  · exact h1 c1
  · exact h0
  · exact h1 c1

theorem binaryExponent_le_zero (q : ℚ) (h1 : q ≤ 1) (h0 : 0 < q) : binaryExponent q ≤ 0 := by
  have hnum : 0 < q.num := Rat.num_pos.2 h0
  have hle : q.num ≤ (q.den : Int) := by
    have := Rat.le_def.1 h1
    simpa using this
  have hnat : q.num.natAbs ≤ q.den := by omega
  have hbl := bitLength_mono hnat
  unfold binaryExponent
  split_ifs <;> omega

theorem toDouble_zero : toDouble 0 = 0 := by
  simp [toDouble]

/-- Rounding a value of `[0, 1]` to a `double` does not exceed 1. -/
theorem toDouble_le_one (q : ℚ) (h0 : 0 ≤ q) (h1 : q ≤ 1) : toDouble q ≤ 1 := by
  unfold toDouble
  by_cases hq : q = 0
  · rw [if_pos hq]; exact zero_le_one
  · rw [if_neg hq]
    have hpos : 0 < q := lt_of_le_of_ne h0 (Ne.symm hq)
    have he := binaryExponent_le_zero q h1 hpos
    have hE : ¬ (0 ≤ max (binaryExponent q) (-1022) - 52) := by
      have : max (binaryExponent q) (-1022) ≤ 0 := max_le he (by norm_num)
      omega
    have htp : twoPow (max (binaryExponent q) (-1022) - 52)
        = 1 / ((2 ^ (-(max (binaryExponent q) (-1022) - 52)).toNat : Nat) : ℚ) := by
      unfold twoPow; rw [if_neg hE]
    rw [htp]
    set n : Nat := 2 ^ (-(max (binaryExponent q) (-1022) - 52)).toNat with hn
    have hnpos : (0 : ℚ) < (n : ℚ) := by
      have : 0 < n := by rw [hn]; exact pow_pos (by norm_num) _
      exact_mod_cast this
    have hy : q / (1 / (n : ℚ)) ≤ ((n : Int) : ℚ) := by
      rw [div_div_eq_mul_div, div_one]
      have : q * (n : ℚ) ≤ 1 * (n : ℚ) := mul_le_mul_of_nonneg_right h1 (le_of_lt hnpos)
      simpa using this
    have hr := roundHalfEven_le _ _ hy
    have hrq : ((roundHalfEven (q / (1 / (n : ℚ))) : Int) : ℚ) ≤ (n : ℚ) := by exact_mod_cast hr
    rw [mul_one_div, div_le_one hnpos]
    exact hrq

/-! ## Facts about the set model -/

theorem mem_setInsert {α : Type} [LinearOrder α] {v x : α} {l : List α} : v ∈ setInsert x l ↔ v = x ∨ v ∈ l := by
  induction l with
  | nil => simp [setInsert]
  | cons y ys ih =>
    unfold setInsert
    split_ifs with h1 h2
    · simp
    · subst h2; simp
    · simp only [List.mem_cons, ih]; tauto

theorem sorted_setInsert {α : Type} [LinearOrder α] {x : α} {l : List α}
    (h : l.Sorted (· < ·)) :
    (setInsert x l).Sorted (· < ·) := by
  induction l with
  | nil => simp [setInsert]
  | cons y ys ih =>
    unfold setInsert
    split_ifs with h1 h2
    · refine List.sorted_cons.2 ⟨?_, h⟩
      intro b hb
      rcases List.mem_cons.1 hb with rfl | hb
      · exact h1
      · exact lt_trans h1 (List.rel_of_sorted_cons h b hb)
    · exact h
    · refine List.sorted_cons.2 ⟨?_, ih h.of_cons⟩
      intro b hb
      rcases mem_setInsert.1 hb with rfl | hb
      · exact lt_of_le_of_ne (not_lt.1 h1) (Ne.symm h2)
      · exact List.rel_of_sorted_cons h b hb

theorem mem_setInsertRange {α : Type} [LinearOrder α] {v : α} {xs s : List α} :
    v ∈ setInsertRange xs s ↔ v ∈ xs ∨ v ∈ s := by
  induction xs generalizing s with
  | nil => simp [setInsertRange]
  | cons x xs ih =>
    have := ih (s := setInsert x s)
    simp only [setInsertRange, List.foldl_cons] at this ⊢
    rw [this, mem_setInsert]; simp only [List.mem_cons]; tauto

theorem sorted_setInsertRange {α : Type} [LinearOrder α] {xs s : List α}
    (h : s.Sorted (· < ·)) :
    (setInsertRange xs s).Sorted (· < ·) := by
  induction xs generalizing s with
  | nil => simpa [setInsertRange] using h
  | cons x xs ih =>
    have := ih (s := setInsert x s) (sorted_setInsert h)
    simpa [setInsertRange] using this

theorem mem_setOfList {α : Type} [LinearOrder α] {v : α} {xs : List α} :
    v ∈ setOfList xs ↔ v ∈ xs := by
  simp [setOfList, mem_setInsertRange]

theorem sorted_setOfList {α : Type} [LinearOrder α] (xs : List α) :
    (setOfList xs).Sorted (· < ·) :=
  sorted_setInsertRange List.sorted_nil

/-- Two strictly ascending lists with the same elements are equal. -/
theorem eq_of_sorted_of_mem_iff {α : Type} [LinearOrder α] {l1 l2 : List α}
    (h1 : l1.Sorted (· < ·))
    (h2 : l2.Sorted (· < ·)) (h : ∀ v, v ∈ l1 ↔ v ∈ l2) : l1 = l2 := by
  apply List.eq_of_perm_of_sorted (r := (· < ·)) _ h1 h2
  exact (List.perm_ext_iff_of_nodup h1.nodup h2.nodup).2 h

/-- Removing from a filter an element that passed it makes the filtered list shorter. -/
theorem filter_length_lt {α : Type} (L : List α) (p q : α → Bool)
    (hqp : ∀ y, q y = true → p y = true) (x : α) (hx : x ∈ L) (hpx : p x = true)
    (hqx : q x = false) : (L.filter q).length < (L.filter p).length := by
  induction L with
  | nil => simp at hx
  | cons a L ih =>
    have hle : (L.filter q).length ≤ (L.filter p).length := by
      clear ih hx
      induction L with
      | nil => simp
      | cons b L ih2 =>
        simp only [List.filter_cons]
        cases hq : q b
        · cases hp : p b <;> simp <;> omega
        · simp [hqp b hq]; omega
    rcases List.mem_cons.1 hx with rfl | hx
    · simp [List.filter_cons, hpx, hqx]; omega
    · have := ih hx
      simp only [List.filter_cons]
      cases hq : q a
      · cases hp : p a <;> simp <;> omega
      · simp [hqp a hq]; omega


/-! ## Facts about one wave of `independentCascade` -/

theorem mem_getD_iff {g : Graph} {u : Nat} {e : Nat × ℚ} :
    e ∈ g.adjList.getD u [] ↔ ∃ row, g.adjList[u]? = some row ∧ e ∈ row := by
  rw [List.getD_eq_getElem?_getD]
  cases h : g.adjList[u]? <;> simp

theorem row_mem_of_getElem? {g : Graph} {u : Nat} {row : List (Nat × ℚ)}
    (h : g.adjList[u]? = some row) : row ∈ g.adjList := by
  rw [List.getElem?_eq_some_iff] at h
  obtain ⟨hu, rfl⟩ := h
  exact List.getElem_mem hu

theorem attempt_seed (lib : Stdlib) (A : List Nat) (nbrs : List (Nat × ℚ)) (next : List Nat)
    (rs : RandState) : (attemptNeighbors lib A nbrs next rs).2.seed = rs.seed := by
  induction nbrs generalizing next rs with
  | nil => rfl
  | cons e rest ih =>
    obtain ⟨nb, p⟩ := e
    unfold attemptNeighbors
    split_ifs <;> simp [ih, rand]

theorem attempt_sorted (lib : Stdlib) (A : List Nat) (nbrs : List (Nat × ℚ)) (next : List Nat)
    (rs : RandState) (h : next.Sorted (· < ·)) :
    (attemptNeighbors lib A nbrs next rs).1.Sorted (· < ·) := by
  induction nbrs generalizing next rs with
  | nil => exact h
  | cons e rest ih =>
    obtain ⟨nb, p⟩ := e
    unfold attemptNeighbors
    split_ifs
    · exact ih _ _ h
    · exact ih _ _ (sorted_setInsert h)
    · exact ih _ _ h

theorem attempt_next_sub (lib : Stdlib) (A : List Nat) (nbrs : List (Nat × ℚ))
    (next : List Nat) (rs : RandState) {v : Nat} (h : v ∈ next) :
    v ∈ (attemptNeighbors lib A nbrs next rs).1 := by
  induction nbrs generalizing next rs with
  | nil => exact h
  | cons e rest ih =>
    obtain ⟨nb, p⟩ := e
    unfold attemptNeighbors
    split_ifs
    · exact ih _ _ h
    · exact ih _ _ (mem_setInsert.2 (Or.inr h))
    · exact ih _ _ h

theorem attempt_mem_elim (lib : Stdlib) (A : List Nat) (ok : ℚ → Prop)
    (nbrs : List (Nat × ℚ)) (next : List Nat) (rs : RandState)
    (hfire : ∀ i, ∀ e ∈ nbrs, sample lib (lib.gen rs.seed i) ≤ e.2 → ok e.2) {v : Nat}
    (h : v ∈ (attemptNeighbors lib A nbrs next rs).1) :
    v ∈ next ∨ (v ∉ A ∧ ∃ p, (v, p) ∈ nbrs ∧ ok p) := by
  induction nbrs generalizing next rs with
  | nil => exact Or.inl h
  | cons e rest ih =>
    obtain ⟨nb, p⟩ := e
    have hrest : ∀ (rs1 : RandState), rs1.seed = rs.seed →
        ∀ i, ∀ e ∈ rest, sample lib (lib.gen rs1.seed i) ≤ e.2 → ok e.2 := by
      intro rs1 h1 i e he
      rw [h1]; exact hfire i e (List.mem_cons_of_mem _ he)
    unfold attemptNeighbors at h
    split_ifs at h with h1 h2
    · rcases ih _ _ (hrest rs rfl) h with h | ⟨hA, q, hq, hok⟩
      · exact Or.inl h
      · exact Or.inr ⟨hA, q, List.mem_cons_of_mem _ hq, hok⟩
    · rcases ih _ _ (hrest (rand lib rs).2 rfl) h with h | ⟨hA, q, hq, hok⟩
      · rcases mem_setInsert.1 h with rfl | h
        · exact Or.inr ⟨h1, p, List.mem_cons_self _ _,
            hfire rs.pos (v, p) (List.mem_cons_self _ _) h2⟩
        · exact Or.inl h
      · exact Or.inr ⟨hA, q, List.mem_cons_of_mem _ hq, hok⟩
    · rcases ih _ _ (hrest (rand lib rs).2 rfl) h with h | ⟨hA, q, hq, hok⟩
      · exact Or.inl h
      · exact Or.inr ⟨hA, q, List.mem_cons_of_mem _ hq, hok⟩

theorem attempt_mem_intro (lib : Stdlib) (A : List Nat) (ok : ℚ → Prop)
    (nbrs : List (Nat × ℚ)) (next : List Nat) (rs : RandState)
    (hall : ∀ i, ∀ e ∈ nbrs, ok e.2 → sample lib (lib.gen rs.seed i) ≤ e.2) {v : Nat} {p : ℚ}
    (hv : (v, p) ∈ nbrs) (hok : ok p) (hA : v ∉ A) :
    v ∈ (attemptNeighbors lib A nbrs next rs).1 := by
  induction nbrs generalizing next rs with
  | nil => simp at hv
  | cons e rest ih =>
    obtain ⟨nb, q⟩ := e
    have hrest : ∀ (rs1 : RandState), rs1.seed = rs.seed →
        ∀ i, ∀ e ∈ rest, ok e.2 → sample lib (lib.gen rs1.seed i) ≤ e.2 := by
      intro rs1 h1 i e he
      rw [h1]; exact hall i e (List.mem_cons_of_mem _ he)
    unfold attemptNeighbors
    rcases List.mem_cons.1 hv with heq | hv
    · obtain ⟨rfl, rfl⟩ := Prod.mk.inj heq
      have hs : sample lib (rand lib rs).1 ≤ p := hall rs.pos (v, p) (List.mem_cons_self _ _) hok
      rw [if_neg hA, if_pos hs]
      exact attempt_next_sub _ _ _ _ _ (mem_setInsert.2 (Or.inl rfl))
    · split_ifs
      · exact ih _ _ (hrest rs rfl) hv
      · exact ih _ _ (hrest (rand lib rs).2 rfl) hv
      · exact ih _ _ (hrest (rand lib rs).2 rfl) hv

theorem spreadWave_some (lib : Stdlib) (g : Graph) (A F next : List Nat) (rs : RandState)
    (hF : ∀ u ∈ F, u < g.adjList.length) :
    ∃ N rs1, spreadWave lib g A F next rs = some (N, rs1) := by
  induction F generalizing next rs with
  | nil => exact ⟨next, rs, rfl⟩
  | cons u rest ih =>
    have hu : u < g.adjList.length := hF u (List.mem_cons_self _ _)
    unfold spreadWave
    rw [List.getElem?_eq_getElem hu]
    exact ih _ _ (fun w hw => hF w (List.mem_cons_of_mem _ hw))

theorem spreadWave_seed (lib : Stdlib) (g : Graph) (A F next : List Nat) (rs : RandState)
    {N : List Nat} {rs1 : RandState} (h : spreadWave lib g A F next rs = some (N, rs1)) :
    rs1.seed = rs.seed := by
  induction F generalizing next rs with
  | nil => simp [spreadWave] at h; rw [← h.2]
  | cons u rest ih =>
    unfold spreadWave at h
    cases hrow : g.adjList[u]? with
    | none => simp [hrow] at h
    | some row =>
      simp only [hrow] at h
      rw [ih _ _ h, attempt_seed]

theorem spreadWave_sorted (lib : Stdlib) (g : Graph) (A F next : List Nat) (rs : RandState)
    {N : List Nat} {rs1 : RandState} (h : spreadWave lib g A F next rs = some (N, rs1))
    (hs : next.Sorted (· < ·)) : N.Sorted (· < ·) := by
  induction F generalizing next rs with
  | nil => simp [spreadWave] at h; rw [← h.1]; exact hs
  | cons u rest ih =>
    unfold spreadWave at h
    cases hrow : g.adjList[u]? with
    | none => simp [hrow] at h
    | some row =>
      simp only [hrow] at h
      exact ih _ _ h (attempt_sorted _ _ _ _ _ hs)

theorem spreadWave_next_sub (lib : Stdlib) (g : Graph) (A F next : List Nat) (rs : RandState)
    {N : List Nat} {rs1 : RandState} (h : spreadWave lib g A F next rs = some (N, rs1))
    {v : Nat} (hv : v ∈ next) : v ∈ N := by
  induction F generalizing next rs with
  | nil => simp [spreadWave] at h; rw [← h.1]; exact hv
  | cons u rest ih =>
    unfold spreadWave at h
    cases hrow : g.adjList[u]? with
    | none => simp [hrow] at h
    | some row =>
      simp only [hrow] at h
      exact ih _ _ h (attempt_next_sub _ _ _ _ _ hv)

theorem spreadWave_mem_elim (lib : Stdlib) (g : Graph) (ok : ℚ → Prop) (A F next : List Nat)
    (rs : RandState) (hfire : FiresOnly lib g rs.seed ok)
    {N : List Nat} {rs1 : RandState} (h : spreadWave lib g A F next rs = some (N, rs1))
    {v : Nat} (hv : v ∈ N) :
    v ∈ next ∨ (v ∉ A ∧ ∃ u ∈ F, ∃ p, (v, p) ∈ g.adjList.getD u [] ∧ ok p) := by
  induction F generalizing next rs with
  | nil => simp [spreadWave] at h; rw [← h.1] at hv; exact Or.inl hv
  | cons u rest ih =>
    unfold spreadWave at h
    cases hrow : g.adjList[u]? with
    | none => simp [hrow] at h
    | some row =>
      simp only [hrow] at h
      have hfire1 : FiresOnly lib g (attemptNeighbors lib A row next rs).2.seed ok := by
        rw [attempt_seed]; exact hfire
      rcases ih _ _ hfire1 h with h1 | ⟨hA, w, hw, p, hp, hok⟩
      · have hrowfire : ∀ i, ∀ e ∈ row, sample lib (lib.gen rs.seed i) ≤ e.2 → ok e.2 :=
          fun i e he => hfire i row (row_mem_of_getElem? hrow) e he
        rcases attempt_mem_elim lib A ok row next rs hrowfire h1 with h2 | ⟨hA, p, hp, hok⟩
        · exact Or.inl h2
        · exact Or.inr ⟨hA, u, List.mem_cons_self _ _, p, mem_getD_iff.2 ⟨row, hrow, hp⟩, hok⟩
      · exact Or.inr ⟨hA, w, List.mem_cons_of_mem _ hw, p, hp, hok⟩

theorem spreadWave_mem_intro (lib : Stdlib) (g : Graph) (ok : ℚ → Prop) (A F next : List Nat)
    (rs : RandState) (hall : AlwaysFires lib g rs.seed ok)
    {N : List Nat} {rs1 : RandState} (h : spreadWave lib g A F next rs = some (N, rs1))
    {u v : Nat} {p : ℚ} (hu : u ∈ F) (hv : (v, p) ∈ g.adjList.getD u []) (hok : ok p)
    (hA : v ∉ A) : v ∈ N := by
  induction F generalizing next rs with
  | nil => simp at hu
  | cons w rest ih =>
    unfold spreadWave at h
    cases hrow : g.adjList[w]? with
    | none => simp [hrow] at h
    | some row =>
      simp only [hrow] at h
      have hall1 : AlwaysFires lib g (attemptNeighbors lib A row next rs).2.seed ok := by
        rw [attempt_seed]; exact hall
      rcases List.mem_cons.1 hu with rfl | hu
      · obtain ⟨row2, hrow2, hmem⟩ := mem_getD_iff.1 hv
        rw [hrow] at hrow2
        obtain rfl := Option.some.inj hrow2
        have hrowall : ∀ i, ∀ e ∈ row, ok e.2 → sample lib (lib.gen rs.seed i) ≤ e.2 :=
          fun i e he => hall i row (row_mem_of_getElem? hrow) e he
        exact spreadWave_next_sub _ _ _ _ _ _ h
          (attempt_mem_intro lib A ok row next rs hrowall hmem hok hA)
      · exact ih _ _ hall1 h hu


/-! ## Facts about the loop of `independentCascade` -/

theorem firesOnly_true (lib : Stdlib) (g : Graph) (s : Nat) :
    FiresOnly lib g s (fun _ => True) :=
  fun _ _ _ _ _ _ => trivial

theorem inactiveCount_lt_of_mem {n : Nat} {A B : List Nat} (hAB : ∀ v ∈ A, v ∈ B) {x : Nat}
    (hx : x < n) (hxA : x ∉ A) (hxB : x ∈ B) : inactiveCount n B < inactiveCount n A := by
  unfold inactiveCount
  apply filter_length_lt _ _ _ _ x (List.mem_range.2 hx)
  · simpa using hxA
  · simpa using hxB
  · intro y hy
    simp only [decide_eq_true_eq] at hy ⊢
    exact fun h => hy (hAB y h)

theorem inactiveCount_lt_of_nonempty {n : Nat} {A : List Nat} {x : Nat} (hx : x < n)
    (hxA : x ∈ A) : inactiveCount n A < n := by
  have := inactiveCount_lt_of_mem (n := n) (A := []) (B := A) (by simp) hx (by simp) hxA
  simpa [inactiveCount] using this

theorem cascadeLoop_cons_some {lib : Stdlib} {g : Graph} {fuel : Nat} {A : List Nat} {a : Nat}
    {t : List Nat} {rs : RandState} {res : List Nat} {rs1 : RandState}
    (h : cascadeLoop lib g (fuel + 1) A (a :: t) rs = some (res, rs1)) :
    ∃ N rs2, spreadWave lib g A (a :: t) [] rs = some (N, rs2) ∧
      cascadeLoop lib g fuel (setInsertRange N A) N rs2 = some (res, rs1) := by
  unfold cascadeLoop at h
  cases hw : spreadWave lib g A (a :: t) [] rs with
  | none => simp [hw] at h
  | some r =>
    obtain ⟨N, rs2⟩ := r
    simp only [hw] at h
    exact ⟨N, rs2, rfl, h⟩

theorem cascadeLoop_total (lib : Stdlib) (g : Graph)
    (hnb : ∀ row ∈ g.adjList, ∀ e ∈ row, e.1 < g.adjList.length)
    (fuel : Nat) (A F : List Nat) (rs : RandState) (hF : ∀ u ∈ F, u < g.adjList.length)
    (hfuel : (if F = [] then 1 else 2 + inactiveCount g.adjList.length A) ≤ fuel) :
    ∃ res rs1, cascadeLoop lib g fuel A F rs = some (res, rs1) := by
  induction fuel generalizing A F rs with
  | zero => split_ifs at hfuel <;> omega
  | succ fuel ih =>
    cases F with
    | nil => exact ⟨A, rs, by simp [cascadeLoop]⟩
    | cons a t =>
      obtain ⟨N, rs2, hN⟩ := spreadWave_some lib g A (a :: t) [] rs hF
      have hNprop : ∀ v ∈ N, v ∉ A ∧ v < g.adjList.length := by
        intro v hv
        rcases spreadWave_mem_elim lib g (fun _ => True) A (a :: t) [] rs
          (firesOnly_true lib g _) hN hv with h | ⟨hA, u, _, p, hp, _⟩
        · simp at h
        · obtain ⟨row, hrow, hmem⟩ := mem_getD_iff.1 hp
          exact ⟨hA, hnb row (row_mem_of_getElem? hrow) (v, p) hmem⟩
      have hstep : cascadeLoop lib g (fuel + 1) A (a :: t) rs =
          cascadeLoop lib g fuel (setInsertRange N A) N rs2 := by
        simp only [cascadeLoop, hN]
      rw [hstep]
      apply ih
      · exact fun v hv => (hNprop v hv).2
      · simp only [List.cons_ne_nil, if_false] at hfuel
        cases N with
        | nil => simp; omega
        | cons x N1 =>
          have hx := hNprop x (List.mem_cons_self _ _)
          have := inactiveCount_lt_of_mem (n := g.adjList.length) (A := A)
            (B := setInsertRange (x :: N1) A)
            (fun v hv => mem_setInsertRange.2 (Or.inr hv)) hx.2 hx.1
            (mem_setInsertRange.2 (Or.inl (List.mem_cons_self _ _)))
          simp only [List.cons_ne_nil, if_false]
          omega

theorem cascadeLoop_seed (lib : Stdlib) (g : Graph) (fuel : Nat) (A F : List Nat)
    (rs : RandState) {res : List Nat} {rs1 : RandState}
    (h : cascadeLoop lib g fuel A F rs = some (res, rs1)) : rs1.seed = rs.seed := by
  induction fuel generalizing A F rs with
  | zero => simp [cascadeLoop] at h
  | succ fuel ih =>
    cases F with
    | nil => simp [cascadeLoop] at h; rw [← h.2]
    | cons a t =>
      obtain ⟨N, rs2, hN, hrec⟩ := cascadeLoop_cons_some h
      rw [ih _ _ _ hrec, spreadWave_seed _ _ _ _ _ _ hN]

theorem cascadeLoop_sorted (lib : Stdlib) (g : Graph) (fuel : Nat) (A F : List Nat)
    (rs : RandState) {res : List Nat} {rs1 : RandState}
    (h : cascadeLoop lib g fuel A F rs = some (res, rs1)) (hA : A.Sorted (· < ·)) :
    res.Sorted (· < ·) := by
  induction fuel generalizing A F rs with
  | zero => simp [cascadeLoop] at h
  | succ fuel ih =>
    cases F with
    | nil => simp [cascadeLoop] at h; rw [← h.1]; exact hA
    | cons a t =>
      obtain ⟨N, rs2, _, hrec⟩ := cascadeLoop_cons_some h
      exact ih _ _ _ hrec (sorted_setInsertRange hA)

theorem cascadeLoop_sub (lib : Stdlib) (g : Graph) (fuel : Nat) (A F : List Nat)
    (rs : RandState) {res : List Nat} {rs1 : RandState}
    (h : cascadeLoop lib g fuel A F rs = some (res, rs1)) {v : Nat} (hv : v ∈ A) :
    v ∈ res := by
  induction fuel generalizing A F rs with
  | zero => simp [cascadeLoop] at h
  | succ fuel ih =>
    cases F with
    | nil => simp [cascadeLoop] at h; rw [← h.1]; exact hv
    | cons a t =>
      obtain ⟨N, rs2, _, hrec⟩ := cascadeLoop_cons_some h
      exact ih _ _ _ hrec (mem_setInsertRange.2 (Or.inr hv))

/-- A property of nodes that holds on the activated set and is carried along the edges that
can fire holds on the result. -/
theorem cascadeLoop_inv (lib : Stdlib) (g : Graph) (ok : ℚ → Prop) (P : Nat → Prop)
    (hP : ∀ u v p, P u → (v, p) ∈ g.adjList.getD u [] → ok p → P v)
    (fuel : Nat) (A F : List Nat) (rs : RandState) (hfire : FiresOnly lib g rs.seed ok)
    (hFA : ∀ u ∈ F, u ∈ A) (hA : ∀ v ∈ A, P v) {res : List Nat} {rs1 : RandState}
    (h : cascadeLoop lib g fuel A F rs = some (res, rs1)) : ∀ v ∈ res, P v := by
  induction fuel generalizing A F rs with
  | zero => simp [cascadeLoop] at h
  | succ fuel ih =>
    cases F with
    | nil => simp [cascadeLoop] at h; rw [← h.1]; exact hA
    | cons a t =>
      obtain ⟨N, rs2, hN, hrec⟩ := cascadeLoop_cons_some h
      have hfire2 : FiresOnly lib g rs2.seed ok := by
        rw [spreadWave_seed _ _ _ _ _ _ hN]; exact hfire
      refine ih _ _ _ hfire2 (fun u hu => mem_setInsertRange.2 (Or.inl hu)) ?_ hrec
      intro v hv
      rcases mem_setInsertRange.1 hv with hv | hv
      · rcases spreadWave_mem_elim lib g ok A (a :: t) [] rs hfire hN hv with
          h1 | ⟨_, u, hu, p, hp, hok⟩
        · simp at h1
        · exact hP u v p (hA u (hFA u hu)) hp hok
      · exact hA v hv

/-- When every edge satisfying `ok` fires, the result is closed under those edges. -/
theorem cascadeLoop_closed (lib : Stdlib) (g : Graph) (ok : ℚ → Prop)
    (fuel : Nat) (A F : List Nat) (rs : RandState) (hall : AlwaysFires lib g rs.seed ok)
    (hcl : ∀ u ∈ A, u ∉ F → ∀ v p, (v, p) ∈ g.adjList.getD u [] → ok p → v ∈ A)
    {res : List Nat} {rs1 : RandState}
    (h : cascadeLoop lib g fuel A F rs = some (res, rs1)) :
    ∀ u ∈ res, ∀ v p, (v, p) ∈ g.adjList.getD u [] → ok p → v ∈ res := by
  induction fuel generalizing A F rs with
  | zero => simp [cascadeLoop] at h
  | succ fuel ih =>
    cases F with
    | nil =>
      simp [cascadeLoop] at h; rw [← h.1]
      exact fun u hu => hcl u hu (by simp)
    | cons a t =>
      obtain ⟨N, rs2, hN, hrec⟩ := cascadeLoop_cons_some h
      have hall2 : AlwaysFires lib g rs2.seed ok := by
        rw [spreadWave_seed _ _ _ _ _ _ hN]; exact hall
      refine ih _ _ _ hall2 ?_ hrec
      intro u hu huN v p hv hok
      have huA : u ∈ A := by
        rcases mem_setInsertRange.1 hu with h1 | h1
        · exact absurd h1 huN
        · exact h1
      by_cases hvA : v ∈ A
      · exact mem_setInsertRange.2 (Or.inr hvA)
      · by_cases huF : u ∈ a :: t
        · exact mem_setInsertRange.2
            (Or.inl (spreadWave_mem_intro lib g ok A (a :: t) [] rs hall hN huF hv hok hvA))
        · exact absurd (hcl u huA huF v p hv hok) hvA

theorem independentCascade_total (lib : Stdlib) (g : Graph) (hwf : g.WellFormed)
    (seedNodes : List Nat) (hs : ∀ s ∈ seedNodes, s < g.nodes) (fuel : Nat)
    (hfuel : g.nodes + 1 ≤ fuel) (now : Nat) (rs : RandState) :
    ∃ res rs1, independentCascade lib fuel g seedNodes now rs = some (res, rs1) := by
  obtain ⟨hlen, hnb⟩ := hwf
  unfold independentCascade
  apply cascadeLoop_total
  · intro row hrow e he; rw [hlen]; exact hnb row hrow e he
  · intro u hu; rw [hlen]; exact hs u (mem_setOfList.1 hu)
  · split_ifs with h0
    · omega
    · cases hS : setOfList seedNodes with
      | nil => exact absurd hS h0
      | cons x t =>
        have hx : x ∈ setOfList seedNodes := by rw [hS]; exact List.mem_cons_self _ _
        have := inactiveCount_lt_of_nonempty (n := g.adjList.length) (A := x :: t) (x := x)
          (by rw [hlen]; exact hs x (mem_setOfList.1 hx)) (List.mem_cons_self _ _)
        rw [hlen] at this ⊢
        omega

/-- When, in the stream the call draws from, the outcome of the test on an edge depends
only on the probability of the edge, the cascade returns the nodes reachable along the edges
that pass the test. -/
theorem independentCascade_settled (lib : Stdlib) (g : Graph) (ok : ℚ → Prop)
    (seedNodes : List Nat) (fuel : Nat) (now : Nat) (rs : RandState)
    (hfire : FiresOnly lib g now ok) (hall : AlwaysFires lib g now ok)
    {res : List Nat} {rs1 : RandState}
    (h : independentCascade lib fuel g seedNodes now rs = some (res, rs1)) :
    res.Sorted (· < ·) ∧ ∀ v, v ∈ res ↔ ReachableVia g ok seedNodes v := by
  unfold independentCascade at h
  refine ⟨cascadeLoop_sorted _ _ _ _ _ _ h (sorted_setOfList _), fun v => ⟨?_, ?_⟩⟩
  · refine cascadeLoop_inv lib g ok (ReachableVia g ok seedNodes)
      (fun u v p hu hv hok => ReachableVia.step hu hv hok) fuel (setOfList seedNodes)
      (setOfList seedNodes) (srand now) hfire
      (fun u hu => hu) (fun v hv => ReachableVia.seed (mem_setOfList.1 hv)) h v
  · intro hv
    have hcl := cascadeLoop_closed lib g ok fuel (setOfList seedNodes) (setOfList seedNodes)
      (srand now) hall
      (fun u hu hnu => absurd hu hnu) h
    induction hv with
    | seed hs => exact cascadeLoop_sub _ _ _ _ _ _ h (mem_setOfList.2 hs)
    | step _ hedge hok ih => exact hcl _ ih _ _ hedge hok

/-! ## Settled streams and reachability -/

theorem sample_le_one {lib : Stdlib} (hlib : lib.Valid) (s i : Nat) :
    sample lib (lib.gen s i) ≤ 1 := by
  unfold sample
  have h0 : (0 : ℚ) < (lib.RAND_MAX : ℚ) := by exact_mod_cast hlib.1
  apply toDouble_le_one
  · exact div_nonneg (Nat.cast_nonneg _) (le_of_lt h0)
  · rw [div_le_one h0]
    exact_mod_cast hlib.2 s i

theorem alwaysFires_of_prob_one {lib : Stdlib} (hlib : lib.Valid) {g : Graph}
    (hp : ∀ row ∈ g.adjList, ∀ e ∈ row, e.2 = 1) (s : Nat) :
    AlwaysFires lib g s (fun _ => True) := by
  intro i row hrow e he _
  rw [hp row hrow e he]
  exact sample_le_one hlib s i

theorem reachableVia_lt {g : Graph} (hwf : g.WellFormed) {ok : ℚ → Prop} {seeds : List Nat}
    (hs : ∀ s ∈ seeds, s < g.nodes) {v : Nat} (hv : ReachableVia g ok seeds v) :
    v < g.nodes := by
  induction hv with
  | seed h => exact hs _ h
  | step _ hedge _ _ =>
    obtain ⟨row, hrow, hmem⟩ := mem_getD_iff.1 hedge
    exact hwf.2 row (row_mem_of_getElem? hrow) _ hmem

theorem reachableVia_mono_seeds {g : Graph} {ok : ℚ → Prop} {S T : List Nat}
    (hST : ∀ s ∈ S, s ∈ T) {v : Nat} (hv : ReachableVia g ok S v) : ReachableVia g ok T v := by
  induction hv with
  | seed h => exact ReachableVia.seed (hST _ h)
  | step _ hedge hok ih => exact ReachableVia.step ih hedge hok

theorem pathGraph4_wellFormed (p1 p2 p3 : ℚ) : (pathGraph4 p1 p2 p3).WellFormed := by
  refine ⟨rfl, ?_⟩
  simp only [pathGraph4, List.mem_cons, List.mem_singleton, List.not_mem_nil, or_false]
  rintro row (rfl | rfl | rfl | rfl) e he <;> simp at he <;>
    rcases he with rfl | rfl <;> simp

theorem pathGraph4_prob_one : ∀ row ∈ (pathGraph4 1 1 1).adjList, ∀ e ∈ row, e.2 = 1 := by
  simp only [pathGraph4, List.mem_cons, List.mem_singleton, List.not_mem_nil, or_false]
  rintro row (rfl | rfl | rfl | rfl) e he <;> simp at he <;>
    rcases he with rfl | rfl <;> simp

theorem pathGraph4_reachable (p1 p2 p3 : ℚ) :
    ∀ v < (pathGraph4 p1 p2 p3).nodes, Reachable (pathGraph4 p1 p2 p3) [0] v := by
  have h0 : Reachable (pathGraph4 p1 p2 p3) [0] 0 := ReachableVia.seed (by simp)
  have h1 : Reachable (pathGraph4 p1 p2 p3) [0] 1 :=
    ReachableVia.step (p := p1) h0 (by simp [pathGraph4]) trivial
  have h2 : Reachable (pathGraph4 p1 p2 p3) [0] 2 :=
    ReachableVia.step (p := p2) h1 (by simp [pathGraph4]) trivial
  have h3 : Reachable (pathGraph4 p1 p2 p3) [0] 3 :=
    ReachableVia.step (p := p3) h2 (by simp [pathGraph4]) trivial
  intro v hv
  have hv4 : v < 4 := hv
  interval_cases v
  · exact h0
  · exact h1
  · exact h2
  · exact h3

theorem independentCascade_prob_one_aux (lib : Stdlib) (hlib : lib.Valid) (g : Graph)
    (hwf : g.WellFormed) (hp : ∀ row ∈ g.adjList, ∀ e ∈ row, e.2 = 1)
    (seedNodes : List Nat) (hs : ∀ s ∈ seedNodes, s < g.nodes) (fuel : Nat)
    (hfuel : g.nodes + 1 ≤ fuel) (now : Nat) (rs : RandState) :
    ∃ res rs1, independentCascade lib fuel g seedNodes now rs = some (res, rs1) ∧
      res.Sorted (· < ·) ∧ (∀ v, v ∈ res ↔ Reachable g seedNodes v) ∧
      ((∀ v < g.nodes, Reachable g seedNodes v) → res = List.range g.nodes) := by
  obtain ⟨res, rs1, h⟩ := independentCascade_total lib g hwf seedNodes hs fuel hfuel now rs
  have hset := independentCascade_settled lib g (fun _ => True) seedNodes fuel now rs
    (firesOnly_true lib g now) (alwaysFires_of_prob_one hlib hp now) h
  refine ⟨res, rs1, h, hset.1, hset.2, fun hconn => ?_⟩
  apply eq_of_sorted_of_mem_iff hset.1 (List.sorted_lt_range _)
  intro v
  rw [hset.2 v, List.mem_range]
  exact ⟨fun hv => reachableVia_lt hwf hs hv, fun hv => hconn v hv⟩

/-! ## Claims about `independentCascade` -/

/-- C1: with every edge probability equal to 1, `independentCascade` on a well-formed graph
and in-range seeds returns (for every generator, clock value and enough fuel) the strictly
ascending list of the nodes reachable from the seeds; when every node is reachable from the
seeds (a connected graph seeded with 0) that is the list of all nodes; and on the path
0-1-2-3 with seed 0 it is `[0, 1, 2, 3]`. -/
theorem independentCascade_prob_one :
    (∀ (lib : Stdlib), lib.Valid → ∀ (g : Graph), g.WellFormed →
      (∀ row ∈ g.adjList, ∀ e ∈ row, e.2 = 1) →
      ∀ (seedNodes : List Nat), (∀ s ∈ seedNodes, s < g.nodes) →
      ∀ (fuel : Nat), g.nodes + 1 ≤ fuel → ∀ (now : Nat) (rs : RandState),
      ∃ res rs1, independentCascade lib fuel g seedNodes now rs = some (res, rs1) ∧
        res.Sorted (· < ·) ∧ (∀ v, v ∈ res ↔ Reachable g seedNodes v) ∧
        ((∀ v < g.nodes, Reachable g seedNodes v) → res = List.range g.nodes)) ∧
    (∀ (lib : Stdlib), lib.Valid → ∀ (fuel : Nat), 5 ≤ fuel → ∀ (now : Nat) (rs : RandState),
      ∃ rs1, independentCascade lib fuel (pathGraph4 1 1 1) [0] now rs
        = some ([0, 1, 2, 3], rs1)) := by
  refine ⟨independentCascade_prob_one_aux, ?_⟩
  intro lib hlib fuel hfuel now rs
  obtain ⟨res, rs1, h, _, _, hall⟩ := independentCascade_prob_one_aux lib hlib
    (pathGraph4 1 1 1) (pathGraph4_wellFormed 1 1 1) pathGraph4_prob_one [0]
    (by simp [pathGraph4]) fuel hfuel now rs
  have hres := hall (pathGraph4_reachable 1 1 1)
  refine ⟨rs1, ?_⟩
  rw [h, hres]
  rfl

theorem edgeGraph_wellFormed (p : ℚ) : (edgeGraph p).WellFormed := by
  refine ⟨rfl, ?_⟩
  simp only [edgeGraph, List.mem_cons, List.mem_singleton, List.not_mem_nil, or_false]
  rintro row (rfl | rfl) e he <;> simp at he <;> subst he <;> simp

theorem edgeGraph_prob_one : ∀ row ∈ (edgeGraph 1).adjList, ∀ e ∈ row, e.2 = 1 := by
  simp only [edgeGraph, List.mem_cons, List.mem_singleton, List.not_mem_nil, or_false]
  rintro row (rfl | rfl) e he <;> simp at he <;> subst he <;> rfl

theorem edgeGraph_connected (p : ℚ) :
    ∀ u, u < (edgeGraph p).nodes → ∀ v, v < (edgeGraph p).nodes →
      Reachable (edgeGraph p) [u] v := by
  intro u hu v hv
  have hu2 : u < 2 := hu
  have hv2 : v < 2 := hv
  interval_cases u <;> interval_cases v
  · exact ReachableVia.seed (by simp)
  · exact ReachableVia.step (p := p) (ReachableVia.seed (List.mem_singleton.2 rfl))
      (by simp [edgeGraph]) trivial
  · exact ReachableVia.step (p := p) (ReachableVia.seed (List.mem_singleton.2 rfl))
      (by simp [edgeGraph]) trivial
  · exact ReachableVia.seed (by simp)

theorem zeroLib_valid : zeroLib.Valid :=
  ⟨by decide, fun _ _ => Nat.zero_le _⟩

/-- Witness of C1: the two-node graph with one probability-1 edge, seeded with 0, and the
path 0-1-2-3 with a generator that always returns 0. -/
theorem independentCascade_prob_one_witness :
    (∃ res rs1, independentCascade zeroLib 3 (edgeGraph 1) [0] 0 ⟨0, 0⟩ = some (res, rs1) ∧
      res.Sorted (· < ·) ∧ (∀ v, v ∈ res ↔ Reachable (edgeGraph 1) [0] v) ∧
      ((∀ v < (edgeGraph 1).nodes, Reachable (edgeGraph 1) [0] v) →
        res = List.range (edgeGraph 1).nodes)) ∧
    (∃ rs1, independentCascade zeroLib 5 (pathGraph4 1 1 1) [0] 0 ⟨0, 0⟩
      = some ([0, 1, 2, 3], rs1)) :=
  ⟨independentCascade_prob_one.1 zeroLib zeroLib_valid (edgeGraph 1)
      (edgeGraph_wellFormed 1) edgeGraph_prob_one [0] (by simp [edgeGraph]) 3
      (by simp [edgeGraph]) 0 ⟨0, 0⟩,
    independentCascade_prob_one.2 zeroLib zeroLib_valid 5 (le_refl 5) 0 ⟨0, 0⟩⟩

/-- C2 (the code at the failing input): on the two-node graph whose only edge has
probability 0, seeded with 0, a `rand()` that returns 0 makes the test `0 <= 0` succeed and
node 1 is activated: the result is `{0, 1}`, more than the seed set. -/
theorem independentCascade_prob_zero_fires :
    (Graph.create 2).addEdges [(0, 1, 0)] = some (edgeGraph 0) ∧
    independentCascade zeroLib 3 (edgeGraph 0) [0] 0 ⟨0, 0⟩ = some ([0, 1], ⟨0, 1⟩) := by
  constructor
  · rfl
  · with_unfolding_all rfl

/-- C3 (counterexample): on `forkGraph`, with the stream 0, RAND_MAX, RAND_MAX, ... read
from its start by both runs, the seed set `{2}` activates `{2,3,4,5}` and the larger seed
set `{0,2}` activates `{0,1,2}`: node 3 is lost and the activated set is smaller. -/
theorem independentCascade_not_monotone :
    (Graph.create 6).addEdges [(0, 1, 1/2), (2, 3, 1/2), (3, 4, 1), (3, 5, 1)]
      = some forkGraph ∧
    independentCascade flipLib 7 forkGraph [2] 0 ⟨0, 0⟩ = some ([2, 3, 4, 5], ⟨0, 3⟩) ∧
    independentCascade flipLib 7 forkGraph [0, 2] 0 ⟨0, 0⟩ = some ([0, 1, 2], ⟨0, 2⟩) ∧
    (∀ s ∈ [2], s ∈ [0, 2]) ∧
    ¬ (∀ v ∈ [2, 3, 4, 5], v ∈ [0, 1, 2]) ∧
    ([0, 1, 2] : List Nat).length < ([2, 3, 4, 5] : List Nat).length := by
  refine ⟨?_, ?_, ?_, ?_, ?_, ?_⟩
  · with_unfolding_all rfl
  · with_unfolding_all rfl
  · with_unfolding_all rfl
  · decide
  · decide
  · decide

/-- C3 (amended): when, in the stream read by both runs, the outcome of the test
`rand() / (double)RAND_MAX <= prob` on every edge, the quotient being the `double` the
source compares (`sample`), is the same at every position of the stream (a constant stream,
or all probabilities 1), `independentCascade` is monotone in the seed set: for in-range seed
sets `S ⊆ S'` both runs return, and the activated set for `S'` contains, and is at least as
long as, the activated set for `S`. -/
theorem independentCascade_monotone_settled (lib : Stdlib) (g : Graph) (hwf : g.WellFormed)
    (now : Nat)
    (hsettled : ∀ i j, ∀ row ∈ g.adjList, ∀ e ∈ row,
      (sample lib (lib.gen now i) ≤ e.2 ↔ sample lib (lib.gen now j) ≤ e.2))
    (S S' : List Nat) (hsub : ∀ s ∈ S, s ∈ S') (hS' : ∀ s ∈ S', s < g.nodes)
    (fuel : Nat) (hfuel : g.nodes + 1 ≤ fuel) (rs : RandState) :
    ∃ res rs1 res' rs2,
      independentCascade lib fuel g S now rs = some (res, rs1) ∧
      independentCascade lib fuel g S' now rs = some (res', rs2) ∧
      (∀ v ∈ res, v ∈ res') ∧ res.length ≤ res'.length := by
  obtain ⟨res, rs1, h⟩ := independentCascade_total lib g hwf S
    (fun s hs => hS' s (hsub s hs)) fuel hfuel now rs
  obtain ⟨res', rs2, h'⟩ := independentCascade_total lib g hwf S' hS' fuel hfuel now rs
  have hfire : FiresOnly lib g now (fun p => sample lib (lib.gen now 0) ≤ p) :=
    fun i row hrow e he hle => (hsettled i 0 row hrow e he).1 hle
  have hall : AlwaysFires lib g now (fun p => sample lib (lib.gen now 0) ≤ p) :=
    fun i row hrow e he hle => (hsettled i 0 row hrow e he).2 hle
  have hres := independentCascade_settled lib g _ S fuel now rs hfire hall h
  have hres' := independentCascade_settled lib g _ S' fuel now rs hfire hall h'
  have hmem : ∀ v ∈ res, v ∈ res' := fun v hv =>
    (hres'.2 v).2 (reachableVia_mono_seeds hsub ((hres.2 v).1 hv))
  refine ⟨res, rs1, res', rs2, h, h', hmem, ?_⟩
  exact (List.subperm_of_subset hres.1.nodup hmem).length_le

/-- Witness of C3 (amended): the path 0-1-2-3 whose middle edge has probability 1/4, a
stream whose samples are all 1/2, and the seed sets `{0} ⊆ {0,3}`. -/
theorem independentCascade_monotone_settled_witness :
    ∃ res rs1 res' rs2,
      independentCascade halfLib 5 (pathGraph4 1 (1/4) 1) [0] 0 ⟨0, 0⟩ = some (res, rs1) ∧
      independentCascade halfLib 5 (pathGraph4 1 (1/4) 1) [0, 3] 0 ⟨0, 0⟩
        = some (res', rs2) ∧
      (∀ v ∈ res, v ∈ res') ∧ res.length ≤ res'.length :=
  independentCascade_monotone_settled halfLib (pathGraph4 1 (1/4) 1)
    (pathGraph4_wellFormed _ _ _) 0 (fun _ _ _ _ _ _ => Iff.rfl) [0] [0, 3]
    (by simp) (by simp [pathGraph4]) 5 (by simp [pathGraph4]) ⟨0, 0⟩

/-! ## Facts about sorting and selection -/

theorem pairGe_total {α : Type} [LinearOrder α] (a b : α × Nat) : pairGe a b ∨ pairGe b a := by
  unfold pairGe
  rcases lt_trichotomy a.1 b.1 with h | h | h
  · exact Or.inr (Or.inl h)
  · rcases le_total a.2 b.2 with h2 | h2
    · exact Or.inr (Or.inr ⟨h, h2⟩)
    · exact Or.inl (Or.inr ⟨h.symm, h2⟩)
  · exact Or.inl (Or.inl h)

theorem pairGe_trans {α : Type} [LinearOrder α] {a b c : α × Nat} (hab : pairGe a b)
    (hbc : pairGe b c) : pairGe a c := by
  unfold pairGe at *
  rcases hab with h1 | ⟨h1, h2⟩ <;> rcases hbc with h3 | ⟨h3, h4⟩
  · exact Or.inl (lt_trans h3 h1)
  · exact Or.inl (h3 ▸ h1)
  · exact Or.inl (h1 ▸ h3)
  · exact Or.inr ⟨h3.trans h1, le_trans h4 h2⟩

theorem sortDescending_sorted {α : Type} [LinearOrder α] (v : List (α × Nat)) :
    (sortDescending v).Sorted pairGe := by
  haveI : IsTotal (α × Nat) pairGe := ⟨pairGe_total⟩
  haveI : IsTrans (α × Nat) pairGe := ⟨fun _ _ _ => pairGe_trans⟩
  exact List.sorted_insertionSort pairGe v

theorem sortDescending_perm {α : Type} [LinearOrder α] (v : List (α × Nat)) :
    (sortDescending v).Perm v :=
  List.perm_insertionSort pairGe v

theorem topSeeds_eq_take {α : Type} (v : List (α × Nat)) (k : Nat) (hk : k ≤ v.length) :
    topSeeds v k = some ((v.take k).map Prod.snd) := by
  induction k with
  | zero => simp [topSeeds]
  | succ k ih =>
    have hk1 : k < v.length := hk
    unfold topSeeds
    rw [ih (Nat.le_of_lt hk1), List.getElem?_eq_getElem hk1]
    simp only [List.take_succ, List.getElem?_eq_getElem hk1, Option.toList_some, List.map_append,
      List.map_cons, List.map_nil]

theorem topSeeds_none {α : Type} (v : List (α × Nat)) (k : Nat) (hk : v.length < k) :
    topSeeds v k = none := by
  induction k with
  | zero => omega
  | succ k ih =>
    unfold topSeeds
    have : v[k]? = none := List.getElem?_eq_none (by omega)
    rw [this]
    cases topSeeds v k <;> rfl

/-- The ranking a descending sort of the pairs `(score i, i)` for `i < n` produces: the
node ids in a list `L` that permutes `0..n-1`, in which a node comes before another when
its score is larger, or the scores are equal and its id is larger. -/
theorem sortDescending_ranking {α : Type} [LinearOrder α] (score : Nat → α) (n : Nat) :
    ∃ L : List Nat, L.Perm (List.range n) ∧
      L.Pairwise (fun a b => score b < score a ∨ (score b = score a ∧ b < a)) ∧
      (sortDescending ((List.range n).map (fun i => (score i, i)))).map Prod.snd = L ∧
      L.length = n := by
  set v := (List.range n).map (fun i => (score i, i)) with hv
  have hperm := sortDescending_perm v
  have hsnd : ((sortDescending v).map Prod.snd).Perm (List.range n) := by
    have h1 := hperm.map Prod.snd
    have h2 : v.map Prod.snd = List.range n := by
      rw [hv, List.map_map]; simp [Function.comp_def]
    rwa [h2] at h1
  refine ⟨(sortDescending v).map Prod.snd, hsnd, ?_, rfl, ?_⟩
  · have hnodup : ((sortDescending v).map Prod.snd).Nodup :=
      hsnd.nodup_iff.2 (List.nodup_range n)
    have hne : (sortDescending v).Pairwise (fun a b => a.2 ≠ b.2) :=
      (List.pairwise_map).1 hnodup
    have hsorted : (sortDescending v).Pairwise pairGe := sortDescending_sorted v
    have hboth := hsorted.and hne
    rw [List.pairwise_map]
    refine hboth.imp_of_mem ?_
    intro a b ha hb hab
    have hA : a.1 = score a.2 := by
      have := hperm.subset ha
      rw [hv, List.mem_map] at this
      obtain ⟨i, _, rfl⟩ := this; rfl
    have hB : b.1 = score b.2 := by
      have := hperm.subset hb
      rw [hv, List.mem_map] at this
      obtain ⟨i, _, rfl⟩ := this; rfl
    obtain ⟨hge, hneq⟩ := hab
    unfold pairGe at hge
    rw [hA, hB] at hge
    rcases hge with h | ⟨h1, h2⟩
    · exact Or.inl h
    · exact Or.inr ⟨h1, lt_of_le_of_ne h2 (Ne.symm hneq)⟩
  · rw [hsnd.length_eq, List.length_range]

/-! ## `degreeCentrality` -/

theorem collectDegrees_eq (g : Graph) (is : List Nat) (h : ∀ i ∈ is, i < g.adjList.length) :
    collectDegrees g is = some (is.map (fun i => (degree g i, i))) := by
  induction is with
  | nil => rfl
  | cons i rest ih =>
    have hi : i < g.adjList.length := h i (List.mem_cons_self _ _)
    unfold collectDegrees
    rw [ih (fun j hj => h j (List.mem_cons_of_mem _ hj)), List.getElem?_eq_getElem hi]
    simp [degree, List.getD_eq_getElem?_getD, List.getElem?_eq_getElem hi]

/-- C4 (counterexample): on the path 0-1-2-3 the nodes 1 and 2 both have degree 2 and
`degreeCentrality(k=1)` returns `[2]`, the higher id, not `[1]`. -/
theorem degreeCentrality_path_tie :
    (Graph.create 4).addEdges [(0, 1, 1), (1, 2, 1), (2, 3, 1)] = some (pathGraph4 1 1 1) ∧
    degree (pathGraph4 1 1 1) 1 = degree (pathGraph4 1 1 1) 2 ∧
    degreeCentrality (pathGraph4 1 1 1) 1 = some [2] ∧
    degreeCentrality (pathGraph4 1 1 1) 1 ≠ some [1] := by
  refine ⟨rfl, rfl, rfl, ?_⟩
  decide

/-- C4 (amended): for every graph with one adjacency row per node and every `k ≤ nodes`,
`degreeCentrality(graph, k)` returns the first `k` nodes of the node list ordered by
descending degree with ties broken by descending node id; on the path 0-1-2-3, whatever the
probabilities, `degreeCentrality(k=1)` returns `[2]`. -/
theorem degreeCentrality_top_k :
    (∀ (g : Graph), g.adjList.length = g.nodes → ∀ (k : Nat), k ≤ g.nodes →
      ∃ L : List Nat, L.Perm (List.range g.nodes) ∧
        L.Pairwise (fun a b => degree g b < degree g a ∨ (degree g b = degree g a ∧ b < a)) ∧
        degreeCentrality g k = some (L.take k)) ∧
    (∀ p1 p2 p3 : ℚ, degreeCentrality (pathGraph4 p1 p2 p3) 1 = some [2]) := by
  refine ⟨?_, fun p1 p2 p3 => rfl⟩
  intro g hlen k hk
  obtain ⟨L, hperm, hpair, hL, hlenL⟩ := sortDescending_ranking (degree g) g.nodes
  refine ⟨L, hperm, hpair, ?_⟩
  unfold degreeCentrality
  rw [collectDegrees_eq g _ (fun i hi => by rw [hlen]; exact List.mem_range.1 hi)]
  simp only
  rw [topSeeds_eq_take, List.map_take, hL]
  have : (sortDescending ((List.range g.nodes).map (fun i => (degree g i, i)))).length
      = g.nodes := by
    rw [(sortDescending_perm _).length_eq]; simp
  omega

/-- Witness of C4 (amended): the path 0-1-2-3 with `k = 2`. -/
theorem degreeCentrality_top_k_witness :
    ∃ L : List Nat, L.Perm (List.range (pathGraph4 1 1 1).nodes) ∧
      L.Pairwise (fun a b => degree (pathGraph4 1 1 1) b < degree (pathGraph4 1 1 1) a ∨
        (degree (pathGraph4 1 1 1) b = degree (pathGraph4 1 1 1) a ∧ b < a)) ∧
      degreeCentrality (pathGraph4 1 1 1) 2 = some (L.take 2) :=
  degreeCentrality_top_k.1 (pathGraph4 1 1 1) rfl 2 (by decide)

/-! ## The breadth-first search of `betweennessCentrality` returns -/

theorem bfsDiscover_spec {n curr nextNode : Nat} {st : BfsState} (hinv : BfsInv n st)
    (hc : curr < n) (hn : nextNode < n) :
    ∃ st1, bfsDiscover curr nextNode st = some st1 ∧ BfsInv n st1 ∧
      bfsMeasure st1 = bfsMeasure st := by
  have hn1 : nextNode < st.distance.length := by rw [hinv.hdist]; exact hn
  have hc1 : curr < st.distance.length := by rw [hinv.hdist]; exact hc
  unfold bfsDiscover
  rw [List.getElem?_eq_getElem hn1, List.getElem?_eq_getElem hc1]
  simp only
  split_ifs with h
  · refine ⟨_, rfl, ?_, ?_⟩
    · refine ⟨hinv.hsp, hinv.hpred, by simp [hinv.hdist], ?_, ?_, hinv.hpredlt⟩
      · intro x hx
        rcases List.mem_append.1 hx with hx | hx
        · exact hinv.hq x hx
        · simp at hx; omega
      · intro d hd
        rcases List.mem_or_eq_of_mem_set hd with hd | rfl
        · exact hinv.hge d hd
        · have := hinv.hge _ (List.getElem_mem hc1)
          omega
    · have hge := hinv.hge _ (List.getElem_mem hc1)
      have hpos : 0 < st.distance.count (-1) :=
        List.count_pos_iff.2 (h ▸ List.getElem_mem hn1)
      have hne : ¬ (st.distance[curr] + 1 = -1) := by omega
      simp only [bfsMeasure, List.count_set _ _ _ _ hn1, h, beq_self_eq_true, if_true,
        beq_iff_eq, hne, if_false, List.length_append, List.length_singleton]
      omega
  · exact ⟨st, rfl, hinv, rfl⟩

theorem bfsRelax_spec {n curr nextNode : Nat} {st : BfsState} (hinv : BfsInv n st)
    (hc : curr < n) (hn : nextNode < n) :
    ∃ st1, bfsRelax curr nextNode st = some st1 ∧ BfsInv n st1 ∧
      bfsMeasure st1 = bfsMeasure st := by
  have hn1 : nextNode < st.distance.length := by rw [hinv.hdist]; exact hn
  have hc1 : curr < st.distance.length := by rw [hinv.hdist]; exact hc
  have hn2 : nextNode < st.shortestPaths.length := by rw [hinv.hsp]; exact hn
  have hc2 : curr < st.shortestPaths.length := by rw [hinv.hsp]; exact hc
  have hn3 : nextNode < st.predecessors.length := by rw [hinv.hpred]; exact hn
  unfold bfsRelax
  rw [List.getElem?_eq_getElem hn1, List.getElem?_eq_getElem hc1,
    List.getElem?_eq_getElem hn2, List.getElem?_eq_getElem hc2, List.getElem?_eq_getElem hn3]
  simp only
  split_ifs with h
  · refine ⟨_, rfl, ?_, rfl⟩
    refine ⟨by simp [hinv.hsp], by simp [hinv.hpred], hinv.hdist, hinv.hq, hinv.hge, ?_⟩
    intro row hrow p hp
    rcases List.mem_or_eq_of_mem_set hrow with hrow | rfl
    · exact hinv.hpredlt row hrow p hp
    · rcases List.mem_append.1 hp with hp | hp
      · exact hinv.hpredlt _ (List.getElem_mem hn3) p hp
      · simp at hp; omega
  · exact ⟨st, rfl, hinv, rfl⟩

theorem bfsNeighbors_spec {n curr : Nat} (nexts : List Nat) (hnexts : ∀ x ∈ nexts, x < n)
    (hc : curr < n) {st : BfsState} (hinv : BfsInv n st) :
    ∃ st1, bfsNeighbors curr nexts st = some st1 ∧ BfsInv n st1 ∧
      bfsMeasure st1 = bfsMeasure st := by
  induction nexts generalizing st with
  | nil => exact ⟨st, rfl, hinv, rfl⟩
  | cons x rest ih =>
    have hx : x < n := hnexts x (List.mem_cons_self _ _)
    obtain ⟨st1, h1, hinv1, hm1⟩ := bfsDiscover_spec hinv hc hx
    obtain ⟨st2, h2, hinv2, hm2⟩ := bfsRelax_spec hinv1 hc hx
    obtain ⟨st3, h3, hinv3, hm3⟩ := ih (fun y hy => hnexts y (List.mem_cons_of_mem _ hy)) hinv2
    refine ⟨st3, ?_, hinv3, by omega⟩
    unfold bfsNeighbors
    simp only [h1, h2, h3]

theorem bfsLoop_spec (g : Graph) (hwf : g.WellFormed) (fuel : Nat) {st : BfsState}
    (hinv : BfsInv g.nodes st) (hfuel : bfsMeasure st + 1 ≤ fuel) :
    ∃ st1, bfsLoop g fuel st = some st1 ∧ BfsInv g.nodes st1 := by
  induction fuel generalizing st with
  | zero => omega
  | succ fuel ih =>
    unfold bfsLoop
    cases hq : st.q with
    | nil => exact ⟨st, rfl, hinv⟩
    | cons curr q1 =>
      have hc : curr < g.nodes := hinv.hq curr (by rw [hq]; exact List.mem_cons_self _ _)
      have hc1 : curr < g.adjList.length := by rw [hwf.1]; exact hc
      simp only [List.getElem?_eq_getElem hc1]
      have hinv0 : BfsInv g.nodes { st with q := q1 } :=
        ⟨hinv.hsp, hinv.hpred, hinv.hdist,
          fun x hx => hinv.hq x (by rw [hq]; exact List.mem_cons_of_mem _ hx),
          hinv.hge, hinv.hpredlt⟩
      have hnexts : ∀ x ∈ (g.adjList[curr]).map Prod.fst, x < g.nodes := by
        intro x hx
        obtain ⟨e, he, rfl⟩ := List.mem_map.1 hx
        exact hwf.2 _ (List.getElem_mem hc1) e he
      obtain ⟨st1, h1, hinv1, hm1⟩ := bfsNeighbors_spec _ hnexts hc hinv0
      simp only [h1]
      apply ih hinv1
      have : bfsMeasure { st with q := q1 } + 1 = bfsMeasure st := by
        simp [bfsMeasure, hq]; omega
      omega

theorem bfsInit_inv (g : Graph) {src : Nat} (hsrc : src < g.nodes) :
    BfsInv g.nodes (bfsInit g src) ∧ bfsMeasure (bfsInit g src) ≤ g.nodes := by
  refine ⟨⟨by simp [bfsInit], by simp [bfsInit], by simp [bfsInit], ?_, ?_, ?_⟩, ?_⟩
  · intro x hx; simp [bfsInit] at hx; omega
  · intro d hd
    rcases List.mem_or_eq_of_mem_set hd with hd | rfl
    · rw [List.eq_of_mem_replicate hd]
    · omega
  · intro row hrow p hp
    rw [List.eq_of_mem_replicate hrow] at hp
    simp at hp
  · have hlen : src < (List.replicate g.nodes (-1 : Int)).length := by simpa using hsrc
    simp only [bfsMeasure, bfsInit, List.count_set _ _ _ _ hlen, List.length_singleton]
    simp
    omega

/-! ## The dependency phase returns -/

theorem accumulatePreds_spec {n node : Nat} (shortestPaths : List Nat)
    (hsp : shortestPaths.length = n) (hnode : node < n) (preds : List Nat)
    (hpreds : ∀ p ∈ preds, p < n) (dependency : List ℚ) (hdep : dependency.length = n) :
    ∃ dep1, accumulatePreds shortestPaths node preds dependency = some dep1 ∧
      dep1.length = n := by
  induction preds generalizing dependency with
  | nil => exact ⟨dependency, rfl, hdep⟩
  | cons p rest ih =>
    have hp : p < n := hpreds p (List.mem_cons_self _ _)
    unfold accumulatePreds
    rw [List.getElem?_eq_getElem (by omega : p < shortestPaths.length),
      List.getElem?_eq_getElem (by omega : node < shortestPaths.length),
      List.getElem?_eq_getElem (by omega : p < dependency.length),
      List.getElem?_eq_getElem (by omega : node < dependency.length)]
    exact ih (fun q hq => hpreds q (List.mem_cons_of_mem _ hq)) _ (by simp [hdep])

theorem accumulateStack_spec {n : Nat} (src : Nat) (shortestPaths : List Nat)
    (hsp : shortestPaths.length = n) (predecessors : List (List Nat))
    (hpred : predecessors.length = n) (hpredlt : ∀ row ∈ predecessors, ∀ p ∈ row, p < n)
    (stack : List Nat) (hstack : ∀ x ∈ stack, x < n) (dependency centrality : List ℚ)
    (hdep : dependency.length = n) (hcen : centrality.length = n) :
    ∃ dep1 cen1, accumulateStack src shortestPaths predecessors stack dependency centrality
      = some (dep1, cen1) ∧ cen1.length = n := by
  induction stack generalizing dependency centrality with
  | nil => exact ⟨dependency, centrality, rfl, hcen⟩
  | cons node rest ih =>
    have hnode : node < n := hstack node (List.mem_cons_self _ _)
    have hnode1 : node < predecessors.length := by omega
    obtain ⟨dep1, h1, hlen1⟩ := accumulatePreds_spec shortestPaths hsp hnode
      predecessors[node] (hpredlt _ (List.getElem_mem hnode1)) dependency hdep
    have hrest : ∀ x ∈ rest, x < n := fun x hx => hstack x (List.mem_cons_of_mem _ hx)
    unfold accumulateStack
    simp only [List.getElem?_eq_getElem hnode1, h1]
    split_ifs with hne
    · rw [List.getElem?_eq_getElem (by omega : node < centrality.length),
        List.getElem?_eq_getElem (by omega : node < dep1.length)]
      exact ih hrest _ _ hlen1 (by simp [hcen])
    · exact ih hrest _ _ hlen1 hcen

theorem sourcePass_spec (g : Graph) (hwf : g.WellFormed) (fuel : Nat)
    (hfuel : g.nodes + 1 ≤ fuel) {src : Nat} (hsrc : src < g.nodes) (centrality : List ℚ)
    (hcen : centrality.length = g.nodes) :
    ∃ cen1, sourcePass g fuel src centrality = some cen1 ∧ cen1.length = g.nodes := by
  obtain ⟨hinit, hm⟩ := bfsInit_inv g hsrc
  obtain ⟨st, hst, hinv⟩ := bfsLoop_spec g hwf fuel hinit (by omega)
  have hstack : ∀ x ∈ buildStack g st.distance, x < g.nodes := by
    intro x hx
    simp only [buildStack, List.mem_reverse, List.mem_filter, List.mem_range] at hx
    exact hx.1
  obtain ⟨dep1, cen1, h1, hlen1⟩ := accumulateStack_spec src st.shortestPaths hinv.hsp
    st.predecessors hinv.hpred hinv.hpredlt _ hstack (List.replicate g.nodes 0) centrality
    (by simp) hcen
  refine ⟨cen1, ?_, hlen1⟩
  unfold sourcePass
  simp only [hst, h1]

theorem sourceLoop_spec (g : Graph) (hwf : g.WellFormed) (fuel : Nat)
    (hfuel : g.nodes + 1 ≤ fuel) (srcs : List Nat) (hsrcs : ∀ s ∈ srcs, s < g.nodes)
    (centrality : List ℚ) (hcen : centrality.length = g.nodes) :
    ∃ cen1, sourceLoop g fuel srcs centrality = some cen1 ∧ cen1.length = g.nodes := by
  induction srcs generalizing centrality with
  | nil => exact ⟨centrality, rfl, hcen⟩
  | cons s rest ih =>
    obtain ⟨cen1, h1, hlen1⟩ := sourcePass_spec g hwf fuel hfuel
      (hsrcs s (List.mem_cons_self _ _)) centrality hcen
    obtain ⟨cen2, h2, hlen2⟩ := ih (fun x hx => hsrcs x (List.mem_cons_of_mem _ hx)) cen1 hlen1
    refine ⟨cen2, ?_, hlen2⟩
    unfold sourceLoop
    simp only [h1, h2]

theorem centralityScores_spec (g : Graph) (hwf : g.WellFormed) (fuel : Nat)
    (hfuel : g.nodes + 1 ≤ fuel) :
    ∃ cen, centralityScores g fuel = some cen ∧ cen.length = g.nodes :=
  sourceLoop_spec g hwf fuel hfuel _ (fun _ hs => List.mem_range.1 hs) _ (by simp)

theorem bfsLoop_congr (g g1 : Graph)
    (h : g.adjList.map (List.map Prod.fst) = g1.adjList.map (List.map Prod.fst))
    (fuel : Nat) (st : BfsState) : bfsLoop g fuel st = bfsLoop g1 fuel st := by
  induction fuel generalizing st with
  | zero => rfl
  | succ fuel ih =>
    unfold bfsLoop
    cases st.q with
    | nil => rfl
    | cons curr q1 =>
      have hrow : (g.adjList[curr]?).map (List.map Prod.fst)
          = (g1.adjList[curr]?).map (List.map Prod.fst) := by
        rw [← List.getElem?_map, ← List.getElem?_map, h]
      simp only
      cases h1 : g.adjList[curr]? with
      | none =>
        cases h2 : g1.adjList[curr]? with
        | none => rfl
        | some r2 => rw [h1, h2] at hrow; simp at hrow
      | some r1 =>
        cases h2 : g1.adjList[curr]? with
        | none => rw [h1, h2] at hrow; simp at hrow
        | some r2 =>
          rw [h1, h2] at hrow
          simp only [Option.map_some', Option.some.injEq] at hrow
          simp only [hrow]
          cases bfsNeighbors curr (List.map Prod.fst r2) { st with q := q1 } with
          | none => rfl
          | some st1 => exact ih st1

theorem centralityScores_congr (g g1 : Graph) (hn : g.nodes = g1.nodes)
    (h : g.adjList.map (List.map Prod.fst) = g1.adjList.map (List.map Prod.fst))
    (fuel : Nat) : centralityScores g fuel = centralityScores g1 fuel := by
  have hpass : ∀ src cen, sourcePass g fuel src cen = sourcePass g1 fuel src cen := by
    intro src cen
    unfold sourcePass
    rw [bfsLoop_congr g g1 h]
    simp only [bfsInit, buildStack, hn]
  have hloop : ∀ srcs cen, sourceLoop g fuel srcs cen = sourceLoop g1 fuel srcs cen := by
    intro srcs
    induction srcs with
    | nil => intro cen; rfl
    | cons s rest ih =>
      intro cen
      unfold sourceLoop
      rw [hpass]
      cases sourcePass g1 fuel s cen with
      | none => rfl
      | some c1 => exact ih c1
  unfold centralityScores
  rw [hloop, hn]

theorem bfsLoop_mono (g : Graph) {fuel fuel1 : Nat} (hle : fuel ≤ fuel1) {st r : BfsState}
    (h : bfsLoop g fuel st = some r) : bfsLoop g fuel1 st = some r := by
  induction fuel generalizing fuel1 st with
  | zero => simp [bfsLoop] at h
  | succ fuel ih =>
    obtain ⟨m, rfl⟩ : ∃ m, fuel1 = m + 1 := ⟨fuel1 - 1, by omega⟩
    unfold bfsLoop at h ⊢
    cases hq : st.q with
    | nil => simpa [hq] using h
    | cons curr q1 =>
      simp only [hq] at h ⊢
      cases hrow : g.adjList[curr]? with
      | none => simp [hrow] at h
      | some row =>
        simp only [hrow] at h ⊢
        cases hnb : bfsNeighbors curr (List.map Prod.fst row) { st with q := q1 } with
        | none => simp [hnb] at h
        | some st1 =>
          simp only [hnb] at h ⊢
          exact ih (by omega) h

theorem centralityScores_mono (g : Graph) {fuel fuel1 : Nat} (hle : fuel ≤ fuel1)
    {cen : List ℚ} (h : centralityScores g fuel = some cen) :
    centralityScores g fuel1 = some cen := by
  have hpass : ∀ src c c1, sourcePass g fuel src c = some c1 →
      sourcePass g fuel1 src c = some c1 := by
    intro src c c1 hp
    unfold sourcePass at hp ⊢
    cases hb : bfsLoop g fuel (bfsInit g src) with
    | none => simp [hb] at hp
    | some st =>
      rw [bfsLoop_mono g hle hb]
      simpa [hb] using hp
  have hloop : ∀ srcs c c1, sourceLoop g fuel srcs c = some c1 →
      sourceLoop g fuel1 srcs c = some c1 := by
    intro srcs
    induction srcs with
    | nil => intro c c1 hl; exact hl
    | cons s rest ih =>
      intro c c1 hl
      unfold sourceLoop at hl ⊢
      cases hp : sourcePass g fuel s c with
      | none => simp [hp] at hl
      | some c2 =>
        rw [hpass s c c2 hp]
        simp only [hp] at hl
        exact ih c2 c1 hl
  exact hloop _ _ _ h

theorem pathGraph4_scores (p1 p2 p3 : ℚ) (fuel : Nat) (hfuel : 5 ≤ fuel) :
    centralityScores (pathGraph4 p1 p2 p3) fuel = some [0, 2, 2, 0] := by
  apply centralityScores_mono _ hfuel
  rw [centralityScores_congr (pathGraph4 p1 p2 p3) (pathGraph4 1 1 1) rfl rfl]
  decide!

/-- C5: on the path graph 0-1-2-3 built by `addEdge` with any probabilities, the vector
`centrality` computed inside `betweennessCentrality` is `[0, 2, 2, 0]`: the scores of the
nodes 1 and 2 are equal and positive, the scores of the nodes 0 and 3 are 0. -/
theorem centralityScores_path (p1 p2 p3 : ℚ) (fuel : Nat) (hfuel : 5 ≤ fuel) :
    (Graph.create 4).addEdges [(0, 1, p1), (1, 2, p2), (2, 3, p3)]
      = some (pathGraph4 p1 p2 p3) ∧
    ∃ c0 c1 c2 c3 : ℚ, centralityScores (pathGraph4 p1 p2 p3) fuel = some [c0, c1, c2, c3] ∧
      c1 = c2 ∧ 0 < c2 ∧ c0 = 0 ∧ c3 = 0 :=
  ⟨rfl, 0, 2, 2, 0, pathGraph4_scores p1 p2 p3 fuel hfuel, rfl, by norm_num, rfl, rfl⟩

/-- Witness of C5: the path with the probabilities 1, 1/2, 1/3. -/
theorem centralityScores_path_witness :
    (Graph.create 4).addEdges [(0, 1, 1), (1, 2, 1/2), (2, 3, 1/3)]
      = some (pathGraph4 1 (1/2) (1/3)) ∧
    ∃ c0 c1 c2 c3 : ℚ,
      centralityScores (pathGraph4 1 (1/2) (1/3)) 5 = some [c0, c1, c2, c3] ∧
      c1 = c2 ∧ 0 < c2 ∧ c0 = 0 ∧ c3 = 0 :=
  centralityScores_path 1 (1/2) (1/3) 5 (le_refl 5)

/-- C6 (the code at the failing input): on the path 0-2-1 (`Graph(3)`, `addEdge(0,2,1)`,
`addEdge(1,2,1)`) the computed scores are `[0, 0, 0]`, while the betweenness of node 2, which
lies on the only shortest path between 0 and 1, is 2; for the source 0 the stack is
`[2, 1, 0]` with distances 1, 2, 0, so node 2 is processed before node 1, which is farther
from the source. -/
theorem centralityScores_hub :
    (Graph.create 3).addEdges [(0, 2, 1), (1, 2, 1)] = some (hubGraph 1 1) ∧
    centralityScores (hubGraph 1 1) 4 = some [0, 0, 0] ∧
    specBetweenness (hubGraph 1 1) 2 = 2 ∧
    (bfsLoop (hubGraph 1 1) 4 (bfsInit (hubGraph 1 1) 0)).map
      (fun st => (st.distance, buildStack (hubGraph 1 1) st.distance))
      = some ([0, 2, 1], [2, 1, 0]) := by
  refine ⟨rfl, by decide!, by decide!, by decide!⟩

theorem setOfList_append_singleton {α : Type} [LinearOrder α] (xs : List α) (x : α) :
    setOfList (xs ++ [x]) = setInsert x (setOfList xs) := by
  simp [setOfList, setInsertRange, List.foldl_append]

theorem calculateMarginalGain_spec (lib : Stdlib) (clock : Nat → Nat) (fuel : Nat) (g : Graph)
    (hwf : g.WellFormed) (hfuel : g.nodes + 1 ≤ fuel) (currentSet : List Nat)
    (hcur : ∀ s ∈ currentSet, s < g.nodes) (node : Nat) (hnode : node < g.nodes)
    (sys : SysState) :
    ∃ res rs1, independentCascade lib fuel g (setInsert node currentSet) (clock sys.ticks)
        sys.rs = some (res, rs1) ∧
      calculateMarginalGain lib clock fuel g currentSet node sys
        = some (res.length, ⟨sys.ticks + 1, rs1⟩) := by
  have hseeds : ∀ s ∈ setInsert node currentSet, s < g.nodes := by
    intro s hs
    rcases mem_setInsert.1 hs with rfl | hs
    · exact hnode
    · exact hcur s hs
  obtain ⟨res, rs1, h⟩ := independentCascade_total lib g hwf _ hseeds fuel hfuel
    (clock sys.ticks) sys.rs
  refine ⟨res, rs1, h, ?_⟩
  unfold calculateMarginalGain
  rw [h]

theorem gainPass_nodes {lib : Stdlib} {clock : Nat → Nat} {fuel : Nat} {g : Graph}
    {currentSet order : List Nat} {sys sys1 : SysState} {gains : List (Nat × Nat)}
    (h : GainPass lib clock fuel g currentSet order sys gains sys1) :
    gains.map Prod.snd = order := by
  induction h with
  | nil => rfl
  | cons v rest sys res rs1 gains sys2 _ _ ih => simp [ih]

/-- Every gain a pass records is the size of a set `independentCascade` returns for the
current seeds and the node. -/
theorem gainPass_mem {lib : Stdlib} {clock : Nat → Nat} {fuel : Nat} {g : Graph}
    {currentSet order : List Nat} {sys sys1 : SysState} {gains : List (Nat × Nat)}
    (h : GainPass lib clock fuel g currentSet order sys gains sys1) :
    ∀ e ∈ gains, ∃ now rs res rs1,
      independentCascade lib fuel g (setInsert e.2 currentSet) now rs = some (res, rs1) ∧
      e.1 = res.length := by
  induction h with
  | nil => simp
  | cons v rest sys res rs1 gains sys2 hrun _ ih =>
    intro e he
    rcases List.mem_cons.1 he with rfl | he
    · exact ⟨_, _, res, rs1, hrun, rfl⟩
    · exact ih e he

/-- A pass from a given state records one list of gains and leaves one state. -/
theorem gainPass_unique {lib : Stdlib} {clock : Nat → Nat} {fuel : Nat} {g : Graph}
    {currentSet order : List Nat} {sys sys1 sys2 : SysState} {gains1 gains2 : List (Nat × Nat)}
    (h1 : GainPass lib clock fuel g currentSet order sys gains1 sys1)
    (h2 : GainPass lib clock fuel g currentSet order sys gains2 sys2) :
    gains1 = gains2 ∧ sys1 = sys2 := by
  induction h1 generalizing gains2 sys2 with
  | nil => cases h2; exact ⟨rfl, rfl⟩
  | cons v rest sys res rs1 gains sysa hrun _ ih =>
    cases h2 with
    | cons _ _ _ res2 rs2 gainsb sysb hrun2 hrest2 =>
      rw [hrun] at hrun2
      simp only [Option.some.injEq, Prod.mk.injEq] at hrun2
      obtain ⟨hres, hrs⟩ := hrun2
      subst hres; subst hrs
      obtain ⟨hg, hs⟩ := ih hrest2
      exact ⟨by rw [hg], hs⟩

theorem initialGains_spec (lib : Stdlib) (clock : Nat → Nat) (fuel : Nat) (g : Graph)
    (hwf : g.WellFormed) (hfuel : g.nodes + 1 ≤ fuel) (is : List Nat)
    (his : ∀ i ∈ is, i < g.nodes) (gains : List (Nat × Nat)) (sys : SysState) :
    ∃ gains1 sys1, initialGains lib clock fuel g is gains sys = some (gains ++ gains1, sys1) ∧
      GainPass lib clock fuel g [] is sys gains1 sys1 := by
  induction is generalizing gains sys with
  | nil => exact ⟨[], sys, by simp [initialGains], GainPass.nil sys⟩
  | cons i rest ih =>
    obtain ⟨res, rs1, hrun, h1⟩ := calculateMarginalGain_spec lib clock fuel g hwf hfuel []
      (by simp) i (his i (List.mem_cons_self _ _)) sys
    obtain ⟨gains1, sys2, h2, hpass⟩ := ih
      (fun j hj => his j (List.mem_cons_of_mem _ hj)) (gains ++ [(res.length, i)])
      ⟨sys.ticks + 1, rs1⟩
    refine ⟨(res.length, i) :: gains1, sys2, ?_, GainPass.cons i rest sys res rs1 gains1 sys2
      hrun hpass⟩
    unfold initialGains
    simp only [h1, h2, List.append_assoc, List.singleton_append]

theorem recalcGains_spec (lib : Stdlib) (clock : Nat → Nat) (fuel : Nat) (g : Graph)
    (hwf : g.WellFormed) (hfuel : g.nodes + 1 ≤ fuel) (currentSet : List Nat)
    (hcur : ∀ s ∈ currentSet, s < g.nodes) (gains : List (Nat × Nat))
    (hgains : ∀ e ∈ gains, e.2 < g.nodes) (sys : SysState) :
    ∃ gains1 sys1, recalcGains lib clock fuel g currentSet gains sys = some (gains1, sys1) ∧
      GainPass lib clock fuel g currentSet (gains.map Prod.snd) sys gains1 sys1 := by
  induction gains generalizing sys with
  | nil => exact ⟨[], sys, rfl, GainPass.nil sys⟩
  | cons e rest ih =>
    obtain ⟨g0, node⟩ := e
    obtain ⟨res, rs1, hrun, h1⟩ := calculateMarginalGain_spec lib clock fuel g hwf hfuel
      currentSet hcur node (hgains (g0, node) (List.mem_cons_self _ _)) sys
    obtain ⟨gains1, sys2, h2, hpass⟩ := ih
      (fun e he => hgains e (List.mem_cons_of_mem _ he)) ⟨sys.ticks + 1, rs1⟩
    refine ⟨(res.length, node) :: gains1, sys2, ?_,
      GainPass.cons node (rest.map Prod.snd) sys res rs1 gains1 sys2 hrun hpass⟩
    unfold recalcGains
    simp only [h1, h2]

theorem recalcGains_length (lib : Stdlib) (clock : Nat → Nat) (fuel : Nat) (g : Graph)
    (currentSet : List Nat) (gains : List (Nat × Nat)) (sys : SysState)
    {gains1 : List (Nat × Nat)} {sys1 : SysState}
    (h : recalcGains lib clock fuel g currentSet gains sys = some (gains1, sys1)) :
    gains1.length = gains.length := by
  induction gains generalizing sys gains1 sys1 with
  | nil => simp [recalcGains] at h; simp [← h.1]
  | cons e rest ih =>
    obtain ⟨g0, node⟩ := e
    unfold recalcGains at h
    cases h1 : calculateMarginalGain lib clock fuel g currentSet node sys with
    | none => simp [h1] at h
    | some r =>
      obtain ⟨gain, sys2⟩ := r
      simp only [h1] at h
      cases h2 : recalcGains lib clock fuel g currentSet rest sys2 with
      | none => simp [h2] at h
      | some r2 =>
        obtain ⟨gains2, sys3⟩ := r2
        simp only [h2, Option.some.injEq, Prod.mk.injEq] at h
        rw [← h.1, List.length_cons, List.length_cons, ih _ h2]

theorem initialGains_length (lib : Stdlib) (clock : Nat → Nat) (fuel : Nat) (g : Graph)
    (is : List Nat) (gains : List (Nat × Nat)) (sys : SysState)
    {gains1 : List (Nat × Nat)} {sys1 : SysState}
    (h : initialGains lib clock fuel g is gains sys = some (gains1, sys1)) :
    gains1.length = gains.length + is.length := by
  induction is generalizing gains sys with
  | nil => simp [initialGains] at h; simp [← h.1]
  | cons i rest ih =>
    unfold initialGains at h
    cases h1 : calculateMarginalGain lib clock fuel g [] i sys with
    | none => simp [h1] at h
    | some r =>
      obtain ⟨gain, sys2⟩ := r
      simp only [h1] at h
      rw [ih _ _ h]; simp; omega

theorem sortDescending_length {α : Type} [LinearOrder α] (v : List (α × Nat)) :
    (sortDescending v).length = v.length :=
  (sortDescending_perm v).length_eq

/-- With fewer recorded gains than rounds, a round reads `gains[0]` of an empty vector. -/
theorem selectLoop_none (lib : Stdlib) (clock : Nat → Nat) (fuel : Nat) (g : Graph) (k : Nat)
    (seedNodes currentSet : List Nat) (gains : List (Nat × Nat)) (sys : SysState)
    (hk : gains.length < k) :
    selectLoop lib clock fuel g k seedNodes currentSet gains sys = none := by
  induction k generalizing seedNodes currentSet gains sys with
  | zero => omega
  | succ k ih =>
    unfold selectLoop
    cases gains with
    | nil => rfl
    | cons e rest =>
      obtain ⟨g0, node⟩ := e
      simp only
      cases h1 : recalcGains lib clock fuel g (setInsert node currentSet) rest sys with
      | none => rfl
      | some r =>
        obtain ⟨gains1, sys1⟩ := r
        simp only
        apply ih
        rw [sortDescending_length, recalcGains_length _ _ _ _ _ _ _ h1]
        simpa using hk

theorem celf_none (lib : Stdlib) (clock : Nat → Nat) (fuel : Nat) (g : Graph) (k : Nat)
    (sys : SysState) (hk : g.nodes < k) : celf lib clock fuel g k sys = none := by
  unfold celf
  cases h1 : initialGains lib clock fuel g (List.range g.nodes) [] sys with
  | none => rfl
  | some r =>
    obtain ⟨gains, sys1⟩ := r
    simp only
    apply selectLoop_none
    rw [sortDescending_length, initialGains_length _ _ _ _ _ _ _ h1]
    simpa using hk

theorem isBest_of_ranked {gains ranked : List (Nat × Nat)} {gn node : Nat}
    (h : RankedGains gains ((gn, node) :: ranked)) : IsBest gains node := by
  obtain ⟨hperm, hpair⟩ := h
  refine ⟨gn, hperm.subset (List.mem_cons_self _ _), ?_⟩
  intro e he
  rcases List.mem_cons.1 (hperm.symm.subset he) with rfl | he
  · exact Or.inr ⟨rfl, le_refl _⟩
  · exact List.rel_of_pairwise_cons hpair he

theorem rankedGains_sortDescending (gains : List (Nat × Nat)) :
    RankedGains gains (sortDescending gains) :=
  ⟨sortDescending_perm gains, sortDescending_sorted gains⟩

/-- The ranking of a list of gains is unique. -/
theorem rankedGains_unique {gains r1 r2 : List (Nat × Nat)} (h1 : RankedGains gains r1)
    (h2 : RankedGains gains r2) : r1 = r2 := by
  haveI : IsAntisymm (Nat × Nat) (fun a b => b.1 < a.1 ∨ (b.1 = a.1 ∧ b.2 ≤ a.2)) :=
    ⟨fun a b hab hba => Prod.ext (by omega) (by omega)⟩
  exact List.eq_of_perm_of_sorted (h1.1.trans h2.1.symm) h1.2 h2.2

/-- The greedy rounds are determined by the seeds, the gains and the state they start from:
two runs of as many rounds append the same nodes and leave the same state. -/
theorem greedyPicks_unique {lib : Stdlib} {clock : Nat → Nat} {fuel : Nat} {g : Graph}
    {seeds : List Nat} {gains : List (Nat × Nat)} {sys sys1 sys2 : SysState}
    {picks1 picks2 : List Nat}
    (h1 : GreedyPicks lib clock fuel g seeds gains sys picks1 sys1)
    (h2 : GreedyPicks lib clock fuel g seeds gains sys picks2 sys2)
    (hlen : picks1.length = picks2.length) : picks1 = picks2 ∧ sys1 = sys2 := by
  induction h1 generalizing picks2 sys2 with
  | done seeds gains sys =>
    cases h2 with
    | done => exact ⟨rfl, rfl⟩
    | round => simp at hlen
  | round seeds gains sys gn node ranked gains1 sysa rest sysb _ _ hrank hpass _ ih =>
    cases h2 with
    | done => simp at hlen
    | round _ _ _ gn2 node2 ranked2 gains2 sysc rest2 sysd _ _ hrank2 hpass2 hrest2 =>
      have heq := rankedGains_unique hrank hrank2
      simp only [List.cons.injEq, Prod.mk.injEq] at heq
      obtain ⟨⟨_, hnode⟩, hranked⟩ := heq
      subst hnode; subst hranked
      obtain ⟨hg, hs⟩ := gainPass_unique hpass hpass2
      subst hg; subst hs
      obtain ⟨hp, hs2⟩ := ih hrest2 (by simpa using hlen)
      exact ⟨by rw [hp], hs2⟩

theorem selectLoop_spec (lib : Stdlib) (clock : Nat → Nat) (fuel : Nat) (g : Graph)
    (hwf : g.WellFormed) (hfuel : g.nodes + 1 ≤ fuel) (k : Nat)
    (seedNodes currentSet : List Nat) (gains : List (Nat × Nat)) (sys : SysState)
    (hcur : currentSet = setOfList seedNodes)
    (hseeds : ∀ s ∈ seedNodes, s < g.nodes) (hsnodup : seedNodes.Nodup)
    (hnodup : (gains.map Prod.snd).Nodup)
    (hcand : ∀ v, v ∈ gains.map Prod.snd ↔ (v < g.nodes ∧ v ∉ seedNodes))
    (hk : k ≤ gains.length) :
    ∃ picks sys1, selectLoop lib clock fuel g k seedNodes currentSet (sortDescending gains) sys
        = some (seedNodes ++ picks, sys1) ∧
      picks.length = k ∧ (seedNodes ++ picks).Nodup ∧
      GreedyPicks lib clock fuel g seedNodes gains sys picks sys1 := by
  induction k generalizing seedNodes currentSet gains sys with
  | zero =>
    refine ⟨[], sys, ?_, rfl, by simpa using hsnodup, GreedyPicks.done _ _ _⟩
    simp [selectLoop]
  | succ k ih =>
    have hrank := rankedGains_sortDescending gains
    cases hsd : sortDescending gains with
    | nil =>
      have := sortDescending_length gains
      rw [hsd] at this
      simp at this
      omega
    | cons e rest =>
      obtain ⟨g0, node⟩ := e
      rw [hsd] at hrank
      have hperm : ((g0, node) :: rest).Perm gains := hrank.1
      have hpermsnd : (node :: rest.map Prod.snd).Perm (gains.map Prod.snd) := by
        simpa using hperm.map Prod.snd
      have hnodup2 : (node :: rest.map Prod.snd).Nodup := hpermsnd.nodup_iff.2 hnodup
      rw [List.nodup_cons] at hnodup2
      have hnode := (hcand node).1 (hpermsnd.subset (List.mem_cons_self _ _))
      have hcur1 : setInsert node currentSet = setOfList (seedNodes ++ [node]) := by
        rw [setOfList_append_singleton, hcur]
      have hcurlt : ∀ s ∈ setInsert node currentSet, s < g.nodes := by
        intro s hs
        rcases mem_setInsert.1 hs with rfl | hs
        · exact hnode.1
        · rw [hcur] at hs; exact hseeds s (mem_setOfList.1 hs)
      have hrestlt : ∀ e ∈ rest, e.2 < g.nodes := by
        intro e he
        exact ((hcand e.2).1 (hpermsnd.subset
          (List.mem_cons_of_mem _ (List.mem_map.2 ⟨e, he, rfl⟩)))).1
      obtain ⟨gains1, sys1, h1, hpass⟩ := recalcGains_spec lib clock fuel g hwf hfuel
        (setInsert node currentSet) hcurlt rest hrestlt sys
      have hmap1 : gains1.map Prod.snd = rest.map Prod.snd := gainPass_nodes hpass
      obtain ⟨picks, sys2, h2, hlen, hnd, hgreedy⟩ := ih (seedNodes ++ [node])
        (setInsert node currentSet) gains1 sys1 hcur1
        (by
          intro s hs
          rcases List.mem_append.1 hs with hs | hs
          · exact hseeds s hs
          · simp at hs; subst hs; exact hnode.1)
        (by
          rw [List.nodup_append]
          refine ⟨hsnodup, List.nodup_singleton _, ?_⟩
          intro a ha hb
          simp at hb; subst hb; exact hnode.2 ha)
        (by rw [hmap1]; exact hnodup2.2)
        (by
          intro v
          rw [hmap1]
          constructor
          · intro hv
            have hv1 := (hcand v).1 (hpermsnd.subset (List.mem_cons_of_mem _ hv))
            refine ⟨hv1.1, ?_⟩
            intro hmem
            rcases List.mem_append.1 hmem with hmem | hmem
            · exact hv1.2 hmem
            · simp at hmem; subst hmem; exact hnodup2.1 hv
          · rintro ⟨hv1, hv2⟩
            have hv3 : v ∉ seedNodes := fun h => hv2 (List.mem_append_left _ h)
            have hv4 : v ≠ node := fun h => hv2 (by simp [h])
            have := hpermsnd.symm.subset ((hcand v).2 ⟨hv1, hv3⟩)
            rcases List.mem_cons.1 this with h | h
            · exact absurd h hv4
            · exact h)
        (by
          have hl1 := congrArg List.length hmap1
          have hl2 := hperm.length_eq
          simp only [List.length_map] at hl1
          simp only [List.length_cons] at hl2
          omega)
      refine ⟨node :: picks, sys2, ?_, by simp [hlen], by simpa using hnd, ?_⟩
      · unfold selectLoop
        simp only [h1, h2, List.append_assoc, List.singleton_append]
      · rw [hcur1] at hpass
        exact GreedyPicks.round seedNodes gains sys g0 node rest gains1 sys1 picks sys2 hcand
          (isBest_of_ranked hrank) hrank hpass hgreedy

theorem celf_spec (lib : Stdlib) (clock : Nat → Nat) (fuel : Nat) (g : Graph)
    (hwf : g.WellFormed) (hfuel : g.nodes + 1 ≤ fuel) (k : Nat) (hk : k ≤ g.nodes)
    (sys : SysState) :
    ∃ seeds sys1 gains0 sys0, celf lib clock fuel g k sys = some (seeds, sys1) ∧
      seeds.length = k ∧ seeds.Nodup ∧
      GainPass lib clock fuel g [] (List.range g.nodes) sys gains0 sys0 ∧
      GreedyPicks lib clock fuel g [] gains0 sys0 seeds sys1 := by
  obtain ⟨gains, sys1, h1, hpass⟩ := initialGains_spec lib clock fuel g hwf hfuel
    (List.range g.nodes) (fun i hi => List.mem_range.1 hi) [] sys
  simp only [List.nil_append] at h1
  have hmap : gains.map Prod.snd = List.range g.nodes := gainPass_nodes hpass
  obtain ⟨picks, sys2, h2, hlen, hnd, hgreedy⟩ := selectLoop_spec lib clock fuel g hwf hfuel k
    [] [] gains sys1 rfl (by simp) List.nodup_nil
    (by rw [hmap]; exact List.nodup_range _)
    (by intro v; rw [hmap]; simp)
    (by
      have := congrArg List.length hmap
      simp only [List.length_map, List.length_range] at this
      omega)
  simp only [List.nil_append] at h2 hnd
  refine ⟨picks, sys2, gains, sys1, ?_, hlen, hnd, hpass, hgreedy⟩
  unfold celf
  simp only [h1, h2]

/-! ## `simulateInfluence` and `marginalGainMaximization` return -/

theorem allTargets_mapInsertKey (key : Int) (m : AdjMap) :
    allTargets (mapInsertKey key m) = allTargets m := by
  induction m with
  | nil => simp [mapInsertKey, allTargets]
  | cons e rest ih =>
    obtain ⟨k, es⟩ := e
    unfold mapInsertKey
    split_ifs
    · simp [allTargets]
    · rfl
    · simp only [allTargets, List.flatMap_cons] at ih ⊢
      rw [ih]

theorem mem_keys_mapInsertKey {key x : Int} {m : AdjMap} :
    x ∈ (mapInsertKey key m).map Prod.fst ↔ x = key ∨ x ∈ m.map Prod.fst := by
  induction m with
  | nil => simp [mapInsertKey]
  | cons e rest ih =>
    obtain ⟨k, es⟩ := e
    unfold mapInsertKey
    split_ifs with h1 h2
    · simp
    · subst h2; simp
    · simp only [List.map_cons, List.mem_cons, ih]; tauto

theorem mapLookup_targets {key : Int} {m : AdjMap} {e : Edge} (he : e ∈ mapLookup key m) :
    e.target ∈ allTargets m := by
  unfold mapLookup at he
  cases hf : m.find? (fun e => e.1 = key) with
  | none => simp [hf] at he
  | some r =>
    simp only [hf] at he
    have hr : r ∈ m := List.mem_of_find?_eq_some hf
    simp only [allTargets, List.mem_flatMap, List.mem_map]
    exact ⟨r, hr, e, he, rfl⟩

theorem remainingTargets_insert_lt {targets newly : List Int} {t : Int} (ht : t ∈ targets)
    (hnew : t ∉ newly) :
    remainingTargets targets (setInsert t newly) < remainingTargets targets newly := by
  unfold remainingTargets
  apply filter_length_lt _ _ _ _ t ht
  · simpa using hnew
  · simp [mem_setInsert]
  · intro y hy
    simp only [decide_eq_true_eq, mem_setInsert, not_or] at hy ⊢
    exact hy.2

theorem tryEdges_spec (lib : Stdlib) (already targets : List Int) (edges : List Edge)
    (hedges : ∀ e ∈ edges, e.target ∈ targets) (newly q : List Int) (rs : RandState) :
    remainingTargets targets (tryEdges lib already edges newly q rs).1
        + (tryEdges lib already edges newly q rs).2.1.length
      ≤ remainingTargets targets newly + q.length ∧
    ∀ x ∈ (tryEdges lib already edges newly q rs).2.1, x ∈ q ∨ x ∈ targets := by
  induction edges generalizing newly q rs with
  | nil => exact ⟨le_refl _, fun x hx => Or.inl hx⟩
  | cons e rest ih =>
    have hrest : ∀ e ∈ rest, e.target ∈ targets := fun e he =>
      hedges e (List.mem_cons_of_mem _ he)
    have het : e.target ∈ targets := hedges e (List.mem_cons_self _ _)
    unfold tryEdges
    split_ifs with h1 h2
    · obtain ⟨hle, hmem⟩ := ih hrest (setInsert e.target newly) (q ++ [e.target])
        (rand lib rs).2
      have := remainingTargets_insert_lt het h1.2
      refine ⟨?_, ?_⟩
      · simp only [List.length_append, List.length_singleton] at hle
        omega
      · intro x hx
        rcases hmem x hx with h | h
        · rcases List.mem_append.1 h with h | h
          · exact Or.inl h
          · simp at h; subst h; exact Or.inr het
        · exact Or.inr h
    · exact ih hrest _ _ _
    · exact ih hrest _ _ _

theorem simulateQueue_spec (lib : Stdlib) (already targets pool : List Int)
    (htu : ∀ t ∈ targets, t ∈ pool) (fuel : Nat) (m : AdjMap) (newly q : List Int)
    (rs : RandState) (htargets : allTargets m = targets)
    (hkeys : ∀ x ∈ m.map Prod.fst, x ∈ pool) (hq : ∀ x ∈ q, x ∈ pool)
    (hfuel : remainingTargets targets newly + q.length + 1 ≤ fuel) :
    ∃ m1 newly1 rs1, simulateQueue lib already fuel m newly q rs = some (m1, newly1, rs1) ∧
      allTargets m1 = targets ∧ ∀ x ∈ m1.map Prod.fst, x ∈ pool := by
  induction fuel generalizing m newly q rs with
  | zero => omega
  | succ fuel ih =>
    cases q with
    | nil => exact ⟨m, newly, rs, rfl, htargets, hkeys⟩
    | cons current q1 =>
      have hedges : ∀ e ∈ mapLookup current m, e.target ∈ targets := fun e he =>
        htargets ▸ mapLookup_targets he
      obtain ⟨hle, hmem⟩ := tryEdges_spec lib already targets (mapLookup current m) hedges
        newly q1 rs
      unfold simulateQueue
      simp only
      apply ih
      · rw [allTargets_mapInsertKey, htargets]
      · intro x hx
        rcases mem_keys_mapInsertKey.1 hx with rfl | hx
        · exact hq x (List.mem_cons_self _ _)
        · exact hkeys x hx
      · intro x hx
        rcases hmem x hx with h | h
        · exact hq x (List.mem_cons_of_mem _ h)
        · exact htu x h
      · simp only [List.length_cons] at hfuel
        omega

theorem remainingTargets_le (targets newly : List Int) :
    remainingTargets targets newly ≤ targets.length :=
  List.length_filter_le _ _

theorem simulateRuns_spec (lib : Stdlib) (already targets pool : List Int)
    (htu : ∀ t ∈ targets, t ∈ pool) (fuel : Nat) (hfuel : targets.length + 2 ≤ fuel)
    (node : Int) (hnode : node ∈ pool) (n : Nat) (m : AdjMap) (newly : List Int)
    (rs : RandState) (htargets : allTargets m = targets)
    (hkeys : ∀ x ∈ m.map Prod.fst, x ∈ pool) :
    ∃ m1 newly1 rs1, simulateRuns lib fuel node already n m newly rs = some (m1, newly1, rs1) ∧
      allTargets m1 = targets ∧ ∀ x ∈ m1.map Prod.fst, x ∈ pool := by
  induction n generalizing m newly rs with
  | zero => exact ⟨m, newly, rs, rfl, htargets, hkeys⟩
  | succ n ih =>
    obtain ⟨m1, newly1, rs1, h1, ht1, hk1⟩ := simulateQueue_spec lib already targets pool
      htu fuel m newly [node] rs htargets hkeys (by simpa using hnode)
      (by have := remainingTargets_le targets newly; simp only [List.length_singleton]; omega)
    obtain ⟨m2, newly2, rs2, h2, ht2, hk2⟩ := ih m1 newly1 rs1 ht1 hk1
    refine ⟨m2, newly2, rs2, ?_, ht2, hk2⟩
    unfold simulateRuns
    simp only [h1, h2]

theorem nextKey_some {m : AdjMap} {last : Option Int} {node : Int}
    (h : nextKey m last = some node) : node ∈ m.map Prod.fst ∧ aboveLast last node = true := by
  unfold nextKey at h
  cases hf : m.find? (fun e => aboveLast last e.1) with
  | none => simp [hf] at h
  | some e =>
    simp only [hf, Option.some.injEq] at h
    subst h
    have hp := List.find?_some hf
    exact ⟨List.mem_map.2 ⟨e, List.mem_of_find?_eq_some hf, rfl⟩, hp⟩

theorem aboveLast_trans {last : Option Int} {node y : Int} (h1 : aboveLast last node = true)
    (h2 : aboveLast (some node) y = true) : aboveLast last y = true := by
  cases last with
  | none => rfl
  | some l =>
    simp only [aboveLast, decide_eq_true_eq] at h1 h2 ⊢
    omega

theorem candidateLoop_spec (lib : Stdlib) (fuel : Nat) (seedSet already : List Int)
    (targets pool : List Int) (htu : ∀ t ∈ targets, t ∈ pool)
    (hfuel : targets.length + 2 ≤ fuel) (steps : Nat) (last : Option Int) (m : AdjMap)
    (best : BestState) (rs : RandState) (htargets : allTargets m = targets)
    (hkeys : ∀ x ∈ m.map Prod.fst, x ∈ pool)
    (hbest : best.bestNode = -1 ∨ best.bestNode ∉ seedSet)
    (hsteps : (pool.filter (aboveLast last)).length + 1 ≤ steps) :
    ∃ m1 best1 rs1, candidateLoop lib fuel seedSet already steps last m best rs
        = some (m1, best1, rs1) ∧
      allTargets m1 = targets ∧ (∀ x ∈ m1.map Prod.fst, x ∈ pool) ∧
      (best1.bestNode = -1 ∨ best1.bestNode ∉ seedSet) := by
  induction steps generalizing last m best rs with
  | zero => omega
  | succ steps ih =>
    unfold candidateLoop
    cases hnk : nextKey m last with
    | none => exact ⟨m, best, rs, rfl, htargets, hkeys, hbest⟩
    | some node =>
      obtain ⟨hmem, habove⟩ := nextKey_some hnk
      have hnodeU : node ∈ pool := hkeys node hmem
      have hlt : (pool.filter (aboveLast (some node))).length
          < (pool.filter (aboveLast last)).length := by
        apply filter_length_lt _ _ _ _ node hnodeU habove
        · simp [aboveLast]
        · intro y hy; exact aboveLast_trans habove hy
      simp only
      split_ifs with hseed
      · exact ih (some node) m best rs htargets hkeys hbest (by omega)
      · obtain ⟨m1, infl, rs1, h1, ht1, hk1⟩ := simulateRuns_spec lib already targets pool
          htu fuel hfuel node hnodeU 100 m [] rs htargets hkeys
        have h1' : simulateInfluence lib fuel node already 100 m rs = some (m1, infl, rs1) := h1
        simp only [h1']
        split_ifs with hgain
        · exact ih (some node) m1 _ rs1 ht1 hk1 (Or.inr hseed) (by omega)
        · exact ih (some node) m1 best rs1 ht1 hk1 hbest (by omega)

theorem roundLoop_spec (lib : Stdlib) (fuel : Nat) (targets pool : List Int)
    (htu : ∀ t ∈ targets, t ∈ pool) (hfuel : targets.length + 2 ≤ fuel)
    (hsteps : pool.length + 1 ≤ fuel) (k : Nat) (seedSet already : List Int) (m : AdjMap)
    (rs : RandState) (htargets : allTargets m = targets)
    (hkeys : ∀ x ∈ m.map Prod.fst, x ∈ pool) (hnodup : seedSet.Nodup) :
    ∃ seedSet1 already1 m1 rs1, roundLoop lib fuel k seedSet already m rs
        = some (seedSet1, already1, m1, rs1) ∧ seedSet1.Nodup := by
  induction k generalizing seedSet already m rs with
  | zero => exact ⟨seedSet, already, m, rs, rfl, hnodup⟩
  | succ k ih =>
    obtain ⟨m1, best, rs1, h1, ht1, hk1, hb1⟩ := candidateLoop_spec lib fuel seedSet already
      targets pool htu hfuel fuel none m ⟨-1, -1, []⟩ rs htargets hkeys (Or.inl rfl)
      (by have := List.length_filter_le (aboveLast none) pool; omega)
    unfold roundLoop
    simp only [h1]
    split_ifs with hne
    · apply ih _ _ _ _ ht1 hk1
      rw [List.nodup_append]
      refine ⟨hnodup, List.nodup_singleton _, ?_⟩
      intro a ha hb
      simp at hb; subst hb
      rcases hb1 with h | h
      · exact hne h
      · exact h ha
    · exact ih _ _ _ _ ht1 hk1 hnodup

theorem marginalGainMaximization_spec (lib : Stdlib) (fuel : Nat) (k : Nat) (m : AdjMap)
    (hfuel : enoughFuel m ≤ fuel) (rs : RandState) :
    ∃ seedSet influenced m1 rs1, marginalGainMaximization lib fuel k m rs
        = some (seedSet, influenced, m1, rs1) ∧ seedSet.Nodup := by
  unfold enoughFuel at hfuel
  apply roundLoop_spec lib fuel (allTargets m) (m.map Prod.fst ++ allTargets m)
    (fun t ht => List.mem_append_right _ ht) (by omega)
    (by simp only [List.length_append, List.length_map]; omega) k [] [] m rs rfl
    (fun x hx => List.mem_append_left _ hx) List.nodup_nil

/-! ## Claims about the greedy selectors -/

/-- C8: the greedy selectors never select a node twice. For every well-formed graph, every
generator and clock, enough fuel and every `k ≤ nodes`, `celf` returns a seed list without
repetition; for every adjacency map, every generator, enough fuel and every `k`,
`marginalGainMaximization` returns a seed list without repetition. -/
theorem greedy_seeds_distinct :
    (∀ (lib : Stdlib) (clock : Nat → Nat) (fuel : Nat) (g : Graph), g.WellFormed →
      g.nodes + 1 ≤ fuel → ∀ (k : Nat), k ≤ g.nodes → ∀ (sys : SysState),
      ∃ seeds sys1, celf lib clock fuel g k sys = some (seeds, sys1) ∧ seeds.Nodup) ∧
    (∀ (lib : Stdlib) (fuel k : Nat) (m : AdjMap), enoughFuel m ≤ fuel → ∀ (rs : RandState),
      ∃ seedSet influenced m1 rs1,
        marginalGainMaximization lib fuel k m rs = some (seedSet, influenced, m1, rs1) ∧
        seedSet.Nodup) := by
  constructor
  · intro lib clock fuel g hwf hfuel k hk sys
    obtain ⟨seeds, sys1, _, _, h, _, hnd, _⟩ := celf_spec lib clock fuel g hwf hfuel k hk sys
    exact ⟨seeds, sys1, h, hnd⟩
  · intro lib fuel k m hfuel rs
    exact marginalGainMaximization_spec lib fuel k m hfuel rs

/-- Witness of C8: `celf` on the path 0-1-2-3 with `k = 2` and `marginalGainMaximization`
on `chainMap` with `k = 2`. -/
theorem greedy_seeds_distinct_witness :
    (∃ seeds sys1, celf zeroLib (fun _ => 0) 5 (pathGraph4 1 1 1) 2 ⟨0, ⟨0, 0⟩⟩
        = some (seeds, sys1) ∧ seeds.Nodup) ∧
    (∃ seedSet influenced m1 rs1,
      marginalGainMaximization zeroLib 10 2 chainMap ⟨0, 0⟩
        = some (seedSet, influenced, m1, rs1) ∧ seedSet.Nodup) :=
  ⟨greedy_seeds_distinct.1 zeroLib (fun _ => 0) 5 (pathGraph4 1 1 1)
      (pathGraph4_wellFormed 1 1 1) (le_refl 5) 2 (by decide) ⟨0, ⟨0, 0⟩⟩,
    greedy_seeds_distinct.2 zeroLib 10 2 chainMap (by decide) ⟨0, 0⟩⟩

/-- C9 (the code at the failing input): on `Graph(1)` with `k = 2`, whatever the generator,
the clock and the fuel, `celf` does not return a list of length `min(2, 1) = 1`: the second
round reads `gains[0]` of the vector the first round emptied. -/
theorem celf_more_seeds_than_nodes (lib : Stdlib) (clock : Nat → Nat) (fuel : Nat)
    (sys : SysState) : celf lib clock fuel (Graph.create 1) 2 sys = none :=
  celf_none lib clock fuel (Graph.create 1) 2 sys (by decide)

/-- C10 (counterexample): on the connected two-node graph with a probability-1 edge, both
nodes have gain 2 and `celf(graph, 1)` returns `[1]`, the higher id, not `[0]`. -/
theorem celf_tie_highest_id :
    calculateMarginalGain zeroLib (fun _ => 0) 3 (edgeGraph 1) [] 0 ⟨0, ⟨0, 0⟩⟩
      = some (2, ⟨1, ⟨0, 1⟩⟩) ∧
    calculateMarginalGain zeroLib (fun _ => 0) 3 (edgeGraph 1) [] 1 ⟨1, ⟨0, 1⟩⟩
      = some (2, ⟨2, ⟨0, 1⟩⟩) ∧
    celf zeroLib (fun _ => 0) 3 (edgeGraph 1) 1 ⟨0, ⟨0, 0⟩⟩ = some ([1], ⟨3, ⟨0, 0⟩⟩) := by
  refine ⟨by decide!, by decide!, by decide!⟩

/-- C10 (amended): for every well-formed graph, enough fuel and `k ≤ nodes`, `celf` returns
`k` seeds chosen by greedy rounds. The gains of the first round are the sizes of the sets
`independentCascade` returns for the single nodes `0, 1, ...` in this order, each run from
the process state the run before left (`GainPass`); every round appends the node not
selected yet whose gain, the size of the set the run of `independentCascade` made for the
current seeds and the node returned, is the largest, and among the nodes that tie for the
largest gain the one with the highest id; the gains of the next round come from the runs
made for the enlarged seed set (`GreedyPicks`). No other list of `k` nodes arises from such
rounds. When all probabilities are 1 and every node is reachable from every node, on a graph
with at least two nodes, `celf(graph, 1)` is `[nodes - 1]`. -/
theorem celf_greedy_rounds :
    (∀ (lib : Stdlib) (clock : Nat → Nat) (fuel : Nat) (g : Graph), g.WellFormed →
      g.nodes + 1 ≤ fuel → ∀ (k : Nat), k ≤ g.nodes → ∀ (sys : SysState),
      ∃ seeds sys1 gains0 sys0, celf lib clock fuel g k sys = some (seeds, sys1) ∧
        seeds.length = k ∧
        GainPass lib clock fuel g [] (List.range g.nodes) sys gains0 sys0 ∧
        GreedyPicks lib clock fuel g [] gains0 sys0 seeds sys1 ∧
        ∀ gains sys2 picks sys3,
          GainPass lib clock fuel g [] (List.range g.nodes) sys gains sys2 →
          GreedyPicks lib clock fuel g [] gains sys2 picks sys3 → picks.length = k →
          picks = seeds) ∧
    (∀ (lib : Stdlib), lib.Valid → ∀ (clock : Nat → Nat) (fuel : Nat) (g : Graph),
      g.WellFormed → (∀ row ∈ g.adjList, ∀ e ∈ row, e.2 = 1) →
      (∀ u, u < g.nodes → ∀ v, v < g.nodes → Reachable g [u] v) → 2 ≤ g.nodes →
      g.nodes + 1 ≤ fuel → ∀ (sys : SysState),
      ∃ sys1, celf lib clock fuel g 1 sys = some ([g.nodes - 1], sys1)) := by
  constructor
  · intro lib clock fuel g hwf hfuel k hk sys
    obtain ⟨seeds, sys1, gains0, sys0, h, hlen, _, hpass, hgreedy⟩ :=
      celf_spec lib clock fuel g hwf hfuel k hk sys
    refine ⟨seeds, sys1, gains0, sys0, h, hlen, hpass, hgreedy, ?_⟩
    intro gains sys2 picks sys3 hpass2 hgreedy2 hlen2
    obtain ⟨hg, hs⟩ := gainPass_unique hpass2 hpass
    subst hg; subst hs
    exact (greedyPicks_unique hgreedy2 hgreedy (by rw [hlen2, hlen])).1
  · intro lib hlib clock fuel g hwf hp hconn hn hfuel sys
    obtain ⟨seeds, sys1, gains0, sys0, h, hlen, _, hpass, hgreedy⟩ :=
      celf_spec lib clock fuel g hwf hfuel 1 (by omega) sys
    refine ⟨sys1, ?_⟩
    rw [h]
    have hmap : gains0.map Prod.snd = List.range g.nodes := gainPass_nodes hpass
    have hval : ∀ e ∈ gains0, e.1 = g.nodes := by
      intro e he
      have hv : e.2 < g.nodes := by
        have : e.2 ∈ gains0.map Prod.snd := List.mem_map.2 ⟨e, he, rfl⟩
        rw [hmap] at this
        exact List.mem_range.1 this
      obtain ⟨now, rs, res, rs1, hrun, hg⟩ := gainPass_mem hpass e he
      have hseed : setInsert e.2 ([] : List Nat) = [e.2] := rfl
      rw [hseed] at hrun
      obtain ⟨res1, rs2, hrun1, _, _, hall⟩ := independentCascade_prob_one_aux lib hlib g hwf
        hp [e.2] (by simpa using hv) fuel hfuel now rs
      rw [hrun] at hrun1
      simp only [Option.some.injEq, Prod.mk.injEq] at hrun1
      rw [hg, hrun1.1, hall (fun w hw => hconn e.2 hv w hw), List.length_range]
    cases hgreedy with
    | done => simp at hlen
    | round _ _ _ gn node ranked gains1 sysa rest sysb hcand hbest _ _ _ =>
      have hrest0 : rest = [] := by
        simp only [List.length_cons] at hlen
        exact List.length_eq_zero.1 (by omega)
      subst hrest0
      obtain ⟨gb, hmem, hmax⟩ := hbest
      have hnode : node < g.nodes := ((hcand node).1 (List.mem_map.2 ⟨_, hmem, rfl⟩)).1
      have hlastmem : g.nodes - 1 ∈ gains0.map Prod.snd := by
        rw [hmap]; exact List.mem_range.2 (by omega)
      obtain ⟨e, he, hesnd⟩ := List.mem_map.1 hlastmem
      have h1 := hmax e he
      have h2 := hval e he
      have h3 := hval _ hmem
      simp only at h3
      have : node = g.nodes - 1 := by omega
      rw [this]

/-- Witness of C10 (amended): `celf` on the path 0-1-2-3 with `k = 2`, and on the two-node
graph with a probability-1 edge with `k = 1`. -/
theorem celf_greedy_rounds_witness :
    (∃ seeds sys1 gains0 sys0, celf zeroLib (fun _ => 0) 5 (pathGraph4 1 1 1) 2 ⟨0, ⟨0, 0⟩⟩
        = some (seeds, sys1) ∧ seeds.length = 2 ∧
      GainPass zeroLib (fun _ => 0) 5 (pathGraph4 1 1 1) []
        (List.range (pathGraph4 1 1 1).nodes) ⟨0, ⟨0, 0⟩⟩ gains0 sys0 ∧
      GreedyPicks zeroLib (fun _ => 0) 5 (pathGraph4 1 1 1) [] gains0 sys0 seeds sys1 ∧
      ∀ gains sys2 picks sys3,
        GainPass zeroLib (fun _ => 0) 5 (pathGraph4 1 1 1) []
          (List.range (pathGraph4 1 1 1).nodes) ⟨0, ⟨0, 0⟩⟩ gains sys2 →
        GreedyPicks zeroLib (fun _ => 0) 5 (pathGraph4 1 1 1) [] gains sys2 picks sys3 →
        picks.length = 2 → picks = seeds) ∧
    (∃ sys1, celf zeroLib (fun _ => 0) 3 (edgeGraph 1) 1 ⟨0, ⟨0, 0⟩⟩
      = some ([(edgeGraph 1).nodes - 1], sys1)) :=
  ⟨celf_greedy_rounds.1 zeroLib (fun _ => 0) 5 (pathGraph4 1 1 1)
      (pathGraph4_wellFormed 1 1 1) (le_refl 5) 2 (by decide) ⟨0, ⟨0, 0⟩⟩,
    celf_greedy_rounds.2 zeroLib zeroLib_valid (fun _ => 0) 3 (edgeGraph 1)
      (edgeGraph_wellFormed 1) edgeGraph_prob_one (edgeGraph_connected 1) (le_refl 2)
      (le_refl 3) ⟨0, ⟨0, 0⟩⟩⟩

/-! ## `Graph::addEdge` keeps the graph symmetric -/

theorem getD_set_list {α : Type} (l : List α) (i j : Nat) (x d : α) (hi : i < l.length) :
    (l.set i x).getD j d = if i = j then x else l.getD j d := by
  rw [List.getD_eq_getElem?_getD, List.getD_eq_getElem?_getD, List.getElem?_set]
  split_ifs with h
  · rfl
  · rfl

/-- The rows of the graph after `addEdge(u, v, prob)` with `u` and `v` in range. -/
theorem addEdge_rows (g : Graph) (u v : Nat) (prob : ℚ) (hu : u < g.adjList.length)
    (hv : v < g.adjList.length) :
    ∃ g1, g.addEdge u v prob = some g1 ∧ g1.nodes = g.nodes ∧
      g1.adjList.length = g.adjList.length ∧
      ∀ a, g1.adjList.getD a [] = g.adjList.getD a []
        ++ (if u = a then [(v, prob)] else []) ++ (if v = a then [(u, prob)] else []) := by
  have hv1 : v < (g.adjList.set u (g.adjList[u] ++ [(v, prob)])).length := by simpa using hv
  refine ⟨⟨g.nodes, (g.adjList.set u (g.adjList[u] ++ [(v, prob)])).set v
    ((g.adjList.set u (g.adjList[u] ++ [(v, prob)]))[v] ++ [(u, prob)])⟩, ?_, rfl, by simp, ?_⟩
  · unfold Graph.addEdge
    simp only [List.getElem?_eq_getElem hu, List.getElem?_eq_getElem hv1]
  · intro a
    simp only
    rw [getD_set_list _ _ _ _ _ hv1, getD_set_list _ _ _ _ _ hu]
    have hrow : ∀ i (hi : i < (g.adjList.set u (g.adjList[u] ++ [(v, prob)])).length),
        (g.adjList.set u (g.adjList[u] ++ [(v, prob)]))[i]
          = (g.adjList.set u (g.adjList[u] ++ [(v, prob)])).getD i [] := by
      intro i hi
      rw [List.getD_eq_getElem?_getD, List.getElem?_eq_getElem hi]; rfl
    have hrow0 : g.adjList[u] = g.adjList.getD u [] := by
      rw [List.getD_eq_getElem?_getD, List.getElem?_eq_getElem hu]; rfl
    rw [hrow v hv1, getD_set_list _ _ _ _ _ hu, hrow0]
    by_cases h1 : v = a <;> by_cases h2 : u = a
    · subst h1; subst h2; simp
    · subst h1; simp [h2]
    · subst h2; simp [h1]
    · simp [h1, h2]

/-- The properties `addEdge` keeps: one row per node, neighbour ids in range, and as many
entries `(b, p)` in the row of `a` as entries `(a, p)` in the row of `b`. -/
theorem addEdge_symmetric (g : Graph) (u v : Nat) (prob : ℚ) (hwf : g.WellFormed)
    (hsym : ∀ a b p, (g.adjList.getD a []).count (b, p) = (g.adjList.getD b []).count (a, p))
    (hu : u < g.nodes) (hv : v < g.nodes) :
    ∃ g1, g.addEdge u v prob = some g1 ∧ g1.nodes = g.nodes ∧ g1.WellFormed ∧
      ∀ a b p, (g1.adjList.getD a []).count (b, p) = (g1.adjList.getD b []).count (a, p) := by
  obtain ⟨hlen, hnb⟩ := hwf
  obtain ⟨g1, h1, hn1, hlen1, hrows⟩ := addEdge_rows g u v prob (by omega) (by omega)
  refine ⟨g1, h1, hn1, ⟨by omega, ?_⟩, ?_⟩
  · intro row hrow e he
    obtain ⟨a, ha, rfl⟩ := List.getElem_of_mem hrow
    have hrow1 : g1.adjList[a] = g1.adjList.getD a [] := by
      rw [List.getD_eq_getElem?_getD, List.getElem?_eq_getElem ha]; rfl
    rw [hrow1, hrows a] at he
    rw [hn1]
    rcases List.mem_append.1 he with he | he
    · rcases List.mem_append.1 he with he | he
      · have ha0 : a < g.adjList.length := by omega
        have : g.adjList.getD a [] = g.adjList[a] := by
          rw [List.getD_eq_getElem?_getD, List.getElem?_eq_getElem ha0]; rfl
        rw [this] at he
        exact hnb _ (List.getElem_mem ha0) e he
      · split_ifs at he
        · simp at he; subst he; exact hv
        · simp at he
    · split_ifs at he
      · simp at he; subst he; exact hu
      · simp at he
  · intro a b p
    rw [hrows a, hrows b]
    simp only [List.count_append, hsym a b p]
    have e1 : (if u = a then [(v, prob)] else []).count (b, p)
        = (if v = b then [(u, prob)] else []).count (a, p) := by
      by_cases h1 : u = a <;> by_cases h2 : v = b <;> by_cases h3 : prob = p <;>
        simp [h1, h2, h3, List.count_singleton, eq_comm]
    have e2 : (if v = a then [(u, prob)] else []).count (b, p)
        = (if u = b then [(v, prob)] else []).count (a, p) := by
      by_cases h1 : v = a <;> by_cases h2 : u = b <;> by_cases h3 : prob = p <;>
        simp [h1, h2, h3, List.count_singleton, eq_comm]
    omega

theorem addEdges_symmetric_aux (g : Graph) (edges : List (Nat × Nat × ℚ)) (hwf : g.WellFormed)
    (hsym : ∀ a b p, (g.adjList.getD a []).count (b, p) = (g.adjList.getD b []).count (a, p))
    (hedges : ∀ e ∈ edges, e.1 < g.nodes ∧ e.2.1 < g.nodes) :
    ∃ g1, g.addEdges edges = some g1 ∧ g1.nodes = g.nodes ∧ g1.WellFormed ∧
      ∀ a b p, (g1.adjList.getD a []).count (b, p) = (g1.adjList.getD b []).count (a, p) := by
  induction edges generalizing g with
  | nil => exact ⟨g, rfl, rfl, hwf, hsym⟩
  | cons e rest ih =>
    obtain ⟨u, v, prob⟩ := e
    have huv := hedges (u, v, prob) (List.mem_cons_self _ _)
    obtain ⟨g1, h1, hn1, hwf1, hsym1⟩ := addEdge_symmetric g u v prob hwf hsym huv.1 huv.2
    obtain ⟨g2, h2, hn2, hwf2, hsym2⟩ := ih g1 hwf1 hsym1
      (fun e he => by rw [hn1]; exact hedges e (List.mem_cons_of_mem _ he))
    refine ⟨g2, ?_, by omega, hwf2, hsym2⟩
    unfold Graph.addEdges
    simp only [h1, h2]

theorem create_wellFormed (n : Nat) : (Graph.create n).WellFormed := by
  refine ⟨by simp [Graph.create], ?_⟩
  intro row hrow e he
  rw [Graph.create] at hrow
  rw [List.eq_of_mem_replicate hrow] at he
  simp at he

theorem create_rows (n a : Nat) : (Graph.create n).adjList.getD a [] = [] := by
  rw [Graph.create, List.getD_eq_getElem?_getD]
  by_cases h : a < n
  · rw [List.getElem?_eq_getElem (by simpa using h)]; simp
  · rw [List.getElem?_eq_none (by simpa using h)]; rfl

/-- C11: symmetry is an invariant of `Graph` under `addEdge`. Every sequence of
`addEdge(u, v, p)` calls with `u, v` in `[0, n)` on a fresh `Graph(n)` succeeds and leaves a
graph in which, for all nodes `a`, `b` and every probability `p`, the row of `a` has as many
entries `(b, p)` as the row of `b` has entries `(a, p)`; in particular an entry `(v, p)` in
the row of `u` comes with an entry `(u, p)` in the row of `v`. -/
theorem addEdges_symmetric (n : Nat) (edges : List (Nat × Nat × ℚ))
    (hedges : ∀ e ∈ edges, e.1 < n ∧ e.2.1 < n) :
    ∃ g, (Graph.create n).addEdges edges = some g ∧ g.nodes = n ∧ g.WellFormed ∧
      (∀ a b p, (g.adjList.getD a []).count (b, p) = (g.adjList.getD b []).count (a, p)) ∧
      (∀ u v p, (v, p) ∈ g.adjList.getD u [] → (u, p) ∈ g.adjList.getD v []) := by
  obtain ⟨g, h, hn, hwf, hsym⟩ := addEdges_symmetric_aux (Graph.create n) edges
    (create_wellFormed n) (by intro a b p; rw [create_rows, create_rows]; rfl) hedges
  refine ⟨g, h, hn, hwf, hsym, ?_⟩
  intro u v p hmem
  have hpos : 0 < (g.adjList.getD u []).count (v, p) := List.count_pos_iff.2 hmem
  rw [hsym u v p] at hpos
  exact List.count_pos_iff.1 hpos

/-- Witness of C11: the three `addEdge` calls that build the path 0-1-2-3. -/
theorem addEdges_symmetric_witness :
    ∃ g, (Graph.create 4).addEdges [(0, 1, 1), (1, 2, 1/2), (2, 3, 1/3)] = some g ∧
      g.nodes = 4 ∧ g.WellFormed ∧
      (∀ a b p, (g.adjList.getD a []).count (b, p) = (g.adjList.getD b []).count (a, p)) ∧
      (∀ u v p, (v, p) ∈ g.adjList.getD u [] → (u, p) ∈ g.adjList.getD v []) :=
  addEdges_symmetric 4 [(0, 1, 1), (1, 2, 1/2), (2, 3, 1/3)] (by decide)

/-! ## Termination and bounds of `independentCascade` -/

theorem cascadeLoop_mono (lib : Stdlib) (g : Graph) {fuel fuel1 : Nat} (hle : fuel ≤ fuel1)
    (A F : List Nat) (rs : RandState) {r : List Nat × RandState}
    (h : cascadeLoop lib g fuel A F rs = some r) : cascadeLoop lib g fuel1 A F rs = some r := by
  induction fuel generalizing fuel1 A F rs with
  | zero => simp [cascadeLoop] at h
  | succ fuel ih =>
    obtain ⟨m, rfl⟩ : ∃ m, fuel1 = m + 1 := ⟨fuel1 - 1, by omega⟩
    cases F with
    | nil => simpa [cascadeLoop] using h
    | cons a t =>
      unfold cascadeLoop at h ⊢
      cases hw : spreadWave lib g A (a :: t) [] rs with
      | none => simp [hw] at h
      | some w =>
        obtain ⟨N, rs2⟩ := w
        simp only [hw] at h ⊢
        exact ih (by omega) _ _ _ h

/-- A wave adds only nodes that were not activated, and a non-empty next frontier makes the
activated set strictly larger. -/
theorem spreadWave_enlarges (lib : Stdlib) (g : Graph) (hwf : g.WellFormed)
    (A F : List Nat) (rs : RandState) (hA : A.Sorted (· < ·)) {N : List Nat} {rs1 : RandState}
    (h : spreadWave lib g A F [] rs = some (N, rs1)) :
    (∀ v ∈ N, v ∉ A ∧ v < g.nodes) ∧ (N ≠ [] → A.length < (setInsertRange N A).length) := by
  have hN : ∀ v ∈ N, v ∉ A ∧ v < g.nodes := by
    intro v hv
    rcases spreadWave_mem_elim lib g (fun _ => True) A F [] rs (firesOnly_true lib g _) h hv
      with h0 | ⟨hvA, u, _, p, hp, _⟩
    · simp at h0
    · obtain ⟨row, hrow, hmem⟩ := mem_getD_iff.1 hp
      exact ⟨hvA, hwf.2 row (row_mem_of_getElem? hrow) (v, p) hmem⟩
  refine ⟨hN, fun hne => ?_⟩
  obtain ⟨x, hx⟩ := List.exists_mem_of_ne_nil N hne
  have hnd : (x :: A).Nodup := List.nodup_cons.2 ⟨(hN x hx).1, hA.nodup⟩
  have hsub : ∀ y ∈ x :: A, y ∈ setInsertRange N A := by
    intro y hy
    rcases List.mem_cons.1 hy with rfl | hy
    · exact mem_setInsertRange.2 (Or.inl hx)
    · exact mem_setInsertRange.2 (Or.inr hy)
  have := (List.subperm_of_subset hnd hsub).length_le
  simpa using this

/-- C12: `independentCascade` terminates. On a well-formed graph with in-range seeds, for
every generator and clock value, `nodes + 1` evaluations of the loop condition suffice
(more fuel returns the same result); every wave adds only nodes that were not activated, and
a wave with a non-empty next frontier makes the activated set strictly larger. -/
theorem independentCascade_terminates (lib : Stdlib) (g : Graph) (hwf : g.WellFormed)
    (seedNodes : List Nat) (hs : ∀ s ∈ seedNodes, s < g.nodes) (now : Nat) (rs : RandState) :
    (∃ res rs1, independentCascade lib (g.nodes + 1) g seedNodes now rs = some (res, rs1) ∧
      ∀ fuel, g.nodes + 1 ≤ fuel →
        independentCascade lib fuel g seedNodes now rs = some (res, rs1)) ∧
    (∀ (A F : List Nat) (rs0 : RandState) (N : List Nat) (rs1 : RandState),
      A.Sorted (· < ·) → spreadWave lib g A F [] rs0 = some (N, rs1) →
      (∀ v ∈ N, v ∉ A ∧ v < g.nodes) ∧ (N ≠ [] → A.length < (setInsertRange N A).length)) := by
  constructor
  · obtain ⟨res, rs1, h⟩ := independentCascade_total lib g hwf seedNodes hs (g.nodes + 1)
      (le_refl _) now rs
    exact ⟨res, rs1, h, fun fuel hfuel => cascadeLoop_mono lib g hfuel _ _ _ h⟩
  · intro A F rs0 N rs1 hA h
    exact spreadWave_enlarges lib g hwf A F rs0 hA h

/-- Witness of C12: the path 0-1-2-3 with the middle probability 1/4, seeded with 0. -/
theorem independentCascade_terminates_witness :
    (∃ res rs1, independentCascade halfLib ((pathGraph4 1 (1/4) 1).nodes + 1)
        (pathGraph4 1 (1/4) 1) [0] 0 ⟨0, 0⟩ = some (res, rs1) ∧
      ∀ fuel, (pathGraph4 1 (1/4) 1).nodes + 1 ≤ fuel →
        independentCascade halfLib fuel (pathGraph4 1 (1/4) 1) [0] 0 ⟨0, 0⟩
          = some (res, rs1)) ∧
    (∀ (A F : List Nat) (rs0 : RandState) (N : List Nat) (rs1 : RandState),
      A.Sorted (· < ·) → spreadWave halfLib (pathGraph4 1 (1/4) 1) A F [] rs0 = some (N, rs1) →
      (∀ v ∈ N, v ∉ A ∧ v < (pathGraph4 1 (1/4) 1).nodes) ∧
        (N ≠ [] → A.length < (setInsertRange N A).length)) :=
  independentCascade_terminates halfLib (pathGraph4 1 (1/4) 1) (pathGraph4_wellFormed _ _ _)
    [0] (by simp [pathGraph4]) 0 ⟨0, 0⟩

/-- C17: on a well-formed graph with in-range seeds, for every generator, clock value and
enough fuel, the set `independentCascade` returns contains every seed and contains only
nodes reachable from the seeds along graph edges. -/
theorem independentCascade_between (lib : Stdlib) (g : Graph) (hwf : g.WellFormed)
    (seedNodes : List Nat) (hs : ∀ s ∈ seedNodes, s < g.nodes) (fuel : Nat)
    (hfuel : g.nodes + 1 ≤ fuel) (now : Nat) (rs : RandState) :
    ∃ res rs1, independentCascade lib fuel g seedNodes now rs = some (res, rs1) ∧
      (∀ s ∈ seedNodes, s ∈ res) ∧ (∀ v ∈ res, Reachable g seedNodes v) := by
  obtain ⟨res, rs1, h⟩ := independentCascade_total lib g hwf seedNodes hs fuel hfuel now rs
  refine ⟨res, rs1, h, ?_, ?_⟩
  · intro s hsmem
    exact cascadeLoop_sub lib g fuel _ _ _ h (mem_setOfList.2 hsmem)
  · exact cascadeLoop_inv lib g (fun _ => True) (Reachable g seedNodes)
      (fun u v p hu hv hok => ReachableVia.step hu hv hok) fuel _ _ _
      (firesOnly_true lib g _) (fun u hu => hu)
      (fun v hv => ReachableVia.seed (mem_setOfList.1 hv)) h

/-- Witness of C17: the path 0-1-2-3 with the middle probability 1/4 and samples 1/2,
seeded with 0. -/
theorem independentCascade_between_witness :
    ∃ res rs1, independentCascade halfLib 5 (pathGraph4 1 (1/4) 1) [0] 0 ⟨0, 0⟩
        = some (res, rs1) ∧
      (∀ s ∈ [0], s ∈ res) ∧ (∀ v ∈ res, Reachable (pathGraph4 1 (1/4) 1) [0] v) :=
  independentCascade_between halfLib (pathGraph4 1 (1/4) 1) (pathGraph4_wellFormed _ _ _)
    [0] (by simp [pathGraph4]) 5 (by simp [pathGraph4]) 0 ⟨0, 0⟩

/-! ## Safety of `degreeCentrality` -/

/-- C18: for every graph with one adjacency row per node and every `k ≤ nodes`, every index
access of `degreeCentrality` is in range (the function returns) and the result is a list of
exactly `k` pairwise-distinct node ids below `nodes` in which every returned node has a
degree greater than or equal to that of every node not returned. -/
theorem degreeCentrality_safe (g : Graph) (hlen : g.adjList.length = g.nodes) (k : Nat)
    (hk : k ≤ g.nodes) :
    ∃ seedNodes, degreeCentrality g k = some seedNodes ∧ seedNodes.length = k ∧
      seedNodes.Nodup ∧ (∀ v ∈ seedNodes, v < g.nodes) ∧
      (∀ v ∈ seedNodes, ∀ w, w < g.nodes → w ∉ seedNodes → degree g w ≤ degree g v) := by
  obtain ⟨L, hperm, hpair, hL, hlenL⟩ := sortDescending_ranking (degree g) g.nodes
  have hres : degreeCentrality g k = some (L.take k) := by
    unfold degreeCentrality
    rw [collectDegrees_eq g _ (fun i hi => by rw [hlen]; exact List.mem_range.1 hi)]
    simp only
    rw [topSeeds_eq_take, List.map_take, hL]
    rw [sortDescending_length]; simpa using hk
  have hnodup : L.Nodup := hperm.nodup_iff.2 (List.nodup_range _)
  refine ⟨L.take k, hres, ?_, ?_, ?_, ?_⟩
  · rw [List.length_take, hlenL]; omega
  · exact hnodup.sublist (List.take_sublist k L)
  · intro v hv
    exact List.mem_range.1 (hperm.subset (List.mem_of_mem_take hv))
  · intro v hv w hw hwout
    have hwL : w ∈ L := hperm.symm.subset (List.mem_range.2 hw)
    have hsplit : L = L.take k ++ L.drop k := (List.take_append_drop k L).symm
    have hwdrop : w ∈ L.drop k := by
      rw [hsplit] at hwL
      rcases List.mem_append.1 hwL with h | h
      · exact absurd h hwout
      · exact h
    rw [hsplit, List.pairwise_append] at hpair
    rcases hpair.2.2 v hv w hwdrop with h | ⟨h, _⟩
    · exact le_of_lt h
    · exact le_of_eq h

/-- Witness of C18: the path 0-1-2-3 with `k = 2`. -/
theorem degreeCentrality_safe_witness :
    ∃ seedNodes, degreeCentrality (pathGraph4 1 1 1) 2 = some seedNodes ∧
      seedNodes.length = 2 ∧ seedNodes.Nodup ∧
      (∀ v ∈ seedNodes, v < (pathGraph4 1 1 1).nodes) ∧
      (∀ v ∈ seedNodes, ∀ w, w < (pathGraph4 1 1 1).nodes → w ∉ seedNodes →
        degree (pathGraph4 1 1 1) w ≤ degree (pathGraph4 1 1 1) v) :=
  degreeCentrality_safe (pathGraph4 1 1 1) rfl 2 (by decide)

/-! ## What `independentCascade` reads and writes of the generator -/

theorem agreeOn_mono {lib lib2 : Stdlib} {s lo hi lo1 hi1 : Nat} (h : AgreeOn lib lib2 s lo hi)
    (hlo : lo ≤ lo1) (hhi : hi1 ≤ hi) : AgreeOn lib lib2 s lo1 hi1 :=
  ⟨h.1, fun i h1 h2 => h.2 i (by omega) (by omega)⟩

theorem attempt_reads (lib : Stdlib) (A : List Nat) (nbrs : List (Nat × ℚ)) (next : List Nat)
    (rs : RandState) :
    rs.pos ≤ (attemptNeighbors lib A nbrs next rs).2.pos ∧
    ∀ lib2, AgreeOn lib lib2 rs.seed rs.pos (attemptNeighbors lib A nbrs next rs).2.pos →
      attemptNeighbors lib2 A nbrs next rs = attemptNeighbors lib A nbrs next rs := by
  induction nbrs generalizing next rs with
  | nil => exact ⟨le_refl _, fun _ _ => rfl⟩
  | cons e rest ih =>
    obtain ⟨nb, p⟩ := e
    by_cases hA : nb ∈ A
    · have hun : ∀ l : Stdlib, attemptNeighbors l A ((nb, p) :: rest) next rs
          = attemptNeighbors l A rest next rs := by
        intro l; rw [attemptNeighbors, if_pos hA]
      rw [hun lib]
      refine ⟨(ih next rs).1, fun lib2 h2 => ?_⟩
      rw [hun lib2]
      exact (ih next rs).2 lib2 h2
    · by_cases hfire : sample lib (rand lib rs).1 ≤ p
      · have hun : attemptNeighbors lib A ((nb, p) :: rest) next rs
            = attemptNeighbors lib A rest (setInsert nb next) (rand lib rs).2 := by
          rw [attemptNeighbors, if_neg hA, if_pos hfire]
        rw [hun]
        have hle := (ih (setInsert nb next) (rand lib rs).2).1
        have hpos : (rand lib rs).2.pos = rs.pos + 1 := rfl
        refine ⟨by omega, fun lib2 h2 => ?_⟩
        have hval : lib2.gen rs.seed rs.pos = lib.gen rs.seed rs.pos :=
          h2.2 rs.pos (le_refl _) (by omega)
        have hsample : sample lib2 (rand lib2 rs).1 = sample lib (rand lib rs).1 := by
          simp only [sample, rand, hval, h2.1]
        have hstate : (rand lib2 rs).2 = (rand lib rs).2 := rfl
        rw [attemptNeighbors, if_neg hA, hsample, if_pos hfire, hstate]
        exact (ih _ _).2 lib2 (agreeOn_mono h2 (by omega) (le_refl _))
      · have hun : attemptNeighbors lib A ((nb, p) :: rest) next rs
            = attemptNeighbors lib A rest next (rand lib rs).2 := by
          rw [attemptNeighbors, if_neg hA, if_neg hfire]
        rw [hun]
        have hle := (ih next (rand lib rs).2).1
        have hpos : (rand lib rs).2.pos = rs.pos + 1 := rfl
        refine ⟨by omega, fun lib2 h2 => ?_⟩
        have hval : lib2.gen rs.seed rs.pos = lib.gen rs.seed rs.pos :=
          h2.2 rs.pos (le_refl _) (by omega)
        have hsample : sample lib2 (rand lib2 rs).1 = sample lib (rand lib rs).1 := by
          simp only [sample, rand, hval, h2.1]
        have hstate : (rand lib2 rs).2 = (rand lib rs).2 := rfl
        rw [attemptNeighbors, if_neg hA, hsample, if_neg hfire, hstate]
        exact (ih _ _).2 lib2 (agreeOn_mono h2 (by omega) (le_refl _))

theorem spreadWave_reads (lib : Stdlib) (g : Graph) (A F next : List Nat) (rs : RandState)
    {N : List Nat} {rs1 : RandState} (h : spreadWave lib g A F next rs = some (N, rs1)) :
    rs.pos ≤ rs1.pos ∧
    ∀ lib2, AgreeOn lib lib2 rs.seed rs.pos rs1.pos →
      spreadWave lib2 g A F next rs = some (N, rs1) := by
  induction F generalizing next rs with
  | nil =>
    simp only [spreadWave, Option.some.injEq, Prod.mk.injEq] at h
    obtain ⟨rfl, rfl⟩ := h
    exact ⟨le_refl _, fun _ _ => rfl⟩
  | cons u rest ih =>
    unfold spreadWave at h
    cases hrow : g.adjList[u]? with
    | none => simp [hrow] at h
    | some row =>
      simp only [hrow] at h
      obtain ⟨hle1, hread1⟩ := attempt_reads lib A row next rs
      obtain ⟨hle2, hread2⟩ := ih _ _ h
      refine ⟨by omega, fun lib2 h2 => ?_⟩
      unfold spreadWave
      simp only [hrow]
      rw [hread1 lib2 (agreeOn_mono h2 (le_refl _) hle2)]
      apply hread2 lib2
      rw [attempt_seed]
      exact agreeOn_mono h2 hle1 (le_refl _)

theorem cascadeLoop_reads (lib : Stdlib) (g : Graph) (fuel : Nat) (A F : List Nat)
    (rs : RandState) {res : List Nat} {rs1 : RandState}
    (h : cascadeLoop lib g fuel A F rs = some (res, rs1)) :
    rs.pos ≤ rs1.pos ∧
    ∀ lib2, AgreeOn lib lib2 rs.seed rs.pos rs1.pos →
      cascadeLoop lib2 g fuel A F rs = some (res, rs1) := by
  induction fuel generalizing A F rs with
  | zero => simp [cascadeLoop] at h
  | succ fuel ih =>
    cases F with
    | nil =>
      simp only [cascadeLoop, Option.some.injEq, Prod.mk.injEq] at h
      obtain ⟨rfl, rfl⟩ := h
      exact ⟨le_refl _, fun _ _ => by simp [cascadeLoop]⟩
    | cons a t =>
      obtain ⟨N, rs2, hN, hrec⟩ := cascadeLoop_cons_some h
      obtain ⟨hle1, hread1⟩ := spreadWave_reads lib g A (a :: t) [] rs hN
      obtain ⟨hle2, hread2⟩ := ih _ _ _ hrec
      refine ⟨by omega, fun lib2 h2 => ?_⟩
      unfold cascadeLoop
      simp only [hread1 lib2 (agreeOn_mono h2 (le_refl _) hle2)]
      apply hread2 lib2
      rw [spreadWave_seed _ _ _ _ _ _ hN]
      exact agreeOn_mono h2 hle1 (le_refl _)

/-- C16 (counterexample): `independentCascade` reseeds. Called in the state (seed 7, 5
samples drawn) with the clock value 0, on the two-node graph whose edge has probability
1/2 and with a generator that returns 0 at position 0 and `RAND_MAX` later, it activates node
1 (it drew position 0, not the next sample of the running stream) and leaves the state
(seed 0, 1 sample drawn), not (seed 7, 6 samples drawn); a second call from that state draws
position 0 again and returns the same result. -/
theorem independentCascade_reseeds_example :
    independentCascade flipLib 3 (edgeGraph (1/2)) [0] 0 ⟨7, 5⟩ = some ([0, 1], ⟨0, 1⟩) ∧
    independentCascade flipLib 3 (edgeGraph (1/2)) [0] 0 ⟨0, 1⟩ = some ([0, 1], ⟨0, 1⟩) ∧
    (attemptNeighbors flipLib [0] [(1, 1/2)] [] ⟨7, 5⟩).1 = [] ∧
    (attemptNeighbors flipLib [0] [(1, 1/2)] [] ⟨0, 1⟩).1 = [] ∧
    (⟨0, 1⟩ : RandState) ≠ ⟨7, 6⟩ := by
  refine ⟨by decide!, by decide!, by decide!, by decide!, by decide⟩

/-- C16 (amended): `independentCascade` reseeds the generator at every call. With the
generator state made explicit, the result of a call does not depend on the incoming state;
the state it leaves has the clock value as its seed; the call reads only the samples at the
positions below the final position of the stream of that seed (a generator that agrees
there gives the same result and final state); and a second call that reads the same clock
value draws the same samples again and returns the same result. -/
theorem independentCascade_reseeds (lib : Stdlib) (fuel : Nat) (g : Graph)
    (seedNodes : List Nat) (now : Nat) (rs : RandState) :
    (∀ rs0, independentCascade lib fuel g seedNodes now rs0
      = independentCascade lib fuel g seedNodes now rs) ∧
    (∀ res rs1, independentCascade lib fuel g seedNodes now rs = some (res, rs1) →
      rs1.seed = now ∧
      (∀ lib2, AgreeOn lib lib2 now 0 rs1.pos →
        independentCascade lib2 fuel g seedNodes now rs = some (res, rs1)) ∧
      independentCascade lib fuel g seedNodes now rs1 = some (res, rs1)) := by
  refine ⟨fun _ => rfl, fun res rs1 h => ⟨?_, ?_, h⟩⟩
  · exact cascadeLoop_seed lib g fuel _ _ _ h
  · intro lib2 h2
    exact (cascadeLoop_reads lib g fuel _ _ _ h).2 lib2 h2

/-- Witness of C16 (amended): the call of the counterexample, and the generator that always
returns 0, which agrees with `flipLib` at position 0. -/
theorem independentCascade_reseeds_witness :
    independentCascade flipLib 3 (edgeGraph (1/2)) [0] 0 ⟨7, 5⟩
      = independentCascade flipLib 3 (edgeGraph (1/2)) [0] 0 ⟨0, 0⟩ ∧
    (⟨0, 1⟩ : RandState).seed = 0 ∧
    independentCascade zeroLib 3 (edgeGraph (1/2)) [0] 0 ⟨0, 0⟩ = some ([0, 1], ⟨0, 1⟩) ∧
    independentCascade flipLib 3 (edgeGraph (1/2)) [0] 0 ⟨0, 1⟩ = some ([0, 1], ⟨0, 1⟩) :=
  have h := independentCascade_reseeds flipLib 3 (edgeGraph (1/2)) [0] 0 ⟨0, 0⟩
  have h1 := h.2 [0, 1] ⟨0, 1⟩ (by decide!)
  ⟨h.1 ⟨7, 5⟩, h1.1, h1.2.1 zeroLib ⟨rfl, fun i _ hi => by
    have : i = 0 := by simp at hi; omega
    subst this; rfl⟩, h1.2.2⟩

/-! ## The adjacency map of proposed_algo.cpp -/

theorem mapLookup_cons (k k0 : Int) (es : List Edge) (rest : AdjMap) :
    mapLookup k ((k0, es) :: rest) = if k0 = k then es else mapLookup k rest := by
  unfold mapLookup
  rw [List.find?_cons]
  by_cases h : k0 = k
  · simp [h]
  · simp [h]

theorem mapLookup_of_lt_keys (k : Int) (m : AdjMap) (h : ∀ x ∈ m.map Prod.fst, k < x) :
    mapLookup k m = [] := by
  induction m with
  | nil => rfl
  | cons e rest ih =>
    obtain ⟨k0, es⟩ := e
    have h0 : k < k0 := h k0 (by simp)
    rw [mapLookup_cons, if_neg (by omega)]
    exact ih (fun x hx => h x (by simp only [List.map_cons, List.mem_cons]; exact Or.inr hx))

theorem mapSorted_tail {e : Int × List Edge} {rest : AdjMap} (h : MapSorted (e :: rest)) :
    MapSorted rest ∧ ∀ x ∈ rest.map Prod.fst, e.1 < x := by
  unfold MapSorted at h ⊢
  rw [List.map_cons, List.sorted_cons] at h
  exact ⟨h.2, h.1⟩

theorem mem_keys_mapPushBack {u x : Int} {edge : Edge} {m : AdjMap} :
    x ∈ (mapPushBack u edge m).map Prod.fst ↔ x = u ∨ x ∈ m.map Prod.fst := by
  induction m with
  | nil => simp [mapPushBack]
  | cons e rest ih =>
    obtain ⟨k, es⟩ := e
    unfold mapPushBack
    split_ifs with h1 h2
    · simp
    · subst h2; simp
    · simp only [List.map_cons, List.mem_cons, ih]; tauto

theorem mapPushBack_sorted (u : Int) (edge : Edge) (m : AdjMap) (h : MapSorted m) :
    MapSorted (mapPushBack u edge m) := by
  induction m with
  | nil => simp [mapPushBack, MapSorted]
  | cons e rest ih =>
    obtain ⟨k, es⟩ := e
    obtain ⟨hrest, hlt⟩ := mapSorted_tail h
    unfold mapPushBack
    split_ifs with h1 h2
    · unfold MapSorted at h ⊢
      rw [List.map_cons, List.sorted_cons]
      refine ⟨?_, h⟩
      intro x hx
      simp only [List.map_cons, List.mem_cons] at hx
      rcases hx with rfl | hx
      · exact h1
      · exact lt_trans h1 (hlt x hx)
    · exact h
    · unfold MapSorted
      rw [List.map_cons, List.sorted_cons]
      refine ⟨?_, ih hrest⟩
      intro x hx
      rcases mem_keys_mapPushBack.1 hx with rfl | hx
      · simp only at h1 h2 ⊢; omega
      · exact hlt x hx

theorem mapInsertKey_sorted (key : Int) (m : AdjMap) (h : MapSorted m) :
    MapSorted (mapInsertKey key m) := by
  induction m with
  | nil => simp [mapInsertKey, MapSorted]
  | cons e rest ih =>
    obtain ⟨k, es⟩ := e
    obtain ⟨hrest, hlt⟩ := mapSorted_tail h
    unfold mapInsertKey
    split_ifs with h1 h2
    · unfold MapSorted at h ⊢
      rw [List.map_cons, List.sorted_cons]
      refine ⟨?_, h⟩
      intro x hx
      simp only [List.map_cons, List.mem_cons] at hx
      rcases hx with rfl | hx
      · exact h1
      · exact lt_trans h1 (hlt x hx)
    · exact h
    · unfold MapSorted
      rw [List.map_cons, List.sorted_cons]
      refine ⟨?_, ih hrest⟩
      intro x hx
      rcases mem_keys_mapInsertKey.1 hx with rfl | hx
      · simp only at h1 h2 ⊢; omega
      · exact hlt x hx

theorem mapLookup_mapPushBack (u k : Int) (edge : Edge) (m : AdjMap) (h : MapSorted m) :
    mapLookup k (mapPushBack u edge m)
      = if k = u then mapLookup u m ++ [edge] else mapLookup k m := by
  induction m with
  | nil =>
    simp only [mapPushBack, mapLookup_cons]
    by_cases hk : k = u
    · subst hk; simp [mapLookup]
    · rw [if_neg (Ne.symm hk), if_neg hk]
  | cons e rest ih =>
    obtain ⟨k0, es⟩ := e
    obtain ⟨hrest, hlt⟩ := mapSorted_tail h
    rw [mapPushBack]
    by_cases h1 : u < k0
    · have hnil : mapLookup u ((k0, es) :: rest) = [] := by
        apply mapLookup_of_lt_keys
        intro x hx
        simp only [List.map_cons, List.mem_cons] at hx
        rcases hx with rfl | hx
        · exact h1
        · exact lt_trans h1 (hlt x hx)
      rw [if_pos h1, mapLookup_cons]
      by_cases h3 : k = u
      · subst h3; rw [if_pos rfl, if_pos rfl, hnil]; rfl
      · rw [if_neg (Ne.symm h3), if_neg h3]
    · rw [if_neg h1]
      by_cases h2 : u = k0
      · subst h2
        rw [if_pos rfl, mapLookup_cons]
        by_cases h4 : k = u
        · subst h4; rw [if_pos rfl, if_pos rfl, mapLookup_cons, if_pos rfl]
        · rw [if_neg (Ne.symm h4), if_neg h4, mapLookup_cons, if_neg (Ne.symm h4)]
      · rw [if_neg h2, mapLookup_cons, ih hrest]
        by_cases h5 : k = u
        · subst h5
          rw [if_neg (Ne.symm h2), if_pos rfl, if_pos rfl, mapLookup_cons,
            if_neg (Ne.symm h2)]
        · rw [if_neg h5, if_neg h5, mapLookup_cons]

theorem mapLookup_mapInsertKey (key k : Int) (m : AdjMap) (h : MapSorted m) :
    mapLookup k (mapInsertKey key m) = mapLookup k m := by
  induction m with
  | nil =>
    simp only [mapInsertKey, mapLookup_cons]
    split_ifs <;> rfl
  | cons e rest ih =>
    obtain ⟨k0, es⟩ := e
    obtain ⟨hrest, hlt⟩ := mapSorted_tail h
    unfold mapInsertKey
    split_ifs with h1 h2
    · rw [mapLookup_cons]
      split_ifs with h3
      · subst h3
        symm
        apply mapLookup_of_lt_keys
        intro x hx
        simp only [List.map_cons, List.mem_cons] at hx
        rcases hx with rfl | hx
        · exact h1
        · exact lt_trans h1 (hlt x hx)
      · rfl
    · rfl
    · rw [mapLookup_cons, ih hrest, mapLookup_cons]

theorem buildGraph_sorted (triples : List (Int × Int × ℚ)) (m : AdjMap) (h : MapSorted m) :
    MapSorted (buildGraph triples m) := by
  induction triples generalizing m with
  | nil => exact h
  | cons t rest ih =>
    simp only [buildGraph, List.foldl_cons]
    exact ih _ (mapPushBack_sorted _ _ _ h)

theorem buildGraph_lookup (triples : List (Int × Int × ℚ)) (m : AdjMap) (h : MapSorted m)
    (k : Int) : mapLookup k (buildGraph triples m) = mapLookup k m ++ edgesFrom triples k := by
  induction triples generalizing m with
  | nil => simp [buildGraph, edgesFrom]
  | cons t rest ih =>
    have hstep : buildGraph (t :: rest) m = buildGraph rest (mapPushBack t.1 ⟨t.2.1, t.2.2⟩ m) := by
      simp [buildGraph]
    rw [hstep, ih _ (mapPushBack_sorted _ _ _ h), mapLookup_mapPushBack _ _ _ _ h]
    unfold edgesFrom
    rw [List.filter_cons]
    by_cases hk : k = t.1
    · subst hk; simp
    · have : ¬ (t.1 = k) := fun h => hk h.symm
      simp [hk, this]

/-- C15 (counterexample): after reading the single triple `0 1 1`, `buildGraph` has stored
the edge 0→(1,1) and no edge for the key 1: the mirrored edge 1→(0,1) is absent. -/
theorem buildGraph_not_mirrored :
    mapLookup 0 (buildGraph [(0, 1, 1)] []) = [⟨1, 1⟩] ∧
    mapLookup 1 (buildGraph [(0, 1, 1)] []) = [] :=
  ⟨rfl, rfl⟩

/-- C15 (amended): the graph `buildGraph` builds from any sequence of triples is directed.
The vector stored for a key `u` holds exactly one edge `(v, p)` for each triple `u v p`
read, in the order of the file; so for every triple read the edge u→(v,p) is present, and
the mirrored edge v→(u,p) is present only when the file also holds a triple `v u p`. -/
theorem buildGraph_directed (triples : List (Int × Int × ℚ)) :
    MapSorted (buildGraph triples []) ∧
    (∀ k, mapLookup k (buildGraph triples []) = edgesFrom triples k) ∧
    (∀ u v p, (u, v, p) ∈ triples → (⟨v, p⟩ : Edge) ∈ mapLookup u (buildGraph triples [])) ∧
    (∀ u v p, (⟨u, p⟩ : Edge) ∈ mapLookup v (buildGraph triples []) ↔ (v, u, p) ∈ triples) := by
  have hsorted : MapSorted ([] : AdjMap) := by simp [MapSorted]
  have hlook : ∀ k, mapLookup k (buildGraph triples []) = edgesFrom triples k := by
    intro k
    rw [buildGraph_lookup triples [] hsorted k]
    rfl
  have hmem : ∀ u v p, (⟨u, p⟩ : Edge) ∈ edgesFrom triples v ↔ (v, u, p) ∈ triples := by
    intro u v p
    simp only [edgesFrom, List.mem_map, List.mem_filter, decide_eq_true_eq]
    constructor
    · rintro ⟨⟨a, b, c⟩, ⟨hin, ha⟩, heq⟩
      simp only [Edge.mk.injEq] at heq
      simp only at ha
      obtain ⟨rfl, rfl⟩ := heq
      subst ha
      exact hin
    · intro hin
      exact ⟨(v, u, p), ⟨hin, rfl⟩, rfl⟩
  refine ⟨buildGraph_sorted triples [] hsorted, hlook, ?_, ?_⟩
  · intro u v p hin
    rw [hlook]
    exact (hmem v u p).2 hin
  · intro u v p
    rw [hlook]
    exact hmem u v p

/-! ## What `simulateInfluence` returns -/

theorem tryEdges_inv (lib : Stdlib) (already : List Int) (R : Int → Prop) (edges : List Edge)
    (hedges : ∀ e ∈ edges, R e.target) (newly q : List Int) (rs : RandState)
    (hnewly : ∀ v ∈ newly, v ∉ already ∧ R v) (hq : ∀ x ∈ q, R x) :
    (∀ v ∈ (tryEdges lib already edges newly q rs).1, v ∉ already ∧ R v) ∧
    (∀ x ∈ (tryEdges lib already edges newly q rs).2.1, R x) := by
  induction edges generalizing newly q rs with
  | nil => exact ⟨hnewly, hq⟩
  | cons e rest ih =>
    have hrest : ∀ e ∈ rest, R e.target := fun e he => hedges e (List.mem_cons_of_mem _ he)
    have he : R e.target := hedges e (List.mem_cons_self _ _)
    unfold tryEdges
    split_ifs with h1 h2
    · apply ih hrest
      · intro v hv
        rcases mem_setInsert.1 hv with rfl | hv
        · exact ⟨h1.1, he⟩
        · exact hnewly v hv
      · intro x hx
        rcases List.mem_append.1 hx with hx | hx
        · exact hq x hx
        · simp at hx; subst hx; exact he
    · exact ih hrest _ _ _ hnewly hq
    · exact ih hrest _ _ _ hnewly hq

theorem simulateQueue_inv (lib : Stdlib) (already : List Int) (m0 : AdjMap) (node : Int)
    (fuel : Nat) (m : AdjMap) (newly q : List Int) (rs : RandState) (hsorted : MapSorted m)
    (hlook : ∀ k, mapLookup k m = mapLookup k m0)
    (hnewly : ∀ v ∈ newly, v ∉ already ∧ MapReachable m0 node v)
    (hq : ∀ x ∈ q, MapReachable m0 node x)
    {m1 : AdjMap} {newly1 : List Int} {rs1 : RandState}
    (h : simulateQueue lib already fuel m newly q rs = some (m1, newly1, rs1)) :
    MapSorted m1 ∧ (∀ k, mapLookup k m1 = mapLookup k m0) ∧
      ∀ v ∈ newly1, v ∉ already ∧ MapReachable m0 node v := by
  induction fuel generalizing m newly q rs with
  | zero => simp [simulateQueue] at h
  | succ fuel ih =>
    cases q with
    | nil =>
      simp only [simulateQueue, Option.some.injEq, Prod.mk.injEq] at h
      obtain ⟨rfl, rfl, _⟩ := h
      exact ⟨hsorted, hlook, hnewly⟩
    | cons current q1 =>
      unfold simulateQueue at h
      simp only at h
      have hcur : MapReachable m0 node current := hq current (List.mem_cons_self _ _)
      have hedges : ∀ e ∈ mapLookup current m, MapReachable m0 node e.target := by
        intro e he
        rw [hlook] at he
        exact MapReachable.step hcur he
      obtain ⟨hn1, hq1⟩ := tryEdges_inv lib already (MapReachable m0 node)
        (mapLookup current m) hedges newly q1 rs hnewly
        (fun x hx => hq x (List.mem_cons_of_mem _ hx))
      exact ih _ _ _ _ (mapInsertKey_sorted _ _ hsorted)
        (fun k => by rw [mapLookup_mapInsertKey _ _ _ hsorted, hlook]) hn1 hq1 h

theorem simulateRuns_inv (lib : Stdlib) (already : List Int) (m0 : AdjMap) (node : Int)
    (fuel n : Nat) (m : AdjMap) (newly : List Int) (rs : RandState) (hsorted : MapSorted m)
    (hlook : ∀ k, mapLookup k m = mapLookup k m0)
    (hnewly : ∀ v ∈ newly, v ∉ already ∧ MapReachable m0 node v)
    {m1 : AdjMap} {newly1 : List Int} {rs1 : RandState}
    (h : simulateRuns lib fuel node already n m newly rs = some (m1, newly1, rs1)) :
    MapSorted m1 ∧ (∀ k, mapLookup k m1 = mapLookup k m0) ∧
      ∀ v ∈ newly1, v ∉ already ∧ MapReachable m0 node v := by
  induction n generalizing m newly rs with
  | zero =>
    simp only [simulateRuns, Option.some.injEq, Prod.mk.injEq] at h
    obtain ⟨rfl, rfl, _⟩ := h
    exact ⟨hsorted, hlook, hnewly⟩
  | succ n ih =>
    unfold simulateRuns at h
    cases hq : simulateQueue lib already fuel m newly [node] rs with
    | none => simp [hq] at h
    | some r =>
      obtain ⟨m2, newly2, rs2⟩ := r
      simp only [hq] at h
      obtain ⟨hs2, hl2, hn2⟩ := simulateQueue_inv lib already m0 node fuel m newly [node] rs
        hsorted hlook hnewly (by intro x hx; simp at hx; subst hx; exact MapReachable.refl) hq
      exact ih _ _ _ hs2 hl2 hn2 h

/-- C13: for every adjacency map (keys ascending, as in `std::map`), candidate node,
`alreadyInfluenced` set, number of simulations, generator state and enough fuel,
`simulateInfluence` returns a set that is disjoint from `alreadyInfluenced` and whose nodes
are all reachable from the candidate along the directed edges of the map (which the call
leaves unchanged); so the marginal gain, the size of that set, counts only nodes that are
not already influenced. -/
theorem simulateInfluence_new_reachable (lib : Stdlib) (fuel : Nat) (node : Int)
    (alreadyInfluenced : List Int) (numSimulations : Nat) (m : AdjMap) (rs : RandState)
    (hsorted : MapSorted m) (hfuel : (allTargets m).length + 2 ≤ fuel) :
    ∃ m1 newlyInfluenced rs1,
      simulateInfluence lib fuel node alreadyInfluenced numSimulations m rs
        = some (m1, newlyInfluenced, rs1) ∧
      (∀ v ∈ newlyInfluenced, v ∉ alreadyInfluenced) ∧
      (∀ v ∈ newlyInfluenced, MapReachable m node v) ∧
      (∀ k, mapLookup k m1 = mapLookup k m) := by
  obtain ⟨m1, newly1, rs1, h, _, _⟩ := simulateRuns_spec lib alreadyInfluenced (allTargets m)
    (node :: (m.map Prod.fst ++ allTargets m))
    (fun t ht => List.mem_cons_of_mem _ (List.mem_append_right _ ht)) fuel hfuel node
    (List.mem_cons_self _ _) numSimulations m [] rs rfl
    (fun x hx => List.mem_cons_of_mem _ (List.mem_append_left _ hx))
  obtain ⟨_, hl, hn⟩ := simulateRuns_inv lib alreadyInfluenced m node fuel numSimulations m []
    rs hsorted (fun _ => rfl) (by simp) h
  exact ⟨m1, newly1, rs1, h, fun v hv => (hn v hv).1, fun v hv => (hn v hv).2, hl⟩

/-- Witness of C13: the candidate 5 on `chainMap` with node 1 already influenced. -/
theorem simulateInfluence_new_reachable_witness :
    ∃ m1 newlyInfluenced rs1,
      simulateInfluence zeroLib 5 5 [1] 100 chainMap ⟨0, 0⟩
        = some (m1, newlyInfluenced, rs1) ∧
      (∀ v ∈ newlyInfluenced, v ∉ [1]) ∧
      (∀ v ∈ newlyInfluenced, MapReachable chainMap 5 v) ∧
      (∀ k, mapLookup k m1 = mapLookup k chainMap) :=
  simulateInfluence_new_reachable zeroLib 5 5 [1] 100 chainMap ⟨0, 0⟩
    (buildGraph_sorted _ [] (by simp [MapSorted])) (by decide)

/-- C14 (the code at the failing input): on the map built from the single triple `0 1 1`,
with a generator that always returns 0, `marginalGainMaximization(1)` returns the seed set
`[0]` and the influenced set `{1}`: the seed 0 is not a member of the influenced set. -/
theorem marginalGainMaximization_seed_not_influenced :
    (marginalGainMaximization zeroLib 5 1 (buildGraph [(0, 1, 1)] []) ⟨0, 0⟩).map
      (fun r => (r.1, r.2.1)) = some ([0], [1]) ∧
    (0 : Int) ∉ ([1] : List Int) := by
  refine ⟨by decide!, by decide⟩

/-! ## Path counts and predecessors of the breadth-first search -/

theorem getD_eq_getElem_list {α : Type} (l : List α) (i : Nat) (d : α) (hi : i < l.length) :
    l.getD i d = l[i] := by
  rw [List.getD_eq_getElem?_getD, List.getElem?_eq_getElem hi]; rfl

theorem bfsInv_getD_ge {n : Nat} {st : BfsState} (hinv : BfsInv n st) (i : Nat) :
    -1 ≤ st.distance.getD i (-1) := by
  by_cases hi : i < st.distance.length
  · rw [getD_eq_getElem_list _ _ _ hi]
    exact hinv.hge _ (List.getElem_mem hi)
  · rw [List.getD_eq_getElem?_getD, List.getElem?_eq_none (by omega)]; rfl

theorem bfsDiscover_eq {n curr nextNode : Nat} {st : BfsState} (hinv : BfsInv n st)
    (hc : curr < n) (hn : nextNode < n) :
    bfsDiscover curr nextNode st = some
      (if st.distance.getD nextNode (-1) = -1 then
        { st with
          distance := st.distance.set nextNode (st.distance.getD curr (-1) + 1),
          q := st.q ++ [nextNode] }
      else st) := by
  have hn1 : nextNode < st.distance.length := by rw [hinv.hdist]; exact hn
  have hc1 : curr < st.distance.length := by rw [hinv.hdist]; exact hc
  unfold bfsDiscover
  rw [List.getElem?_eq_getElem hn1, List.getElem?_eq_getElem hc1,
    getD_eq_getElem_list _ _ _ hn1, getD_eq_getElem_list _ _ _ hc1]
  simp only
  split_ifs <;> rfl

theorem bfsRelax_eq {n curr nextNode : Nat} {st : BfsState} (hinv : BfsInv n st)
    (hc : curr < n) (hn : nextNode < n) :
    bfsRelax curr nextNode st = some
      (if st.distance.getD nextNode (-1) = st.distance.getD curr (-1) + 1 then
        { st with
          shortestPaths := st.shortestPaths.set nextNode
            (st.shortestPaths.getD nextNode 0 + st.shortestPaths.getD curr 0),
          predecessors := st.predecessors.set nextNode
            (st.predecessors.getD nextNode [] ++ [curr]) }
      else st) := by
  have hn1 : nextNode < st.distance.length := by rw [hinv.hdist]; exact hn
  have hc1 : curr < st.distance.length := by rw [hinv.hdist]; exact hc
  have hn2 : nextNode < st.shortestPaths.length := by rw [hinv.hsp]; exact hn
  have hc2 : curr < st.shortestPaths.length := by rw [hinv.hsp]; exact hc
  have hn3 : nextNode < st.predecessors.length := by rw [hinv.hpred]; exact hn
  unfold bfsRelax
  rw [List.getElem?_eq_getElem hn1, List.getElem?_eq_getElem hc1,
    List.getElem?_eq_getElem hn2, List.getElem?_eq_getElem hc2, List.getElem?_eq_getElem hn3,
    getD_eq_getElem_list _ _ _ hn1, getD_eq_getElem_list _ _ _ hc1,
    getD_eq_getElem_list _ _ _ hn2, getD_eq_getElem_list _ _ _ hc2,
    getD_eq_getElem_list _ _ _ hn3]
  simp only
  split_ifs <;> rfl

/-- Relaxing an edge into a reached node of the right distance keeps the invariant. -/
theorem bfsRelax_path {n curr nextNode : Nat} {st : BfsState} (hinv : BfsInv n st)
    (hc : curr < n) (hn : nextNode < n)
    (hqd : ∀ x ∈ st.q, st.distance.getD x (-1) ≠ -1)
    (hsp : ∀ i, i ≠ nextNode → st.distance.getD i (-1) ≠ -1 → 1 ≤ st.shortestPaths.getD i 0)
    (hspn : st.distance.getD nextNode (-1) ≠ -1 →
      st.distance.getD nextNode (-1) = st.distance.getD curr (-1) + 1 ∨
        1 ≤ st.shortestPaths.getD nextNode 0)
    (hpd : ∀ i, ∀ p ∈ st.predecessors.getD i [],
      st.distance.getD p (-1) ≠ -1 ∧ st.distance.getD i (-1) = st.distance.getD p (-1) + 1)
    (hcd : st.distance.getD curr (-1) ≠ -1)
    (hcs : 1 ≤ st.shortestPaths.getD curr 0) :
    ∃ st2, bfsRelax curr nextNode st = some st2 ∧ BfsPathInv st2 ∧
      st2.distance = st.distance := by
  have hn2 : nextNode < st.shortestPaths.length := by rw [hinv.hsp]; exact hn
  have hn3 : nextNode < st.predecessors.length := by rw [hinv.hpred]; exact hn
  rw [bfsRelax_eq hinv hc hn]
  split_ifs with hfire
  · refine ⟨_, rfl, ⟨hqd, ?_, ?_⟩, rfl⟩
    · intro i hi
      simp only at hi ⊢
      rw [getD_set_list _ _ _ _ _ hn2]
      split_ifs with h
      · omega
      · exact hsp i (Ne.symm h) hi
    · intro i p hp
      simp only at hp ⊢
      rw [getD_set_list _ _ _ _ _ hn3] at hp
      split_ifs at hp with h
      · subst h
        rcases List.mem_append.1 hp with hp | hp
        · exact hpd _ p hp
        · simp at hp; subst hp; exact ⟨hcd, hfire⟩
      · exact hpd i p hp
  · refine ⟨st, rfl, ⟨hqd, ?_, hpd⟩, rfl⟩
    intro i hi
    by_cases h : i = nextNode
    · subst h
      rcases hspn hi with h1 | h1
      · exact absurd h1 hfire
      · exact h1
    · exact hsp i h hi

theorem bfsStep_path {n curr nextNode : Nat} {st : BfsState} (hinv : BfsInv n st)
    (hpath : BfsPathInv st) (hc : curr < n) (hn : nextNode < n)
    (hcd : st.distance.getD curr (-1) ≠ -1) :
    ∃ st1 st2, bfsDiscover curr nextNode st = some st1 ∧
      bfsRelax curr nextNode st1 = some st2 ∧ BfsInv n st2 ∧ BfsPathInv st2 ∧
      bfsMeasure st2 = bfsMeasure st ∧ st2.distance.getD curr (-1) ≠ -1 := by
  obtain ⟨st1, h1, hinv1, hm1⟩ := bfsDiscover_spec hinv hc hn
  obtain ⟨st2', h2', hinv2, hm2⟩ := bfsRelax_spec hinv1 hc hn
  have hform := bfsDiscover_eq hinv hc hn
  rw [h1] at hform
  have hn1 : nextNode < st.distance.length := by rw [hinv.hdist]; exact hn
  have hcge := bfsInv_getD_ge hinv curr
  have hcs : 1 ≤ st.shortestPaths.getD curr 0 := hpath.hsp curr hcd
  by_cases hdn : st.distance.getD nextNode (-1) = -1
  · rw [if_pos hdn] at hform
    have hst1 := Option.some.inj hform
    have hne : nextNode ≠ curr := by
      intro h; rw [h] at hdn; exact hcd hdn
    have hD : ∀ i, st1.distance.getD i (-1)
        = if nextNode = i then st.distance.getD curr (-1) + 1 else st.distance.getD i (-1) := by
      intro i; rw [hst1]; exact getD_set_list _ _ _ _ _ hn1
    have hDc : st1.distance.getD curr (-1) = st.distance.getD curr (-1) := by
      rw [hD, if_neg hne]
    have hDn : st1.distance.getD nextNode (-1) = st.distance.getD curr (-1) + 1 := by
      rw [hD, if_pos rfl]
    have hsp1 : st1.shortestPaths = st.shortestPaths := by rw [hst1]
    have hpr1 : st1.predecessors = st.predecessors := by rw [hst1]
    have hq1 : st1.q = st.q ++ [nextNode] := by rw [hst1]
    obtain ⟨st2, h2, hp2, hd2⟩ := bfsRelax_path hinv1 hc hn
      (by
        intro x hx
        rw [hq1] at hx
        rw [hD]
        split_ifs with h
        · omega
        · rcases List.mem_append.1 hx with hx | hx
          · exact hpath.hqd x hx
          · simp at hx; exact absurd hx.symm h)
      (by
        intro i hi hdi
        rw [hD, if_neg (Ne.symm hi)] at hdi
        rw [hsp1]
        exact hpath.hsp i hdi)
      (fun _ => Or.inl (by rw [hDn, hDc]))
      (by
        intro i p hp
        rw [hpr1] at hp
        obtain ⟨hp1, hp2⟩ := hpath.hpd i p hp
        have hpn : nextNode ≠ p := by
          intro h; rw [← h] at hp1; exact hp1 hdn
        have hin : nextNode ≠ i := by
          intro h
          rw [← h] at hp2
          have := bfsInv_getD_ge hinv p
          omega
        rw [hD, hD, if_neg hpn, if_neg hin]
        exact ⟨hp1, hp2⟩)
      (by rw [hDc]; exact hcd)
      (by rw [hsp1]; exact hcs)
    have hinv2' : BfsInv n st2 := by
      rw [h2'] at h2; rw [← Option.some.inj h2]; exact hinv2
    have hm2' : bfsMeasure st2 = bfsMeasure st1 := by
      rw [h2'] at h2; rw [← Option.some.inj h2]; exact hm2
    exact ⟨st1, st2, h1, h2, hinv2', hp2, by omega, by rw [hd2, hDc]; exact hcd⟩
  · rw [if_neg hdn] at hform
    have hst1 := Option.some.inj hform
    subst hst1
    obtain ⟨st2, h2, hp2, hd2⟩ := bfsRelax_path hinv1 hc hn hpath.hqd
      (fun i _ hdi => hpath.hsp i hdi) (fun h => Or.inr (hpath.hsp nextNode h)) hpath.hpd hcd hcs
    have hinv2' : BfsInv n st2 := by
      rw [h2'] at h2; rw [← Option.some.inj h2]; exact hinv2
    have hm2' : bfsMeasure st2 = bfsMeasure st1 := by
      rw [h2'] at h2; rw [← Option.some.inj h2]; exact hm2
    exact ⟨st1, st2, h1, h2, hinv2', hp2, by omega, by rw [hd2]; exact hcd⟩

theorem bfsNeighbors_path {n curr : Nat} (nexts : List Nat) (hnexts : ∀ x ∈ nexts, x < n)
    (hc : curr < n) {st : BfsState} (hinv : BfsInv n st) (hpath : BfsPathInv st)
    (hcd : st.distance.getD curr (-1) ≠ -1) :
    ∃ st1, bfsNeighbors curr nexts st = some st1 ∧ BfsInv n st1 ∧ BfsPathInv st1 ∧
      bfsMeasure st1 = bfsMeasure st := by
  induction nexts generalizing st with
  | nil => exact ⟨st, rfl, hinv, hpath, rfl⟩
  | cons x rest ih =>
    obtain ⟨st1, st2, h1, h2, hinv2, hp2, hm2, hcd2⟩ := bfsStep_path hinv hpath hc
      (hnexts x (List.mem_cons_self _ _)) hcd
    obtain ⟨st3, h3, hinv3, hp3, hm3⟩ := ih (fun y hy => hnexts y (List.mem_cons_of_mem _ hy))
      hinv2 hp2 hcd2
    refine ⟨st3, ?_, hinv3, hp3, by omega⟩
    unfold bfsNeighbors
    simp only [h1, h2, h3]

theorem bfsLoop_path (g : Graph) (hwf : g.WellFormed) (fuel : Nat) {st : BfsState}
    (hinv : BfsInv g.nodes st) (hpath : BfsPathInv st) (hfuel : bfsMeasure st + 1 ≤ fuel) :
    ∃ st1, bfsLoop g fuel st = some st1 ∧ BfsInv g.nodes st1 ∧ BfsPathInv st1 := by
  induction fuel generalizing st with
  | zero => omega
  | succ fuel ih =>
    unfold bfsLoop
    cases hq : st.q with
    | nil => exact ⟨st, rfl, hinv, hpath⟩
    | cons curr q1 =>
      have hcq : curr ∈ st.q := by rw [hq]; exact List.mem_cons_self _ _
      have hc : curr < g.nodes := hinv.hq curr hcq
      have hc1 : curr < g.adjList.length := by rw [hwf.1]; exact hc
      simp only [List.getElem?_eq_getElem hc1]
      have hinv0 : BfsInv g.nodes { st with q := q1 } :=
        ⟨hinv.hsp, hinv.hpred, hinv.hdist,
          fun x hx => hinv.hq x (by rw [hq]; exact List.mem_cons_of_mem _ hx),
          hinv.hge, hinv.hpredlt⟩
      have hpath0 : BfsPathInv { st with q := q1 } :=
        ⟨fun x hx => hpath.hqd x (by rw [hq]; exact List.mem_cons_of_mem _ hx),
          hpath.hsp, hpath.hpd⟩
      have hnexts : ∀ x ∈ (g.adjList[curr]).map Prod.fst, x < g.nodes := by
        intro x hx
        obtain ⟨e, he, rfl⟩ := List.mem_map.1 hx
        exact hwf.2 _ (List.getElem_mem hc1) e he
      obtain ⟨st1, h1, hinv1, hp1, hm1⟩ := bfsNeighbors_path _ hnexts hc hinv0 hpath0
        (hpath.hqd curr hcq)
      simp only [h1]
      apply ih hinv1 hp1
      have : bfsMeasure { st with q := q1 } + 1 = bfsMeasure st := by
        simp [bfsMeasure, hq]; omega
      omega

theorem bfsInit_path (g : Graph) {src : Nat} (hsrc : src < g.nodes) :
    BfsPathInv (bfsInit g src) := by
  have hlen : src < (List.replicate g.nodes (-1 : Int)).length := by simpa using hsrc
  have hlen2 : src < (List.replicate g.nodes (0 : Nat)).length := by simpa using hsrc
  have hD : ∀ i, (bfsInit g src).distance.getD i (-1) = if src = i then 0 else -1 := by
    intro i
    simp only [bfsInit]
    rw [getD_set_list _ _ _ _ _ hlen]
    split_ifs with h
    · rfl
    · rw [List.getD_eq_getElem?_getD]
      by_cases hi : i < g.nodes
      · rw [List.getElem?_eq_getElem (by simpa using hi)]; simp
      · rw [List.getElem?_eq_none (by simpa using hi)]; rfl
  refine ⟨?_, ?_, ?_⟩
  · intro x hx
    simp only [bfsInit, List.mem_singleton] at hx
    subst hx
    rw [hD, if_pos rfl]; omega
  · intro i hi
    rw [hD] at hi
    split_ifs at hi with h
    · subst h
      simp only [bfsInit]
      rw [getD_set_list _ _ _ _ _ hlen2, if_pos rfl]
    · exact absurd rfl hi
  · intro i p hp
    simp only [bfsInit] at hp
    rw [List.getD_eq_getElem?_getD] at hp
    by_cases hi : i < g.nodes
    · rw [List.getElem?_eq_getElem (by simpa using hi)] at hp; simp at hp
    · rw [List.getElem?_eq_none (by simpa using hi)] at hp; simp at hp

/-- C19: in `betweennessCentrality`, on a well-formed graph with exact integer arithmetic,
the search from every source returns and afterwards every node placed on the stack
(`distance != -1`) has `shortestPaths[node] ≥ 1`, so the division by `shortestPaths[node]`
is never a division by zero, and every predecessor recorded for a node is reached and has
a distance exactly one less than the node. -/
theorem bfs_path_counts_positive (g : Graph) (hwf : g.WellFormed) (fuel : Nat)
    (hfuel : g.nodes + 1 ≤ fuel) (src : Nat) (hsrc : src < g.nodes) :
    ∃ st, bfsLoop g fuel (bfsInit g src) = some st ∧
      (∀ node ∈ buildStack g st.distance, 1 ≤ st.shortestPaths.getD node 0) ∧
      (∀ node, ∀ pred ∈ st.predecessors.getD node [],
        st.distance.getD pred (-1) ≠ -1 ∧
        st.distance.getD pred (-1) = st.distance.getD node (-1) - 1) := by
  obtain ⟨hinit, hm⟩ := bfsInit_inv g hsrc
  obtain ⟨st, hst, _, hpath⟩ := bfsLoop_path g hwf fuel hinit (bfsInit_path g hsrc) (by omega)
  refine ⟨st, hst, ?_, ?_⟩
  · intro node hnode
    simp only [buildStack, List.mem_reverse, List.mem_filter, List.mem_range,
      decide_eq_true_eq] at hnode
    exact hpath.hsp node hnode.2
  · intro node pred hpred
    obtain ⟨h1, h2⟩ := hpath.hpd node pred hpred
    exact ⟨h1, by omega⟩

/-- Witness of C19: the search from the source 3 on the path 0-1-2-3. -/
theorem bfs_path_counts_positive_witness :
    ∃ st, bfsLoop (pathGraph4 1 1 1) 5 (bfsInit (pathGraph4 1 1 1) 3) = some st ∧
      (∀ node ∈ buildStack (pathGraph4 1 1 1) st.distance, 1 ≤ st.shortestPaths.getD node 0) ∧
      (∀ node, ∀ pred ∈ st.predecessors.getD node [],
        st.distance.getD pred (-1) ≠ -1 ∧
        st.distance.getD pred (-1) = st.distance.getD node (-1) - 1) :=
  bfs_path_counts_positive (pathGraph4 1 1 1) (pathGraph4_wellFormed 1 1 1) 5 (le_refl 5) 3
    (by decide)

end DSAProg
